import Mathlib

/-!
# Verification of `balasanjay/totp`

A shallow embedding of `totp.go` (package `totp`) and theorems about
`Authenticate` and `BarcodeImage`.

Conventions of the embedding.

* A Go `byte` is a `Fin 256`; a Go `string` and a `[]byte` are lists of bytes
  (`len` is the list length, as in Go where `len` of a string counts bytes).
* A Go `int64` is an `Int`; the operations that can overflow are followed by
  `wrap64`, the two's-complement reduction into `[-2^63, 2^63)`.
* A run-time failure of Go (a panic) is a value of `Panic`; a function that
  can fail returns `Except Panic _`.
* The two things `Authenticate` consults outside its arguments, the clock
  `o.Time` and the hash `o.Hash`, leave an `Event` in the run's event list,
  in the order of the calls. Both are function values that may be nil.
* The exported package variable `DefaultOptions` can be assigned to by any
  program; the value it holds at a call is the first argument of
  `Authenticate` and of `BarcodeImage`.
* The package `qr` that `BarcodeImage` calls is outside the repository and is
  an argument of the embedding; the functions of the Go standard library are
  modelled from their documentation.
-/

namespace totp

/-! ## Machine integers and bytes -/

/-- A Go `byte` (`uint8`). -/
abbrev Byte := Fin 256

/-- Two's-complement reduction of an integer into the `int64` range. -/
def wrap64 (x : Int) : Int := (x + 2 ^ 63) % 2 ^ 64 - 2 ^ 63

/-- The values of Go's `int64`. -/
def isInt64 (x : Int) : Prop := -2 ^ 63 ≤ x ∧ x < 2 ^ 63

instance (x : Int) : Decidable (isInt64 x) := by
  unfold isInt64; infer_instance

/-- Go's conversion `byte(x)` of an `int64`: the low eight bits. -/
def byte (x : Int) : Byte := ⟨(x % 256).toNat, by omega⟩

/-- The run-time failures of Go that `Authenticate` and `BarcodeImage` can
meet. -/
inductive Panic where
  /-- Go's `panic: runtime error: integer divide by zero`. -/
  | divideByZero
  /-- Go's `panic: runtime error: index out of range`. -/
  | indexOutOfRange
  /-- Go's `panic: runtime error: slice bounds out of range`. -/
  | sliceBoundsOutOfRange
  /-- Go's `panic: runtime error: invalid memory address or nil pointer
  dereference`: a field of a nil `*Options` was read, or a nil function was
  called. -/
  | nilDereference
  /-- The panic of `hmac.New`: `crypto/hmac: hash generation function does not
  produce unique values`. -/
  | hashNotUnique
  deriving DecidableEq, Repr

deriving instance DecidableEq for Except

/-- Go's index expression `s[i]` on a slice. -/
def index {α : Type} (s : List α) (i : Nat) : Except Panic α :=
  match s.get? i with
  | some x => .ok x
  | none => .error .indexOutOfRange

/-- Go's slice expression `s[low:]` on a slice of length `len(s)`. -/
def sliceFrom {α : Type} (s : List α) (low : Nat) : Except Panic (List α) :=
  if low ≤ s.length then .ok (s.drop low) else .error .sliceBoundsOutOfRange

/-! ## `strconv.ParseInt(s, 10, 64)` -/

/-- The two errors of package `strconv`. -/
inductive NumError where
  | ErrSyntax
  | ErrRange
  deriving DecidableEq, Repr

/-- The loop of `strconv.ParseUint(s, 10, 64)` over the bytes that are left,
with `n` the value read so far: a byte outside `'0'..'9'` is a syntax error, a
value that leaves `uint64` a range error, whichever comes first. -/
def parseUintLoop : List Byte → Nat → Except NumError Nat
  | [], n => .ok n
  | c :: cs, n =>
    if 48 ≤ c.val ∧ c.val ≤ 57 then
      let d := c.val - 48
      -- cutoff = maxUint64/10 + 1
      if n ≥ (2 ^ 64 - 1) / 10 + 1 then .error .ErrRange
      else
        let n1 := n * 10 + d
        if n1 > 2 ^ 64 - 1 then .error .ErrRange
        else parseUintLoop cs n1
    else .error .ErrSyntax

/-- Go's `strconv.ParseUint(s, 10, 64)`. -/
def ParseUint (s : List Byte) : Except NumError Nat :=
  match s with
  | [] => .error .ErrSyntax
  | _ => parseUintLoop s 0

/-- Go's `strconv.ParseInt(s, 10, 64)`: an optional sign `+` or `-`, then
`ParseUint`, then the range check against `int64`. -/
def ParseInt (s : List Byte) : Except NumError Int :=
  match s with
  | [] => .error .ErrSyntax
  | c :: cs =>
    let neg := c.val = 45
    let s1 := if c.val = 43 ∨ c.val = 45 then cs else c :: cs
    match ParseUint s1 with
    | .error e => .error e
    | .ok un =>
      if ¬ neg ∧ un ≥ 2 ^ 63 then .error .ErrRange
      else if neg ∧ un > 2 ^ 63 then .error .ErrRange
      else .ok (if neg then - (un : Int) else (un : Int))

/-! ## The hash functions of the Go standard library

`Authenticate` is handed a `func() hash.Hash` and keys it with `crypto/hmac`.
Both are code of the Go standard library. They are modelled here after the
documents they implement: FIPS 180-4 for `crypto/sha1`, `crypto/sha256` and
`crypto/sha512`, RFC 1321 for `crypto/md5`, RFC 2104 for `crypto/hmac`.

Words are natural numbers below `2^32` or `2^64`. The word operations are
written with `Nat.add`, `Nat.xor`, `Nat.land`, `Nat.lor`, `Nat.shiftLeft`,
`Nat.shiftRight` and `Nat.mod` applied to numerals, which evaluate in one
step. -/

/-- The value of a `hash.Hash` that `o.Hash()` returns, as far as `crypto/hmac`
uses it: its `BlockSize()` and the digest `Sum(nil)` returns once the bytes
`p` were written to it after a `Reset`. -/
structure Hash where
  BlockSize : Nat
  sum : List Byte → List Byte

/-- Evaluate the number `n` before it is handed to `k`. The result is `k n`. -/
def strict {α : Type} (n : Nat) (k : Nat → α) : α :=
  match n with
  | Nat.zero => k Nat.zero
  | Nat.succ m => k (Nat.succ m)

/-- Evaluate the numbers of the list before it is handed to `k`. The result
is `k ns`. -/
def strictList {α : Type} : List Nat → (List Nat → α) → α
  | [], k => k []
  | n :: ns, k => strict n fun n1 => strictList ns fun ns1 => k (n1 :: ns1)

/-- Addition modulo `2^32`. -/
def add32 (x y : Nat) : Nat := Nat.mod (Nat.add x y) 0x100000000

/-- Addition modulo `2^64`. -/
def add64 (x y : Nat) : Nat := Nat.mod (Nat.add x y) 0x10000000000000000

/-- The complement of a 32-bit word. -/
def not32 (x : Nat) : Nat := Nat.xor x 0xFFFFFFFF

/-- The complement of a 64-bit word. -/
def not64 (x : Nat) : Nat := Nat.xor x 0xFFFFFFFFFFFFFFFF

/-- Rotate the 32-bit word `x` left by `n` bits. -/
def rotl32 (x n : Nat) : Nat :=
  Nat.mod (Nat.lor (Nat.shiftLeft x n) (Nat.shiftRight x (Nat.sub 32 n))) 0x100000000

/-- Rotate the 32-bit word `x` right by `n` bits. -/
def rotr32 (x n : Nat) : Nat :=
  Nat.mod (Nat.lor (Nat.shiftRight x n) (Nat.shiftLeft x (Nat.sub 32 n))) 0x100000000

/-- Rotate the 64-bit word `x` right by `n` bits. -/
def rotr64 (x n : Nat) : Nat :=
  Nat.mod (Nat.lor (Nat.shiftRight x n) (Nat.shiftLeft x (Nat.sub 64 n)))
    0x10000000000000000

/-- The number whose big-endian digits in base 256 are `bs`, after `acc`. -/
def beNat : List Byte → Nat → Nat
  | [], acc => acc
  | b :: bs, acc => beNat bs (Nat.add (Nat.mul acc 256) b.val)

/-- The `n` low bytes of `x`, most significant first. -/
def beBytes : Nat → Nat → List Byte
  | 0, _ => []
  | n + 1, x => Fin.ofNat (Nat.shiftRight x (Nat.mul 8 n)) :: beBytes n x

/-- Cut a block into `k` words of `n` bytes each, read big-endian. -/
def blockWords (n : Nat) : Nat → List Byte → List Nat
  | 0, _ => []
  | k + 1, bs => beNat (bs.take n) 0 :: blockWords n k (bs.drop n)

/-- The element `i` of the list of words, `0` when there is none. -/
def word : List Nat → Nat → Nat
  | [], _ => 0
  | w :: _, Nat.zero => w
  | _ :: ws, Nat.succ i => word ws i

/-- The padding of FIPS 180-4 (5.1): the bit `1`, zero bits, and the bit
length of the message in `lenBytes` bytes, up to a multiple of the block size
`bs`. -/
def shaPad (bs lenBytes : Nat) (m : List Byte) : List Byte :=
  m ++ [0x80] ++ List.replicate ((2 * bs - 1 - lenBytes - m.length % bs) % bs) 0
    ++ beBytes lenBytes (8 * m.length)

/-- Run the compression function `f` over `n` blocks of `bs` bytes. -/
def shaBlocks (f : List Nat → List Byte → List Nat) (bs : Nat) :
    Nat → List Nat → List Byte → List Nat
  | 0, h, _ => h
  | n + 1, h, m => strictList (f h (m.take bs)) fun h1 => shaBlocks f bs n h1 (m.drop bs)

/-- The `k` words of `w` bits that the number `row` is made of, the most
significant first. -/
def rowWord (w : Nat) (row : Nat) : Nat → List Nat
  | 0 => []
  | k + 1 => Nat.mod (Nat.shiftRight row (Nat.mul w k)) (Nat.pow 2 w) :: rowWord w row k

/-- The words of a table written as rows of `k` words of `w` bits each. -/
def rowWords (w k : Nat) (rows : List Nat) : List Nat :=
  rows.flatMap fun row => rowWord w row k

namespace sha1

/-- Extend the message schedule by `n` words (FIPS 180-4, 6.1.2 step 1):
`W_t = ROTL 1 (W_(t-3) xor W_(t-8) xor W_(t-14) xor W_(t-16))`; the list holds
the words so far, the latest first. -/
def schedule : Nat → List Nat → List Nat
  | n + 1, w1 :: w2 :: w3 :: w4 :: w5 :: w6 :: w7 :: w8 :: w9 :: w10 :: w11 :: w12 :: w13
      :: w14 :: w15 :: w16 :: ws =>
    strict (rotl32 (Nat.xor (Nat.xor (Nat.xor w3 w8) w14) w16) 1) fun x =>
      schedule n (x :: w1 :: w2 :: w3 :: w4 :: w5 :: w6 :: w7 :: w8 :: w9 :: w10 :: w11
        :: w12 :: w13 :: w14 :: w15 :: w16 :: ws)
  | _, ws => ws

/-- The function `Ch` of FIPS 180-4 (4.1.1), for rounds 0 to 19. -/
def Ch (b c d : Nat) : Nat := Nat.lor (Nat.land b c) (Nat.land (not32 b) d)

/-- The function `Parity`, for rounds 20 to 39 and 60 to 79. -/
def Parity (b c d : Nat) : Nat := Nat.xor (Nat.xor b c) d

/-- The function `Maj`, for rounds 40 to 59. -/
def Maj (b c d : Nat) : Nat :=
  Nat.lor (Nat.lor (Nat.land b c) (Nat.land b d)) (Nat.land c d)

/-- The function `f_t` and the constant `K_t` (FIPS 180-4, 4.2.1) of the 80
rounds. -/
def stages : List ((Nat → Nat → Nat → Nat) × Nat) :=
  List.replicate 20 (Ch, 0x5A827999) ++ List.replicate 20 (Parity, 0x6ED9EBA1)
    ++ List.replicate 20 (Maj, 0x8F1BBCDC) ++ List.replicate 20 (Parity, 0xCA62C1D6)

/-- The rounds (FIPS 180-4, 6.1.2 step 3) over the stages and schedule that
are left; the state is `[a, b, c, d, e]`. -/
def rounds : List ((Nat → Nat → Nat → Nat) × Nat) → List Nat → List Nat → List Nat
  | (f, k) :: fs, w :: ws, [a, b, c, d, e] =>
    strict (add32 (add32 (add32 (add32 (rotl32 a 5) (f b c d)) e) k) w) fun a1 =>
    strict (rotl32 b 30) fun c1 =>
      rounds fs ws [a1, a, c1, c, d]
  | _, _, s => s

/-- The compression of one 64-byte block into the state `h`. -/
def block (h : List Nat) (blk : List Byte) : List Nat :=
  List.zipWith add32 h
    (rounds stages (schedule 64 (blockWords 4 16 blk).reverse).reverse h)

/-- The initial state of SHA-1 (FIPS 180-4, 5.3.1). -/
def init : List Nat := [0x67452301, 0xEFCDAB89, 0x98BADCFE, 0x10325476, 0xC3D2E1F0]

/-- The SHA-1 digest of `m`, 20 bytes. -/
def Sum (m : List Byte) : List Byte :=
  let p := shaPad 64 8 m
  (shaBlocks block 64 (p.length / 64) init p).flatMap (beBytes 4)

/-- Go's `sha1.New`. -/
def New : Hash := { BlockSize := 64, sum := Sum }

end sha1

/-- The first eighty prime numbers. -/
def primes : List Nat :=
  [2, 3, 5, 7, 11, 13, 17, 19, 23, 29, 31, 37, 41, 43, 47, 53, 59, 61, 67, 71,
   73, 79, 83, 89, 97, 101, 103, 107, 109, 113, 127, 131, 137, 139, 149, 151,
   157, 163, 167, 173, 179, 181, 191, 193, 197, 199, 211, 223, 227, 229, 233,
   239, 241, 251, 257, 263, 269, 271, 277, 281, 283, 293, 307, 311, 313, 317,
   331, 337, 347, 349, 353, 359, 367, 373, 379, 383, 389, 397, 401, 409]

/-- The greatest `r` below `acc + 2^bits`, from `acc` on, with `r^e ≤ n`,
found bit by bit from the top. -/
def rootBits (e n : Nat) : Nat → Nat → Nat
  | 0, acc => acc
  | bits + 1, acc =>
    strict (Nat.add acc (Nat.pow 2 bits)) fun c =>
      if Nat.ble (Nat.pow c e) n then rootBits e n bits c else rootBits e n bits acc

/-- The first `w` bits of the fractional part of the `e`-th root of `p`, for
`p < 2^(5e)`: FIPS 180-4 defines the constants of SHA-2 as such bits of the
square and cube roots of the first primes. -/
def fracRoot (e w p : Nat) : Nat :=
  strict (p * 2 ^ (e * w)) fun n => rootBits e n (w + 5) 0 % 2 ^ w

/-- What SHA-256 and SHA-512 differ in (FIPS 180-4, 4.1.2, 4.1.3, 4.2.2,
4.2.3, 5.3.3, 5.3.5): the size of a word in bytes, the addition and complement
of words, the four sigma functions, the round constants and the initial
state. -/
structure Sha2 where
  wordBytes : Nat
  add : Nat → Nat → Nat
  not : Nat → Nat
  bigSigma0 : Nat → Nat
  bigSigma1 : Nat → Nat
  smallSigma0 : Nat → Nat
  smallSigma1 : Nat → Nat
  K : List Nat
  init : List Nat

namespace sha2

/-- Extend the message schedule by `n` words (FIPS 180-4, 6.2.2 step 1):
`W_t = σ1 W_(t-2) + W_(t-7) + σ0 W_(t-15) + W_(t-16)`; the list holds the
words so far, the latest first. -/
def schedule (p : Sha2) : Nat → List Nat → List Nat
  | n + 1, w1 :: w2 :: w3 :: w4 :: w5 :: w6 :: w7 :: w8 :: w9 :: w10 :: w11 :: w12 :: w13
      :: w14 :: w15 :: w16 :: ws =>
    strict (p.add (p.add (p.add (p.smallSigma1 w2) w7) (p.smallSigma0 w15)) w16) fun x =>
      schedule p n (x :: w1 :: w2 :: w3 :: w4 :: w5 :: w6 :: w7 :: w8 :: w9 :: w10 :: w11
        :: w12 :: w13 :: w14 :: w15 :: w16 :: ws)
  | _, ws => ws

/-- The rounds (FIPS 180-4, 6.2.2 step 3) over the schedule and constants
that are left; the state is `[a, b, c, d, e, f, g, h]`. -/
def rounds (p : Sha2) : List Nat → List Nat → List Nat → List Nat
  | wt :: ws, kt :: ks, [a, b, c, d, e, f, g, h] =>
    strict (p.add (p.add (p.add (p.add h (p.bigSigma1 e))
        (Nat.xor (Nat.land e f) (Nat.land (p.not e) g))) kt) wt) fun t1 =>
    strict (p.add (p.bigSigma0 a)
        (Nat.xor (Nat.xor (Nat.land a b) (Nat.land a c)) (Nat.land b c))) fun t2 =>
    strict (p.add d t1) fun e1 =>
    strict (p.add t1 t2) fun a1 =>
      rounds p ws ks [a1, a, b, c, e1, e, f, g]
  | _, _, s => s

/-- The compression of one block of 16 words into the state `h`. -/
def block (p : Sha2) (h : List Nat) (blk : List Byte) : List Nat :=
  List.zipWith p.add h
    (rounds p (schedule p (p.K.length - 16) (blockWords p.wordBytes 16 blk).reverse).reverse
      p.K h)

/-- The SHA-2 digest of `m`. -/
def Sum (p : Sha2) (m : List Byte) : List Byte :=
  let bs := 16 * p.wordBytes
  let padded := shaPad bs (2 * p.wordBytes) m
  (shaBlocks (block p) bs (padded.length / bs) p.init padded).flatMap (beBytes p.wordBytes)

end sha2

namespace sha256

/-- The function `Σ0` of SHA-256 (FIPS 180-4, 4.1.2). -/
def bigSigma0 (x : Nat) : Nat := Nat.xor (Nat.xor (rotr32 x 2) (rotr32 x 13)) (rotr32 x 22)

/-- The function `Σ1` of SHA-256. -/
def bigSigma1 (x : Nat) : Nat := Nat.xor (Nat.xor (rotr32 x 6) (rotr32 x 11)) (rotr32 x 25)

/-- The function `σ0` of SHA-256. -/
def smallSigma0 (x : Nat) : Nat :=
  Nat.xor (Nat.xor (rotr32 x 7) (rotr32 x 18)) (Nat.shiftRight x 3)

/-- The function `σ1` of SHA-256. -/
def smallSigma1 (x : Nat) : Nat :=
  Nat.xor (Nat.xor (rotr32 x 17) (rotr32 x 19)) (Nat.shiftRight x 10)

/-- The round constants of SHA-256 (FIPS 180-4, 4.2.2), eight words to a row. -/
def K : List Nat :=
  rowWords 32 8
    [0x428a2f9871374491b5c0fbcfe9b5dba53956c25b59f111f1923f82a4ab1c5ed5,
     0xd807aa9812835b01243185be550c7dc372be5d7480deb1fe9bdc06a7c19bf174,
     0xe49b69c1efbe47860fc19dc6240ca1cc2de92c6f4a7484aa5cb0a9dc76f988da,
     0x983e5152a831c66db00327c8bf597fc7c6e00bf3d5a7914706ca635114292967,
     0x27b70a852e1b21384d2c6dfc53380d13650a7354766a0abb81c2c92e92722c85,
     0xa2bfe8a1a81a664bc24b8b70c76c51a3d192e819d6990624f40e3585106aa070,
     0x19a4c1161e376c082748774c34b0bcb5391c0cb34ed8aa4a5b9cca4f682e6ff3,
     0x748f82ee78a5636f84c878148cc7020890befffaa4506cebbef9a3f7c67178f2]

/-- The initial state of SHA-256 (FIPS 180-4, 5.3.3). -/
def init : List Nat :=
  rowWords 32 8 [0x6a09e667bb67ae853c6ef372a54ff53a510e527f9b05688c1f83d9ab5be0cd19]

/-- The parameters of SHA-256. -/
def params : Sha2 :=
  { wordBytes := 4
    add := add32
    not := not32
    bigSigma0 := bigSigma0
    bigSigma1 := bigSigma1
    smallSigma0 := smallSigma0
    smallSigma1 := smallSigma1
    K := K
    init := init }

/-- Go's `sha256.New`. -/
def New : Hash := { BlockSize := 64, sum := sha2.Sum params }

end sha256

namespace sha512

/-- The function `Σ0` of SHA-512 (FIPS 180-4, 4.1.3). -/
def bigSigma0 (x : Nat) : Nat := Nat.xor (Nat.xor (rotr64 x 28) (rotr64 x 34)) (rotr64 x 39)

/-- The function `Σ1` of SHA-512. -/
def bigSigma1 (x : Nat) : Nat := Nat.xor (Nat.xor (rotr64 x 14) (rotr64 x 18)) (rotr64 x 41)

/-- The function `σ0` of SHA-512. -/
def smallSigma0 (x : Nat) : Nat :=
  Nat.xor (Nat.xor (rotr64 x 1) (rotr64 x 8)) (Nat.shiftRight x 7)

/-- The function `σ1` of SHA-512. -/
def smallSigma1 (x : Nat) : Nat :=
  Nat.xor (Nat.xor (rotr64 x 19) (rotr64 x 61)) (Nat.shiftRight x 6)

/-- The round constants of SHA-512 (FIPS 180-4, 4.2.3), four words to a row. -/
def K : List Nat :=
  rowWords 64 4
    [0x428a2f98d728ae227137449123ef65cdb5c0fbcfec4d3b2fe9b5dba58189dbbc,
     0x3956c25bf348b53859f111f1b605d019923f82a4af194f9bab1c5ed5da6d8118,
     0xd807aa98a303024212835b0145706fbe243185be4ee4b28c550c7dc3d5ffb4e2,
     0x72be5d74f27b896f80deb1fe3b1696b19bdc06a725c71235c19bf174cf692694,
     0xe49b69c19ef14ad2efbe4786384f25e30fc19dc68b8cd5b5240ca1cc77ac9c65,
     0x2de92c6f592b02754a7484aa6ea6e4835cb0a9dcbd41fbd476f988da831153b5,
     0x983e5152ee66dfaba831c66d2db43210b00327c898fb213fbf597fc7beef0ee4,
     0xc6e00bf33da88fc2d5a79147930aa72506ca6351e003826f142929670a0e6e70,
     0x27b70a8546d22ffc2e1b21385c26c9264d2c6dfc5ac42aed53380d139d95b3df,
     0x650a73548baf63de766a0abb3c77b2a881c2c92e47edaee692722c851482353b,
     0xa2bfe8a14cf10364a81a664bbc423001c24b8b70d0f89791c76c51a30654be30,
     0xd192e819d6ef5218d69906245565a910f40e35855771202a106aa07032bbd1b8,
     0x19a4c116b8d2d0c81e376c085141ab532748774cdf8eeb9934b0bcb5e19b48a8,
     0x391c0cb3c5c95a634ed8aa4ae3418acb5b9cca4f7763e373682e6ff3d6b2b8a3,
     0x748f82ee5defb2fc78a5636f43172f6084c87814a1f0ab728cc702081a6439ec,
     0x90befffa23631e28a4506cebde82bde9bef9a3f7b2c67915c67178f2e372532b,
     0xca273eceea26619cd186b8c721c0c207eada7dd6cde0eb1ef57d4f7fee6ed178,
     0x06f067aa72176fba0a637dc5a2c898a6113f9804bef90dae1b710b35131c471b,
     0x28db77f523047d8432caab7b40c724933c9ebe0a15c9bebc431d67c49c100d4c,
     0x4cc5d4becb3e42b6597f299cfc657e2a5fcb6fab3ad6faec6c44198c4a475817]

/-- The initial state of SHA-512 (FIPS 180-4, 5.3.5), four words to a row. -/
def init : List Nat :=
  rowWords 64 4
    [0x6a09e667f3bcc908bb67ae8584caa73b3c6ef372fe94f82ba54ff53a5f1d36f1,
     0x510e527fade682d19b05688c2b3e6c1f1f83d9abfb41bd6b5be0cd19137e2179]

/-- The parameters of SHA-512. -/
def params : Sha2 :=
  { wordBytes := 8
    add := add64
    not := not64
    bigSigma0 := bigSigma0
    bigSigma1 := bigSigma1
    smallSigma0 := smallSigma0
    smallSigma1 := smallSigma1
    K := K
    init := init }

/-- Go's `sha512.New`. -/
def New : Hash := { BlockSize := 128, sum := sha2.Sum params }

end sha512

namespace md5

/-- The constants `T[1..64]` of RFC 1321 (3.4), `floor(2^32 * abs (sin i))`,
eight words to a row. -/
def K : List Nat :=
  rowWords 32 8
    [0xd76aa478e8c7b756242070dbc1bdceeef57c0faf4787c62aa8304613fd469501,
     0x698098d88b44f7afffff5bb1895cd7be6b901122fd987193a679438e49b40821,
     0xf61e2562c040b340265e5a51e9b6c7aad62f105d02441453d8a1e681e7d3fbc8,
     0x21e1cde6c33707d6f4d50d87455a14eda9e3e905fcefa3f8676f02d98d2a4c8a,
     0xfffa39428771f6816d9d6122fde5380ca4beea444bdecfa9f6bb4b60bebfbc70,
     0x289b7ec6eaa127fad4ef308504881d05d9d4d039e6db99e51fa27cf8c4ac5665,
     0xf4292244432aff97ab9423a7fc93a039655b59c38f0ccc92ffeff47d85845dd1,
     0x6fa87e4ffe2ce6e0a30143144e0811a1f7537e82bd3af2352ad7d2bbeb86d391]

/-- The function `F` of RFC 1321 (3.4), for steps 1 to 16. -/
def F (x y z : Nat) : Nat := Nat.lor (Nat.land x y) (Nat.land (not32 x) z)

/-- The function `G`, for steps 17 to 32. -/
def G (x y z : Nat) : Nat := Nat.lor (Nat.land x z) (Nat.land y (not32 z))

/-- The function `H`, for steps 33 to 48. -/
def H (x y z : Nat) : Nat := Nat.xor (Nat.xor x y) z

/-- The function `I`, for steps 49 to 64. -/
def I (x y z : Nat) : Nat := Nat.xor y (Nat.lor x (not32 z))

/-- The 64 steps of RFC 1321 (3.4): the function, the index `k` of the message
word and the rotation `s` of each, in the order of the four rounds. -/
def steps : List ((Nat → Nat → Nat → Nat) × Nat × Nat) :=
  [(F, 0, 7), (F, 1, 12), (F, 2, 17), (F, 3, 22), (F, 4, 7), (F, 5, 12), (F, 6, 17),
   (F, 7, 22), (F, 8, 7), (F, 9, 12), (F, 10, 17), (F, 11, 22), (F, 12, 7), (F, 13, 12),
   (F, 14, 17), (F, 15, 22),
   (G, 1, 5), (G, 6, 9), (G, 11, 14), (G, 0, 20), (G, 5, 5), (G, 10, 9), (G, 15, 14),
   (G, 4, 20), (G, 9, 5), (G, 14, 9), (G, 3, 14), (G, 8, 20), (G, 13, 5), (G, 2, 9),
   (G, 7, 14), (G, 12, 20),
   (H, 5, 4), (H, 8, 11), (H, 11, 16), (H, 14, 23), (H, 1, 4), (H, 4, 11), (H, 7, 16),
   (H, 10, 23), (H, 13, 4), (H, 0, 11), (H, 3, 16), (H, 6, 23), (H, 9, 4), (H, 12, 11),
   (H, 15, 16), (H, 2, 23),
   (I, 0, 6), (I, 7, 10), (I, 14, 15), (I, 5, 21), (I, 12, 6), (I, 3, 10), (I, 10, 15),
   (I, 1, 21), (I, 8, 6), (I, 15, 10), (I, 6, 15), (I, 13, 21), (I, 4, 6), (I, 11, 10),
   (I, 2, 15), (I, 9, 21)]

/-- The steps that are left, each with its constant, on the words `m` of the
block: `a = b + ((a + f(b,c,d) + m[k] + T[i]) <<< s)`, then the four words
rotate; the state is `[a, b, c, d]`. -/
def rounds (m : List Nat) :
    List ((Nat → Nat → Nat → Nat) × Nat × Nat) → List Nat → List Nat → List Nat
  | (f, k, s) :: fs, t :: ts, [a, b, c, d] =>
    strict (add32 (add32 (add32 a (f b c d)) (word m k)) t) fun x =>
    strict (add32 b (rotl32 x s)) fun b1 =>
      rounds m fs ts [d, b1, b, c]
  | _, _, st => st

/-- Cut a block into `k` words of 4 bytes each, read little-endian. -/
def blockWords : Nat → List Byte → List Nat
  | 0, _ => []
  | k + 1, bs => beNat (bs.take 4).reverse 0 :: blockWords k (bs.drop 4)

/-- The processing of one 64-byte block into the state `h`. -/
def block (h : List Nat) (blk : List Byte) : List Nat :=
  strictList (blockWords 16 blk) fun m => List.zipWith add32 h (rounds m steps K h)

/-- The padding of RFC 1321 (3.1, 3.2): as that of SHA-1, with the bit length
low-order byte first. -/
def pad (m : List Byte) : List Byte :=
  m ++ [0x80] ++ List.replicate ((2 * 64 - 1 - 8 - m.length % 64) % 64) 0
    ++ (beBytes 8 (8 * m.length)).reverse

/-- The initial state of MD5 (RFC 1321, 3.3). -/
def init : List Nat := [0x67452301, 0xefcdab89, 0x98badcfe, 0x10325476]

/-- The MD5 digest of `m`, 16 bytes. -/
def Sum (m : List Byte) : List Byte :=
  let p := pad m
  (shaBlocks block 64 (p.length / 64) init p).flatMap fun w => (beBytes 4 w).reverse

/-- Go's `md5.New`. -/
def New : Hash := { BlockSize := 64, sum := Sum }

end md5

/-! ## `crypto/hmac` -/

/-- A Go value of type `func() hash.Hash`, as `Options.Hash` holds one and
`hmac.New` calls it. -/
inductive HashFunc where
  /-- The nil function: a call of it panics. -/
  | nil
  /-- A constructor such as `sha1.New`: every call returns a new instance of
  the hash `h`. -/
  | new (h : Hash)
  /-- A function that returns the same value at every call: one shared
  instance of a hash, or the nil `hash.Hash`. -/
  | shared

/-- The `hash.Hash` that `hmac.New(h, key)` returns: the hash `h()`, the two
padded keys, and the bytes written since the last `Reset`. -/
structure HMAC where
  h : Hash
  ipad : List Byte
  opad : List Byte
  written : List Byte

namespace hmac

/-- The state that `hmac.New` sets up from two new instances of the hash `h`:
a key longer than a block is hashed first; the key is then filled with zeros
to one block and combined with `0x36` and `0x5c`. -/
def keyed (h : Hash) (key : List Byte) : HMAC :=
  let key := if key.length > h.BlockSize then h.sum key else key
  let pad := (key ++ List.replicate h.BlockSize 0).take h.BlockSize
  { h := h
    ipad := pad.map fun b => b ^^^ 0x36
    opad := pad.map fun b => b ^^^ 0x5c
    written := [] }

/-- Go's `hmac.New(h, key)`: it calls `h()` for the outer and for the inner
hash, which panics for a nil `h`; it panics if the two calls returned the same
value; otherwise it sets up the padded keys. -/
def New (h : HashFunc) (key : List Byte) : Except Panic HMAC :=
  match h with
  | .nil => .error .nilDereference
  | .shared => .error .hashNotUnique
  | .new h => .ok (keyed h key)

end hmac

/-- Go's `hm.Reset()`: forget what was written. -/
def HMAC.Reset (hm : HMAC) : HMAC := { hm with written := [] }

/-- Go's `hm.Write(p)`: append `p` to what was written. -/
def HMAC.Write (hm : HMAC) (p : List Byte) : HMAC :=
  { hm with written := hm.written ++ p }

/-- Go's `hm.Sum(b)`: append to `b` the outer hash of the inner hash of what
was written. -/
def HMAC.Sum (hm : HMAC) (b : List Byte) : List Byte :=
  b ++ hm.h.sum (hm.opad ++ hm.h.sum (hm.ipad ++ hm.written))

/-! ## Options -/

/-- The nanoseconds of `time.Second`. -/
def Second : Int := 1000000000

/-- The type `Options` of `totp.go`.

* `Time` is the field of type `func() time.Time`: `none` is the nil function;
  `some clock` is a function that returns, and gives `o.Time().Unix()`, the
  Unix seconds of the time it returns, as a function of the system clock
  reading at the call (`time.Now` is the identity, a fixed clock a constant
  function).
* `TimeStep` is a `time.Duration`, an `int64` count of nanoseconds.
* `Digits` is a `uint8`.
* `Hash` is the field of type `func() hash.Hash`. -/
structure Options where
  Time : Option (Int → Int)
  Tries : List Int
  TimeStep : Int
  Digits : Nat
  Hash : HashFunc

/-- The function `NewOptions` of `totp.go`; `sha1.New` returns a new hash at
every call. -/
def NewOptions : Options :=
  { Time := some fun now => now
    Tries := [0, -1]
    TimeStep := 30 * Second
    Digits := 6
    Hash := .new sha1.New }

/-- Line 72 of `totp.go`: the value that the exported package variable
`DefaultOptions` has after the package was initialised, a pointer to the
options that `NewOptions()` returned. A program may assign to the variable, so
its value at a call is an argument of `Authenticate` and `BarcodeImage`. -/
def initialDefaultOptions : Option Options := some NewOptions

/-- Lines 91-93 of `Authenticate` and lines 20-22 of `BarcodeImage`: the
pointer `o` after the nil check. `DefaultOptions` is the value that the
exported package variable of that name (line 72, initialised with
`NewOptions()`) holds when the call is made; it is a `*Options` that a program
may have reassigned, also to nil. The result is `none` if `o` is still nil. -/
def orDefault (DefaultOptions o : Option Options) : Option Options :=
  match o with
  | none => DefaultOptions
  | some o => some o

/-- The table `digit_power` of `totp.go`. -/
def digit_power : List Int :=
  [1, 10, 100, 1000, 10000, 100000, 1000000, 10000000, 100000000, 1000000000]

/-! ## `Authenticate` -/

/-- What `Authenticate` consults outside its arguments. -/
inductive Event where
  /-- The clock `o.Time()` was called. -/
  | Time
  /-- The hash `o.Hash` was handed to `hmac.New`. -/
  | Hash
  /-- The call `hm.Sum` computed the digest of the bytes `written`. -/
  | Sum (written : List Byte)
  deriving DecidableEq, Repr

/-- One run of `Authenticate`: the events in the order they happened, and the
value returned or the panic that ended the run. -/
structure Run where
  events : List Event
  result : Except Panic Bool

/-- The run `r` after the event `e`. -/
def Run.after (e : Event) (r : Run) : Run :=
  { events := e :: r.events, result := r.result }

/-- The eight bytes `tbuf[0..7]` that lines 113-120 store for the counter `b`;
`>>>` is the arithmetic shift of a signed integer. -/
def tbuf (b : Int) : List Byte :=
  [byte (b >>> (56 : Nat)), byte (b >>> (48 : Nat)), byte (b >>> (40 : Nat)),
   byte (b >>> (32 : Nat)), byte (b >>> (24 : Nat)), byte (b >>> (16 : Nat)),
   byte (b >>> (8 : Nat)), byte b]

/-- Lines 126-135 of `totp.go`: the code read from the digest `hashbuf` for a
candidate of `n` bytes. -/
def code (hashbuf : List Byte) (n : Nat) : Except Panic Int := do
  let last ← index hashbuf (hashbuf.length - 1)
  let offset := last.val &&& 0xf
  let truncatedHash ← sliceFrom hashbuf offset
  let t0 ← index truncatedHash 0
  let t1 ← index truncatedHash 1
  let t2 ← index truncatedHash 2
  let t3 ← index truncatedHash 3
  let code : Nat := t0.val <<< 24 ||| t1.val <<< 16 ||| t2.val <<< 8 ||| t3.val
  let code : Int := ((code &&& 0x7FFFFFFF : Nat) : Int)
  let p ← index digit_power n
  pure (code.tmod p)

/-- The loop of lines 110-140 over the offsets that are left. -/
def loop (userCode : List Byte) (uc t : Int) : HMAC → List Byte → List Int → Run
  | _, _, [] => { events := [], result := .ok false }
  | hm, hashbuf, try_i :: rest =>
    let b := wrap64 (t + try_i)
    let hm := hm.Reset
    let hm := hm.Write (tbuf b)
    let hashbuf := hm.Sum (hashbuf.take 0)
    Run.after (.Sum hm.written) <|
      match code hashbuf userCode.length with
      | .error p => { events := [], result := .error p }
      | .ok c =>
        if c = uc then { events := [], result := .ok true }
        else loop userCode uc t hm hashbuf rest

/-- Line 104 of `totp.go`: the quotient `unix / int64(TimeStep/time.Second)`
of the clock reading `unix` by the time step in seconds. Go's `/` on `int64`
truncates toward zero and panics on a zero divisor. -/
def baseCounter (unix TimeStep : Int) : Except Panic Int :=
  let step : Int := Int.tdiv TimeStep Second
  if step = 0 then .error .divideByZero
  else .ok (wrap64 (Int.tdiv unix step))

/-- The function `Authenticate` of `totp.go`, called while the package
variable `DefaultOptions` holds the value `DefaultOptions` and the system clock
reads `now` Unix seconds; `none` is the nil `*Options`. Reading `o.Digits`
(line 95) panics if `o` is nil after the nil check, calling `o.Time` (line
104) panics if the function is nil, and `hmac.New` (line 107) panics as
described there. -/
def Authenticate (DefaultOptions : Option Options) (now : Int)
    (secretKey userCode : List Byte) (o : Option Options) : Run :=
  match orDefault DefaultOptions o with
  | none => { events := [], result := .error .nilDereference }
  | some o =>
    if o.Digits ≠ userCode.length then { events := [], result := .ok false }
    else
      match ParseInt userCode with
      | .error _ => { events := [], result := .ok false }
      | .ok uc =>
        match o.Time with
        | none => { events := [], result := .error .nilDereference }
        | some clock =>
          Run.after .Time <|
            match baseCounter (clock now) o.TimeStep with
            | .error p => { events := [], result := .error p }
            | .ok t =>
              Run.after .Hash <|
                match hmac.New o.Hash secretKey with
                | .error p => { events := [], result := .error p }
                | .ok hm => loop userCode uc t hm [] o.Tries

/-- The bytes of a string literal (UTF-8). -/
def bytes (s : String) : List Byte :=
  s.data.flatMap fun c => (String.utf8EncodeChar c).map fun b => Fin.ofNat b.toNat

/-! ## Notions of the specification

The definitions below follow the words of the specification, in arithmetic;
the theorems compare them with the code above. -/

/-- The keyed hash `H(key, msg)` of a configuration with hash `h`: the digest
of `msg` under a newly made HMAC with key `key`. -/
def keyedHash (h : Hash) (key msg : List Byte) : List Byte :=
  ((hmac.keyed h key).Write msg).Sum []

/-- The 8-byte big-endian encoding of the integer `x` modulo `2^64`: byte `i`
is the digit of weight `256^(7-i)`. -/
def bigEndian64 (x : Int) : List Byte :=
  (List.range 8).map fun i => Fin.ofNat ((x % 2 ^ 64).toNat / 256 ^ (7 - i))

/-- Dynamic truncation of a digest: with `o` the low 4 bits of the last byte,
the big-endian 32-bit integer at `digest[o..o+3]` with its top bit cleared. A
byte that the digest does not have counts as `0`. -/
def truncated (digest : List Byte) : Nat :=
  let o := (digest.getLastD 0).val % 16
  ((digest.getD o 0).val * 2 ^ 24 + (digest.getD (o + 1) 0).val * 2 ^ 16
    + (digest.getD (o + 2) 0).val * 2 ^ 8 + (digest.getD (o + 3) 0).val) % 2 ^ 31

/-- The expected code of `d` digits for the counter `counter`: the truncated
keyed hash of the counter's encoding, modulo `10^d`. -/
def expectedCode (h : Hash) (key : List Byte) (d : Nat) (counter : Int) : Nat :=
  truncated (keyedHash h key (bigEndian64 counter)) % 10 ^ d

/-- The codes the loop of `Authenticate` compares the candidate with, one for
each offset in list order, each from the keyed hash of a newly made HMAC. -/
def codes (h : Hash) (key : List Byte) (n : Nat) (t : Int) (tries : List Int) :
    List (Except Panic Int) :=
  tries.map fun k => code (keyedHash h key (bigEndian64 (t + k))) n

/-- The outcome of comparing `uc` with the codes in order: true at the first
code that equals `uc`, the panic of the first code that is one, false when
the codes are used up. -/
def outcome (uc : Int) : List (Except Panic Int) → Except Panic Bool
  | [] => .ok false
  | .error p :: _ => .error p
  | .ok c :: rest => if c = uc then .ok true else outcome uc rest

/-- The byte of the decimal digit `x`. -/
def digitByte (x : Nat) : Byte := Fin.ofNat (48 + x)

/-- The decimal rendering of `c`, left-padded with `'0'` to `d` characters. -/
def zeroPadded (d c : Nat) : List Byte :=
  let s := (Nat.digits 10 c).reverse.map digitByte
  List.replicate (d - s.length) (digitByte 0) ++ s

/-- The candidate is a string of decimal digits. -/
def isDigits (s : List Byte) : Prop := ∀ c ∈ s, 48 ≤ c.val ∧ c.val ≤ 57

instance (s : List Byte) : Decidable (isDigits s) := by
  unfold isDigits; infer_instance

/-- The number a string of decimal digits denotes. -/
def decimalValue (s : List Byte) : Nat :=
  s.foldl (fun n c => n * 10 + (c.val - 48)) 0

/-! ## Test data

The secrets and options of `TestVarious` in `totp_test.go`, which are those of
RFC 6238, appendix B. -/

/-- The 20-byte secret of the SHA-1 vectors. -/
def secret20 : List Byte := bytes "12345678901234567890"

/-- The 32-byte secret of the SHA-256 vectors. -/
def secret32 : List Byte := bytes "12345678901234567890123456789012"

/-- The 64-byte secret of the SHA-512 vectors. -/
def secret64 : List Byte :=
  bytes "1234567890123456789012345678901234567890123456789012345678901234"

/-- Options with a clock fixed at `unix`, a time step of 30 seconds, the
given offsets and digit count, and a constructor of the hash `h` such as
`sha1.New`, which returns a new hash at every call. -/
def fixedOptions (unix : Int) (tries : List Int) (digits : Nat) (h : Hash) : Options :=
  { Time := some fun _ => unix
    Tries := tries
    TimeStep := 30 * Second
    Digits := digits
    Hash := .new h }

/-- The simple case of `TestVarious` (lines 79-89): the result of
`Authenticate` on the documented code, with the clock fixed at `unix`, offsets
`[0]`, 8 digits and a time step of 30 seconds; the package variable
`DefaultOptions` has its initial value. -/
def testSimple (now unix : Int) (h : Hash) (secret : List Byte) (totp : String) :
    Except Panic Bool :=
  (Authenticate (some NewOptions) now secret (bytes totp)
    (some (fixedOptions unix [0] 8 h))).result

/-- The sum over `i` in `0..7` of `byte[i] * 256^(7-i)`, for the eight bytes
`bs`. -/
def weightedSum (bs : List Byte) : Nat :=
  ((List.range 8).map fun i => (bs.getD i 0).val * 256 ^ (7 - i)).sum

/-! ## Strings of the Go standard library that `BarcodeImage` uses

The packages `strconv`, `encoding/base32` and `net/url` are not part of the
repository; they are modelled from their documentation, on byte strings. -/

/-- The decimal digits of `n`, most significant first, in front of `acc`: the
loop of `strconv.FormatInt` in base 10, which peels off the last digit until
the value is below 10. The number of digits is at most `fuel`. -/
def formatDecimal : Nat → Nat → List Byte → List Byte
  | 0, _, acc => acc
  | fuel + 1, n, acc =>
    if n < 10 then digitByte n :: acc
    else formatDecimal fuel (n / 10) (digitByte (n % 10) :: acc)

/-- Go's `strconv.Itoa`: the decimal rendering of an `int`, with a leading
`-` for a negative value. -/
def Itoa (i : Int) : List Byte :=
  if i < 0 then 45 :: formatDecimal (i.natAbs + 1) i.natAbs []
  else formatDecimal (i.natAbs + 1) i.natAbs []

namespace base32

/-- The alphabet `encodeStd` of `base32.StdEncoding`. -/
def encodeStd : List Byte := bytes "ABCDEFGHIJKLMNOPQRSTUVWXYZ234567"

/-- The padding character `base32.StdPadding`, which is `'='`. -/
def StdPadding : Byte := 61

/-- The character of the 5-bit value `v`. -/
def char (v : Nat) : Byte := encodeStd.getD (v % 32) 0

/-- The eight 5-bit values of the 40 bits of the bytes `b0 .. b4`, most
significant first. -/
def quintets (b0 b1 b2 b3 b4 : Byte) : List Nat :=
  [b0.val / 8, b0.val % 8 * 4 + b1.val / 64, b1.val / 2 % 32,
   b1.val % 2 * 16 + b2.val / 16, b2.val % 16 * 2 + b3.val / 128, b3.val / 4 % 32,
   b3.val % 4 * 8 + b4.val / 32, b4.val % 32]

/-- Go's `base32.StdEncoding.EncodeToString`: every 5 bytes give 8 characters;
a last group of 1, 2, 3 or 4 bytes gives 2, 4, 5 or 7 characters, filled up to
8 with the padding character. -/
def EncodeToString : List Byte → List Byte
  | [] => []
  | [b0] => ((quintets b0 0 0 0 0).take 2).map char ++ List.replicate 6 StdPadding
  | [b0, b1] => ((quintets b0 b1 0 0 0).take 4).map char ++ List.replicate 4 StdPadding
  | [b0, b1, b2] => ((quintets b0 b1 b2 0 0).take 5).map char ++ List.replicate 3 StdPadding
  | [b0, b1, b2, b3] =>
    ((quintets b0 b1 b2 b3 0).take 7).map char ++ List.replicate 1 StdPadding
  | b0 :: b1 :: b2 :: b3 :: b4 :: rest =>
    (quintets b0 b1 b2 b3 b4).map char ++ EncodeToString rest

end base32

namespace url

/-- The parts of a URL for which package `net/url` escapes differently. -/
inductive encoding where
  | encodePath
  | encodeHost
  | encodeQueryComponent
  deriving DecidableEq, Repr

/-- The function `shouldEscape` of `net/url`: letters, digits and `-_.~` are
never escaped; a host keeps its sub-delimiters; of the reserved characters
`$&+,/:;=?@` a path escapes only `?` and a query component all; every other
byte is escaped. -/
def shouldEscape (c : Byte) (mode : encoding) : Bool :=
  if (97 ≤ c.val ∧ c.val ≤ 122) ∨ (65 ≤ c.val ∧ c.val ≤ 90) ∨ (48 ≤ c.val ∧ c.val ≤ 57) then
    false
  else if mode = .encodeHost ∧ c ∈ bytes "!$&'()*+,;=:[]<>\"" then false
  else if c ∈ bytes "-_.~" then false
  else if c ∈ bytes "$&+,/:;=?@" then
    match mode with
    | .encodePath => c.val = 63
    | .encodeQueryComponent => true
    | .encodeHost => true
  else true

/-- The digits `upperhex` of `net/url`. -/
def upperhex (n : Nat) : Byte := (bytes "0123456789ABCDEF").getD (n % 16) 0

/-- The function `escape` of `net/url`: a space of a query component becomes
`+`, any other byte that `shouldEscape` names becomes `%XX`. -/
def escape : List Byte → encoding → List Byte
  | [], _ => []
  | c :: cs, mode =>
    if c.val = 32 ∧ mode = .encodeQueryComponent then 43 :: escape cs mode
    else if shouldEscape c mode then
      37 :: upperhex (c.val / 16) :: upperhex (c.val % 16) :: escape cs mode
    else c :: escape cs mode

/-- Go's `url.QueryEscape`. -/
def QueryEscape (s : List Byte) : List Byte := escape s .encodeQueryComponent

/-- Go's `<` on strings: the lexicographic order of the bytes. -/
def stringLess : List Byte → List Byte → Bool
  | _, [] => false
  | [], _ :: _ => true
  | a :: as, b :: bs => a.val < b.val ∨ (a.val = b.val ∧ stringLess as bs)

/-- Go's `url.Values`, a map from a key to its values, as the list of its
entries. -/
abbrev Values := List (List Byte × List (List Byte))

/-- An entry put into a list of entries that is sorted by key. -/
def insertKey (x : List Byte × List (List Byte)) : Values → Values
  | [] => [x]
  | y :: ys => if stringLess y.1 x.1 then y :: insertKey x ys else x :: y :: ys

/-- Go's `Values.Encode`: the entries "sorted by key", each value as
`key=value` with both sides escaped as query components, joined by `&`. -/
def Values.Encode (v : Values) : List Byte :=
  let sorted := v.foldr insertKey []
  let parts := sorted.flatMap fun kv =>
    kv.2.map fun x => QueryEscape kv.1 ++ 61 :: QueryEscape x
  (parts.intersperse [38]).flatten

end url

/-- The fields of Go's `url.URL` that `BarcodeImage` sets; the others (opaque,
user, raw path, fragment) are empty. -/
structure URL where
  Scheme : List Byte
  Host : List Byte
  Path : List Byte
  RawQuery : List Byte
  deriving DecidableEq, Repr

/-- Go's `(*URL).EscapedPath`, without a raw path. -/
def URL.EscapedPath (u : URL) : List Byte :=
  if u.Path = [42] then [42] else url.escape u.Path .encodePath

/-- Go's `(*URL).String`: `scheme://host/path?query`, with the scheme and its
colon, the two slashes and the host, and the question mark and the query left
out when the part is empty. -/
def URL.String (u : URL) : List Byte :=
  let buf := if u.Scheme ≠ [] then u.Scheme ++ [58] else []
  let buf :=
    if u.Scheme ≠ [] ∨ u.Host ≠ [] then
      let buf := if u.Host ≠ [] ∨ u.Path ≠ [] then buf ++ [47, 47] else buf
      if u.Host ≠ [] then buf ++ url.escape u.Host .encodeHost else buf
    else buf
  let path := u.EscapedPath
  let buf := if path ≠ [] ∧ path.head? ≠ some 47 ∧ u.Host ≠ [] then buf ++ [47] else buf
  let buf :=
    if buf = [] ∧ (58 : Byte) ∈ path.takeWhile (fun c => c.val ≠ 47) then buf ++ [46, 47]
    else buf
  let buf := buf ++ path
  if u.RawQuery ≠ [] then buf ++ 63 :: u.RawQuery else buf

/-! ## `BarcodeImage` -/

/-- The package `code.google.com/p/rsc/qr`, which is outside the repository:
`Encode text` is `qr.Encode(text, qr.M)`, which returns a code or an error,
and `PNG c` is `c.PNG()`. -/
structure QR (ε κ : Type) where
  Encode : List Byte → Except ε κ
  PNG : κ → List Byte

/-- Lines 24-36 of `totp.go`: the URL `u` that `BarcodeImage` builds from the
label, the secret and the options, with its query set. -/
def provisioningURL (label secretkey : List Byte) (opt : Options) : URL :=
  let u : URL :=
    { Scheme := bytes "otpauth"
      Host := bytes "totp"
      Path := bytes "/" ++ label
      RawQuery := [] }
  let params : url.Values :=
    [(bytes "secret", [base32.EncodeToString secretkey]),
     (bytes "digits", [Itoa opt.Digits]),
     (bytes "period", [Itoa (Int.tdiv opt.TimeStep Second)])]
  { u with RawQuery := url.Values.Encode params }

/-- The function `BarcodeImage` of `totp.go`, with the package `qr` it calls,
called while the package variable `DefaultOptions` holds the value
`DefaultOptions`; `none` is the nil `*Options`. Reading `opt.Digits` (line 32)
panics if `opt` is nil after the nil check. Otherwise the result is the PNG
image, or the error of `qr.Encode`. -/
def BarcodeImage {ε κ : Type} (DefaultOptions : Option Options) (qr : QR ε κ)
    (label secretkey : List Byte) (opt : Option Options) :
    Except Panic (Except ε (List Byte)) :=
  match orDefault DefaultOptions opt with
  | none => .error .nilDereference
  | some opt =>
    let u := provisioningURL label secretkey opt
    match qr.Encode u.String with
    | .error err => .ok (.error err)
    | .ok c => .ok (.ok (qr.PNG c))

/-! ## Reading a provisioning URI back

What the specification calls parsing the URI as a URL: Go's `url.Parse` and
`url.ParseQuery` for a URL of the form `scheme://host/path?query`, and
`base32.StdEncoding.DecodeString`, modelled from their documentation. -/

namespace base32

/-- The 5-bit value of a character of the standard alphabet. -/
def value (c : Byte) : Option Nat :=
  if 65 ≤ c.val ∧ c.val ≤ 90 then some (c.val - 65)
  else if 50 ≤ c.val ∧ c.val ≤ 55 then some (c.val - 24)
  else none

/-- The five bytes of eight 5-bit values. -/
def octets : List Nat → List Byte
  | [v0, v1, v2, v3, v4, v5, v6, v7] =>
    [Fin.ofNat (v0 * 8 + v1 / 4), Fin.ofNat (v1 % 4 * 64 + v2 * 2 + v3 / 16),
     Fin.ofNat (v3 % 16 * 16 + v4 / 2), Fin.ofNat (v4 % 2 * 128 + v5 * 4 + v6 / 8),
     Fin.ofNat (v6 % 8 * 32 + v7)]
  | _ => []

/-- The number of bytes that a group with `n` characters before its padding
holds. -/
def groupBytes : Nat → Option Nat
  | 8 => some 5
  | 7 => some 4
  | 5 => some 3
  | 4 => some 2
  | 2 => some 1
  | _ => none

/-- The bytes of one group of eight characters: characters of the alphabet,
then padding only; a group that is not the last has no padding. -/
def decodeGroup (cs : List Byte) (last : Bool) : Option (List Byte) :=
  let data := cs.takeWhile fun c => c ≠ StdPadding
  if cs.drop data.length ≠ List.replicate (8 - data.length) StdPadding then none
  else
    match groupBytes data.length with
    | none => none
    | some n =>
      if n < 5 ∧ last = false then none
      else
        (data.mapM value).map fun vs =>
          (octets (vs ++ List.replicate (8 - vs.length) 0)).take n

/-- Go's `base32.StdEncoding.DecodeString`, on a string without line breaks;
`none` is a corrupt input. -/
def DecodeString : List Byte → Option (List Byte)
  | [] => some []
  | c0 :: c1 :: c2 :: c3 :: c4 :: c5 :: c6 :: c7 :: rest =>
    match decodeGroup [c0, c1, c2, c3, c4, c5, c6, c7] rest.isEmpty, DecodeString rest with
    | some g, some r => some (g ++ r)
    | _, _ => none
  | _ => none

end base32

namespace url

/-- The value of a hexadecimal digit. -/
def unhex (c : Byte) : Option Nat :=
  if 48 ≤ c.val ∧ c.val ≤ 57 then some (c.val - 48)
  else if 97 ≤ c.val ∧ c.val ≤ 102 then some (c.val - 97 + 10)
  else if 65 ≤ c.val ∧ c.val ≤ 70 then some (c.val - 65 + 10)
  else none

/-- The function `unescape` of `net/url` for a path or a query component:
`%XX` becomes the byte `XX`, and in a query component `+` becomes a space;
`none` is a `%` that two hexadecimal digits do not follow. -/
def unescape : List Byte → encoding → Option (List Byte)
  | [], _ => some []
  | c :: cs, mode =>
    if c.val = 37 then
      match cs with
      | h :: l :: rest =>
        match unhex h, unhex l, unescape rest mode with
        | some hv, some lv, some t => some (Fin.ofNat (hv * 16 + lv) :: t)
        | _, _, _ => none
      | _ => none
    else
      match unescape cs mode with
      | some t => some ((if c.val = 43 ∧ mode = .encodeQueryComponent then 32 else c) :: t)
      | none => none

/-- Go's `strings.Cut` for a separator of one byte: the text before the first
separator, and the text after it if there is one. -/
def cut (sep : Byte) : List Byte → List Byte × Option (List Byte)
  | [] => ([], none)
  | c :: cs => if c = sep then ([], some cs) else (c :: (cut sep cs).1, (cut sep cs).2)

/-- Go's `strings.Split` for a separator of one byte. -/
def split (sep : Byte) : List Byte → List (List Byte)
  | [] => [[]]
  | c :: cs =>
    if c = sep then [] :: split sep cs
    else
      match split sep cs with
      | [] => [[c]]
      | x :: xs => (c :: x) :: xs

/-- Go's `url.ParseQuery`: the pairs `key=value` between the `&`, both sides
unescaped, in the order of the query; `none` is an error. -/
def ParseQuery (query : List Byte) : Option (List (List Byte × List Byte)) :=
  ((split 38 query).filter fun kv => kv ≠ []).mapM fun kv =>
    match unescape (cut 61 kv).1 .encodeQueryComponent,
      unescape ((cut 61 kv).2.getD []) .encodeQueryComponent with
    | some k, some v => some (k, v)
    | _, _ => none

/-- The bytes a scheme is made of: letters, digits, `+`, `-` and `.`. -/
def schemeByte (c : Byte) : Bool :=
  (97 ≤ c.val ∧ c.val ≤ 122) ∨ (65 ≤ c.val ∧ c.val ≤ 90) ∨ (48 ≤ c.val ∧ c.val ≤ 57)
    ∨ c.val = 43 ∨ c.val = 45 ∨ c.val = 46

/-- Go's `url.Parse` on a URL of the form `scheme://host/path?query#fragment`:
the fragment is what follows the first `#`, the scheme what precedes the first
`:`, the query what follows the first `?`, the host what stands between `//`
and the next `/`, and the path, unescaped, the rest. Any other form is
`none`. -/
def Parse (rawURL : List Byte) : Option URL :=
  let u := (cut 35 rawURL).1
  match cut 58 u with
  | (_, none) => none
  | (scheme, some rest) =>
    if scheme = [] ∨ scheme.all schemeByte = false then none
    else if (cut 63 rest).1.take 2 ≠ [47, 47] then none
    else
      let authority := (cut 63 rest).1.drop 2
      match unescape (authority.dropWhile fun c => c.val ≠ 47) .encodePath with
      | none => none
      | some path =>
        some { Scheme := scheme
               Host := authority.takeWhile fun c => c.val ≠ 47
               Path := path
               RawQuery := ((cut 63 rest).2).getD [] }

end url

/-- The URI that the specification describes: `otpauth://totp/`, the label,
`?secret=` and the base32 text of the secret, `&digits=` and the digit count,
`&period=` and the time step in seconds. -/
def specURI (label secretkey : List Byte) (opt : Options) : List Byte :=
  bytes "otpauth://totp/" ++ label ++ bytes "?secret=" ++ base32.EncodeToString secretkey
    ++ bytes "&digits=" ++ Itoa opt.Digits
    ++ bytes "&period=" ++ Itoa (Int.tdiv opt.TimeStep Second)

/-! ## Lemmas on the embedding -/

@[simp] theorem Run.after_result (e : Event) (r : Run) : (r.after e).result = r.result := rfl

@[simp] theorem Run.after_events (e : Event) (r : Run) :
    (r.after e).events = e :: r.events := rfl

theorem shiftLeft_or_of_lt {i b : Nat} (h : b < 2 ^ i) (a : Nat) :
    a <<< i ||| b = a * 2 ^ i + b := by
  rw [Nat.shiftLeft_eq, Nat.mul_comm, ← Nat.mul_add_lt_is_or h]

theorem be32_eq (a b c d : Byte) :
    (a.val <<< 24 ||| b.val <<< 16 ||| c.val <<< 8 ||| d.val)
      = a.val * 2 ^ 24 + b.val * 2 ^ 16 + c.val * 2 ^ 8 + d.val := by
  have ha := a.isLt
  have hb := b.isLt
  have hc := c.isLt
  have hd := d.isLt
  rw [Nat.or_assoc, Nat.or_assoc]
  rw [shiftLeft_or_of_lt (by omega : d.val < 2 ^ 8)]
  rw [shiftLeft_or_of_lt (by omega : c.val * 2 ^ 8 + d.val < 2 ^ 16)]
  rw [shiftLeft_or_of_lt (by omega : b.val * 2 ^ 16 + (c.val * 2 ^ 8 + d.val) < 2 ^ 24)]
  omega

theorem tbuf_wrap64 (x : Int) : tbuf (wrap64 x) = bigEndian64 x := by
  simp only [tbuf, bigEndian64, wrap64, byte, Int.shiftRight_eq_div_pow]
  simp only [List.range, List.range.loop, List.map]
  simp only [Fin.ofNat]
  simp only [List.cons.injEq, Fin.mk.injEq, and_true]
  refine ⟨?_, ?_, ?_, ?_, ?_, ?_, ?_, ?_⟩ <;> norm_num <;> omega

theorem index_eq_ok {α : Type} (s : List α) (i : Nat) (x : α) :
    index s i = .ok x ↔ s[i]? = some x := by
  unfold index
  rw [List.get?_eq_getElem?]
  cases h : s[i]? <;> simp

theorem index_of_lt {α : Type} (s : List α) (i : Nat) (h : i < s.length) :
    index s i = .ok s[i] := by
  rw [index_eq_ok]; exact List.getElem?_eq_getElem h

theorem index_digit_power (n : Nat) (h : n ≤ 9) :
    index digit_power n = .ok ((10 ^ n : Nat) : Int) := by
  interval_cases n <;> rfl

theorem index_digit_power_inv (n : Nat) (p : Int) (h : index digit_power n = .ok p) :
    n ≤ 9 ∧ p = ((10 ^ n : Nat) : Int) := by
  by_cases hn : n ≤ 9
  · rw [index_digit_power n hn] at h
    exact ⟨hn, (Except.ok.inj h).symm⟩
  · rw [index_eq_ok] at h
    have : digit_power.length ≤ n := by simp [digit_power]; omega
    rw [List.getElem?_eq_none this] at h
    cases h

theorem and_0xf (x : Nat) : x &&& 0xf = x % 16 := by
  have := Nat.and_pow_two_sub_one_eq_mod x 4
  simpa using this

theorem and_0x7FFFFFFF (x : Nat) : x &&& 0x7FFFFFFF = x % 2 ^ 31 := by
  have := Nat.and_pow_two_sub_one_eq_mod x 31
  simpa using this

/-- The code lines 126-135 read from a digest, once every index they use is
known to be in range. -/
theorem code_eq (hashbuf : List Byte) (n : Nat) (last t0 t1 t2 t3 : Byte) (p : Int)
    (hlast : index hashbuf (hashbuf.length - 1) = .ok last)
    (hs : last.val &&& 0xf ≤ hashbuf.length)
    (h0 : index (hashbuf.drop (last.val &&& 0xf)) 0 = .ok t0)
    (h1 : index (hashbuf.drop (last.val &&& 0xf)) 1 = .ok t1)
    (h2 : index (hashbuf.drop (last.val &&& 0xf)) 2 = .ok t2)
    (h3 : index (hashbuf.drop (last.val &&& 0xf)) 3 = .ok t3)
    (hp : index digit_power n = .ok p) :
    code hashbuf n = .ok (Int.tmod
      (((t0.val <<< 24 ||| t1.val <<< 16 ||| t2.val <<< 8 ||| t3.val) &&& 0x7FFFFFFF : Nat) : Int)
      p) := by
  unfold code
  simp only [bind, Except.bind, pure, Except.pure, hlast, sliceFrom, hs, if_true, h0, h1, h2,
    h3, hp]

/-- What the code read from a digest is when there is one: the table covers
the candidate's length and the value is the truncated digest modulo the power
of ten. -/
theorem code_inv (hashbuf : List Byte) (n : Nat) (c : Int) (h : code hashbuf n = .ok c) :
    n ≤ 9 ∧ c = ((truncated hashbuf % 10 ^ n : Nat) : Int) := by
  unfold code at h
  simp only [bind, Except.bind, pure, Except.pure] at h
  split at h
  · cases h
  rename_i last hlast
  simp only [sliceFrom] at h
  split at h
  · cases h
  rename_i th hth
  split at hth
  swap
  · cases hth
  rename_i hs
  cases hth
  split at h
  · cases h
  rename_i t0 h0
  split at h
  · cases h
  rename_i t1 h1
  split at h
  · cases h
  rename_i t2 h2
  split at h
  · cases h
  rename_i t3 h3
  split at h
  · cases h
  rename_i p hp
  obtain ⟨hn, hp⟩ := index_digit_power_inv n p hp
  refine ⟨hn, ?_⟩
  cases h
  rw [hp, ← Int.ofNat_tmod, be32_eq, and_0x7FFFFFFF]
  rw [index_eq_ok] at hlast h0 h1 h2 h3
  rw [and_0xf] at h0 h1 h2 h3
  rw [List.getElem?_drop] at h0 h1 h2 h3
  rw [Nat.add_zero] at h0
  have e : hashbuf.getLastD 0 = last := by
    rw [List.getLastD_eq_getLast?, List.getLast?_eq_getElem?, hlast]; rfl
  unfold truncated
  simp only [e, List.getD_eq_getElem?_getD, h0, h1, h2, h3, Option.getD_some, Nat.add_zero]

/-- The code read from a digest of at least 19 bytes for a candidate of at
most 9 bytes. -/
theorem code_of_long (hashbuf : List Byte) (n : Nat) (hl : 19 ≤ hashbuf.length)
    (hn : n ≤ 9) : code hashbuf n = .ok ((truncated hashbuf % 10 ^ n : Nat) : Int) := by
  have hlast : index hashbuf (hashbuf.length - 1) = .ok hashbuf[hashbuf.length - 1] :=
    index_of_lt _ _ (by omega)
  generalize hashbuf[hashbuf.length - 1] = last at hlast
  have ho : last.val &&& 0xf < 16 := by rw [and_0xf]; omega
  have hdl : (hashbuf.drop (last.val &&& 0xf)).length ≥ 4 := by
    rw [List.length_drop]; omega
  have h := code_eq hashbuf n last _ _ _ _ _ hlast (by omega)
    (index_of_lt _ 0 (by omega)) (index_of_lt _ 1 (by omega))
    (index_of_lt _ 2 (by omega)) (index_of_lt _ 3 (by omega)) (index_digit_power n hn)
  rw [h]
  exact congrArg _ (code_inv hashbuf n _ h).2

theorem HMAC.reset_write_reset (hm : HMAC) (p : List Byte) :
    (hm.Reset.Write p).Reset = hm.Reset := rfl

/-- The digest an iteration of the loop computes is the keyed hash of the
bytes written in that iteration, whatever was written or summed before. -/
theorem loop_digest (h : Hash) (key : List Byte) (hm : HMAC) (hashbuf msg : List Byte)
    (hinv : hm.Reset = hmac.keyed h key) :
    (hm.Reset.Write msg).Sum (hashbuf.take 0) = keyedHash h key msg := by
  rw [hinv]; rfl

/-- The result of the loop is the outcome of comparing the candidate with
the codes of the offsets, each computed from a new HMAC. -/
theorem loop_result (h : Hash) (key userCode : List Byte) (uc t : Int) (tries : List Int) :
    ∀ (hm : HMAC) (hashbuf : List Byte), hm.Reset = hmac.keyed h key →
      (loop userCode uc t hm hashbuf tries).result
        = outcome uc (codes h key userCode.length t tries) := by
  induction tries with
  | nil => intro hm hashbuf _; rfl
  | cons k rest ih =>
    intro hm hashbuf hinv
    unfold loop
    simp only [Run.after_result, codes, List.map_cons, outcome]
    rw [loop_digest h key hm hashbuf _ hinv, tbuf_wrap64]
    cases hc : code (keyedHash h key (bigEndian64 (t + k))) userCode.length with
    | error p => simp [outcome]
    | ok c =>
      simp only [outcome]
      split
      · rfl
      · exact ih _ _ (by rw [HMAC.reset_write_reset]; exact hinv)

/-- The events of the loop: one digest for each offset tried, each over the
eight bytes of that offset's counter alone. -/
theorem loop_events (userCode : List Byte) (uc t : Int) (tries : List Int) :
    ∀ (hm : HMAC) (hashbuf : List Byte),
      ∀ e ∈ (loop userCode uc t hm hashbuf tries).events,
        ∃ k ∈ tries, e = Event.Sum (bigEndian64 (t + k)) := by
  induction tries with
  | nil => intro hm hashbuf e he; simp [loop] at he
  | cons k rest ih =>
    intro hm hashbuf e he
    unfold loop at he
    simp only [Run.after_events, List.mem_cons] at he
    rcases he with he | he
    · refine ⟨k, by simp, ?_⟩
      rw [he, ← tbuf_wrap64]
      simp [HMAC.Write, HMAC.Reset]
    · split at he
      · simp at he
      · split at he
        · simp at he
        · obtain ⟨k', hk', hk'e⟩ := ih _ _ e he
          exact ⟨k', by simp [hk'], hk'e⟩

theorem hmac_new_reset (h : Hash) (key : List Byte) :
    (hmac.keyed h key).Reset = hmac.keyed h key := rfl

/-- A call with options runs as it does whatever the package variable
`DefaultOptions` holds. -/
theorem Authenticate_some (D D' : Option Options) (now : Int) (secretKey userCode : List Byte)
    (o : Options) :
    Authenticate D now secretKey userCode (some o)
      = Authenticate D' now secretKey userCode (some o) := rfl

/-- A call runs as the call with the options that are in force after the nil
check. -/
theorem Authenticate_orDefault (D : Option Options) (now : Int)
    (secretKey userCode : List Byte) (opt : Option Options) (o : Options)
    (h : orDefault D opt = some o) :
    Authenticate D now secretKey userCode opt
      = Authenticate D now secretKey userCode (some o) := by
  unfold Authenticate
  rw [h]
  rfl

/-- The result of `Authenticate`, step by step. -/
theorem Authenticate_steps (D : Option Options) (now : Int) (secretKey userCode : List Byte)
    (o : Options) :
    (Authenticate D now secretKey userCode (some o)).result =
      if o.Digits ≠ userCode.length then .ok false
      else match ParseInt userCode with
        | .error _ => .ok false
        | .ok uc =>
          match o.Time with
          | none => .error .nilDereference
          | some clock =>
            match baseCounter (clock now) o.TimeStep with
            | .error p => .error p
            | .ok t =>
              match o.Hash with
              | .nil => .error .nilDereference
              | .shared => .error .hashNotUnique
              | .new h => outcome uc (codes h secretKey userCode.length t o.Tries) := by
  unfold Authenticate orDefault
  simp only []
  split
  · rfl
  · split
    · rfl
    · split
      · rfl
      · simp only [Run.after_result]
        split
        · rfl
        · simp only [Run.after_result]
          cases hh : o.Hash with
          | nil => rfl
          | shared => rfl
          | new h =>
            simp only [hmac.New]
            exact loop_result _ _ _ _ _ _ _ _ (hmac_new_reset _ _)

/-- The result of `Authenticate` for options with a clock that is set and a
hash constructor that returns new instances of `h`. -/
theorem Authenticate_result (D : Option Options) (now : Int) (secretKey userCode : List Byte)
    (o : Options) (clock : Int → Int) (h : Hash)
    (hc : o.Time = some clock) (hh : o.Hash = .new h) :
    (Authenticate D now secretKey userCode (some o)).result =
      if o.Digits ≠ userCode.length then .ok false
      else match ParseInt userCode with
        | .error _ => .ok false
        | .ok uc =>
          match baseCounter (clock now) o.TimeStep with
          | .error p => .error p
          | .ok t => outcome uc (codes h secretKey userCode.length t o.Tries) := by
  rw [Authenticate_steps, hc, hh]

theorem bigEndian64_congr (x y : Int) (h : x % 2 ^ 64 = y % 2 ^ 64) :
    bigEndian64 x = bigEndian64 y := by
  unfold bigEndian64; rw [h]

theorem bigEndian64_wrap64_add (q k : Int) :
    bigEndian64 (wrap64 q + k) = bigEndian64 (q + k) := by
  apply bigEndian64_congr
  unfold wrap64
  omega

theorem codes_wrap64 (h : Hash) (key : List Byte) (n : Nat) (q : Int) (tries : List Int) :
    codes h key n (wrap64 q) tries = codes h key n q tries := by
  unfold codes
  simp only [bigEndian64_wrap64_add]

/-- With digests of at least 19 bytes and a candidate of at most 9 bytes,
every code is the expected code of its offset. -/
theorem codes_of_long (h : Hash) (key : List Byte) (n : Nat) (t : Int) (tries : List Int)
    (hl : ∀ msg, 19 ≤ (keyedHash h key msg).length) (hn : n ≤ 9) :
    codes h key n t tries
      = tries.map fun k => .ok ((expectedCode h key n (t + k) : Nat) : Int) := by
  unfold codes expectedCode
  apply List.map_congr_left
  intro k _
  exact code_of_long _ _ (hl _) hn

theorem outcome_map_ok (uc : Int) (f : Int → Int) (tries : List Int) :
    outcome uc (tries.map fun k => .ok (f k)) = .ok (decide (∃ k ∈ tries, f k = uc)) := by
  induction tries with
  | nil => simp [outcome]
  | cons k rest ih =>
    simp only [List.map_cons, outcome, ih]
    by_cases hk : f k = uc
    · simp [hk]
    · simp [hk]

theorem baseCounter_of_ne (unix TimeStep : Int) (hs : Int.tdiv TimeStep Second ≠ 0) :
    baseCounter unix TimeStep = .ok (wrap64 (Int.tdiv unix (Int.tdiv TimeStep Second))) := by
  unfold baseCounter
  simp [hs]

theorem tdiv_Second_ne (TimeStep : Int) (hs : Second ≤ TimeStep) :
    Int.tdiv TimeStep Second ≠ 0 := by
  unfold Second at *
  have := Int.tdiv_eq_ediv (a := TimeStep) (b := 1000000000) (by omega)
  omega

theorem baseCounter_of_step (unix TimeStep : Int) (hs : Second ≤ TimeStep) :
    baseCounter unix TimeStep = .ok (wrap64 (Int.tdiv unix (Int.tdiv TimeStep Second))) := by
  unfold baseCounter
  have : Int.tdiv TimeStep Second ≠ 0 := by
    unfold Second at *
    have := Int.tdiv_eq_ediv (a := TimeStep) (b := 1000000000) (by omega)
    omega
  simp [this]

/-! ## The digest lengths of the standard hashes -/

theorem strict_eq {α : Type} (n : Nat) (k : Nat → α) : strict n k = k n := by
  cases n <;> rfl

theorem strictList_eq {α : Type} (ns : List Nat) :
    ∀ (k : List Nat → α), strictList ns k = k ns := by
  induction ns with
  | nil => intro k; rfl
  | cons n ns ih => intro k; simp only [strictList, strict_eq, ih]

theorem beBytes_length (n x : Nat) : (beBytes n x).length = n := by
  induction n with
  | zero => rfl
  | succ n ih => simp [beBytes, ih]

theorem flatMap_length_of_const {α β : Type} (f : α → List β) (n : Nat)
    (hf : ∀ a, (f a).length = n) (ws : List α) :
    (ws.flatMap f).length = ws.length * n := by
  induction ws with
  | nil => simp
  | cons w ws ih =>
    simp only [List.flatMap_cons, List.length_append, hf, ih, List.length_cons]
    rw [Nat.add_mul]; omega

theorem shaBlocks_length (f : List Nat → List Byte → List Nat) (bs L : Nat)
    (hf : ∀ h blk, h.length = L → (f h blk).length = L) :
    ∀ (n : Nat) (h : List Nat) (m : List Byte), h.length = L →
      (shaBlocks f bs n h m).length = L := by
  intro n
  induction n with
  | zero => intro h m hh; exact hh
  | succ n ih =>
    intro h m hh
    simp only [shaBlocks, strictList_eq]
    exact ih _ _ (hf _ _ hh)

theorem sha1_rounds_length (fs : List ((Nat → Nat → Nat → Nat) × Nat)) :
    ∀ ws s, (sha1.rounds fs ws s).length = s.length := by
  induction fs with
  | nil => intro ws s; unfold sha1.rounds; rfl
  | cons f fs ih =>
    intro ws s
    unfold sha1.rounds
    split
    · rename_i heq
      cases heq
      simp only [strict_eq]
      rw [ih]
      rfl
    · rfl

theorem sha1_block_length (h : List Nat) (blk : List Byte) (hh : h.length = 5) :
    (sha1.block h blk).length = 5 := by
  simp [sha1.block, sha1_rounds_length, hh]

/-- A SHA-1 digest has 20 bytes. -/
theorem sha1_Sum_length (m : List Byte) : (sha1.Sum m).length = 20 := by
  unfold sha1.Sum
  simp only [flatMap_length_of_const _ 4 (beBytes_length 4)]
  rw [shaBlocks_length sha1.block 64 5 sha1_block_length _ sha1.init _ rfl]

theorem sha2_rounds_length (p : Sha2) (ws : List Nat) :
    ∀ ks s, (sha2.rounds p ws ks s).length = s.length := by
  induction ws with
  | nil => intro ks s; unfold sha2.rounds; rfl
  | cons w ws ih =>
    intro ks s
    unfold sha2.rounds
    split
    · rename_i heq
      cases heq
      simp only [strict_eq]
      rw [ih]
      rfl
    · rfl

theorem sha2_block_length (p : Sha2) (h : List Nat) (blk : List Byte) :
    (sha2.block p h blk).length = h.length := by
  simp [sha2.block, sha2_rounds_length]

theorem sha2_Sum_length (p : Sha2) (m : List Byte) :
    (sha2.Sum p m).length = p.init.length * p.wordBytes := by
  unfold sha2.Sum
  simp only [flatMap_length_of_const _ p.wordBytes (beBytes_length p.wordBytes)]
  rw [shaBlocks_length (sha2.block p) _ p.init.length (fun h blk hh => by
    rw [sha2_block_length, hh]) _ _ _ rfl]

/-- A SHA-256 digest has 32 bytes. -/
theorem sha256_sum_length (m : List Byte) : (sha256.New.sum m).length = 32 := by
  show (sha2.Sum sha256.params m).length = 32
  rw [sha2_Sum_length]; rfl

/-- A SHA-512 digest has 64 bytes. -/
theorem sha512_sum_length (m : List Byte) : (sha512.New.sum m).length = 64 := by
  show (sha2.Sum sha512.params m).length = 64
  rw [sha2_Sum_length]; rfl

/-- The keyed hash has the length of the digests of the hash. -/
theorem keyedHash_length (h : Hash) (key msg : List Byte) (L : Nat)
    (hL : ∀ m, (h.sum m).length = L) : (keyedHash h key msg).length = L := by
  unfold keyedHash HMAC.Sum
  rw [List.nil_append]
  exact hL _

theorem keyedHash_sha1_length (key msg : List Byte) :
    (keyedHash sha1.New key msg).length = 20 :=
  keyedHash_length _ _ _ 20 sha1_Sum_length

/-! ## The constants of SHA-2

FIPS 180-4 defines the round constants as the first bits of the fractional
parts of the cube roots of the first primes, and the initial states as those
of the square roots of the first eight primes. The tables above are these. -/

theorem sha256_K_eq : sha256.K = (primes.take 64).map (fracRoot 3 32) := by decide!

theorem sha256_init_eq : sha256.init = (primes.take 8).map (fracRoot 2 32) := by decide!

theorem sha512_K_eq : sha512.K = primes.map (fracRoot 3 64) := by decide!

theorem sha512_init_eq : sha512.init = (primes.take 8).map (fracRoot 2 64) := by decide!

/-! ## Strings of decimal digits -/

theorem parseUintLoop_digits (s : List Byte) :
    ∀ (n k : Nat), isDigits s → n < 10 ^ k → k + s.length ≤ 19 →
      parseUintLoop s n = .ok (s.foldl (fun n c => n * 10 + (c.val - 48)) n) ∧
      s.foldl (fun n c => n * 10 + (c.val - 48)) n < 10 ^ (k + s.length) := by
  induction s with
  | nil => intro n k _ hn _; exact ⟨rfl, by simpa using hn⟩
  | cons c cs ih =>
    intro n k hd hn hk
    have hc : 48 ≤ c.val ∧ c.val ≤ 57 := hd c (by simp)
    have hcs : isDigits cs := fun x hx => hd x (by simp [hx])
    simp only [List.length_cons] at hk
    have hpow : 10 ^ k ≤ 10 ^ 18 := Nat.pow_le_pow_right (by decide) (by omega)
    have hn1 : n * 10 + (c.val - 48) < 10 ^ (k + 1) := by
      rw [Nat.pow_succ]; omega
    have hpow1 : 10 ^ (k + 1) ≤ 10 ^ 19 := Nat.pow_le_pow_right (by decide) (by omega)
    obtain ⟨h1, h2⟩ := ih (n * 10 + (c.val - 48)) (k + 1) hcs hn1 (by omega)
    constructor
    · unfold parseUintLoop
      simp only [hc, and_self, if_true, List.foldl_cons]
      rw [if_neg (by norm_num at hpow ⊢; omega), if_neg (by norm_num at hpow1 ⊢; omega)]
      exact h1
    · simp only [List.foldl_cons, List.length_cons]
      rw [show k + (cs.length + 1) = k + 1 + cs.length by omega]
      exact h2

theorem ParseUint_cons (c : Byte) (cs : List Byte) :
    ParseUint (c :: cs) = parseUintLoop (c :: cs) 0 := rfl

/-- A string of 1 to 18 decimal digits parses as the number it denotes. -/
theorem ParseInt_digits (s : List Byte) (hd : isDigits s) (hne : s ≠ [])
    (hl : s.length ≤ 18) :
    ParseInt s = .ok (decimalValue s : Nat) ∧ decimalValue s < 10 ^ s.length := by
  obtain ⟨h1, h2⟩ := parseUintLoop_digits s 0 0 hd (by decide) (by omega)
  rw [Nat.zero_add] at h2
  have hpow : 10 ^ s.length ≤ 10 ^ 18 := Nat.pow_le_pow_right (by decide) hl
  have hlt : decimalValue s < 2 ^ 63 :=
    Nat.lt_of_lt_of_le (Nat.lt_of_lt_of_le h2 hpow) (by norm_num)
  refine ⟨?_, h2⟩
  change parseUintLoop s 0 = .ok (decimalValue s) at h1
  generalize decimalValue s = v at h1 hlt
  cases s with
  | nil => exact absurd rfl hne
  | cons c cs =>
    have hc : 48 ≤ c.val ∧ c.val ≤ 57 := hd c (by simp)
    unfold ParseInt
    have e1 : ¬ (c.val = 43) := by omega
    have e2 : ¬ (c.val = 45) := by omega
    have hv : ¬ v ≥ 2 ^ 63 := by omega
    simp only [e1, e2, or_self, if_false, ParseUint_cons, h1, false_and, not_false_eq_true,
      true_and, hv]

theorem zeroPadded_succ (d m : Nat) :
    zeroPadded (d + 1) m = zeroPadded d (m / 10) ++ [digitByte (m % 10)] := by
  unfold zeroPadded
  by_cases hm : m = 0
  · subst hm
    simp [List.replicate_succ']
  · rw [Nat.digits_def' (by decide) (Nat.pos_of_ne_zero hm)]
    simp only [List.reverse_cons, List.map_append, List.map_cons, List.map_nil,
      List.length_append, List.length_map, List.length_reverse, List.length_cons,
      List.length_nil, Nat.zero_add, Nat.add_sub_add_right, List.append_assoc]

theorem digitByte_sub (c : Byte) (hc : 48 ≤ c.val ∧ c.val ≤ 57) :
    digitByte (c.val - 48) = c := by
  apply Fin.ext
  simp only [digitByte, Fin.ofNat]
  have := c.isLt
  omega

/-- A string of decimal digits is the zero-padded rendering of the number it
denotes. -/
theorem zeroPadded_decimalValue (s : List Byte) (hd : isDigits s) :
    zeroPadded s.length (decimalValue s) = s := by
  induction s using List.reverseRecOn with
  | nil => simp [zeroPadded, decimalValue]
  | append_singleton cs c ih =>
    have hc : 48 ≤ c.val ∧ c.val ≤ 57 := hd c (by simp)
    have hcs : isDigits cs := fun x hx => hd x (by simp [hx])
    have hv : decimalValue (cs ++ [c]) = decimalValue cs * 10 + (c.val - 48) := by
      simp [decimalValue, List.foldl_append]
    rw [List.length_append, List.length_singleton, zeroPadded_succ, hv]
    have e1 : (decimalValue cs * 10 + (c.val - 48)) / 10 = decimalValue cs := by omega
    have e2 : (decimalValue cs * 10 + (c.val - 48)) % 10 = c.val - 48 := by omega
    rw [e1, e2, ih hcs, digitByte_sub c hc]

/-! ## C1: what `Authenticate` accepts -/

/-- A string that `ParseUint` reads is a string of decimal digits. -/
theorem parseUintLoop_ok (s : List Byte) :
    ∀ (a v : Nat), parseUintLoop s a = .ok v → ∀ c ∈ s, 48 ≤ c.val ∧ c.val ≤ 57 := by
  induction s with
  | nil => intro a v _ c hc; simp at hc
  | cons x xs ih =>
    intro a v h c hc
    unfold parseUintLoop at h
    split at h
    · rename_i hx
      simp only [] at h
      split at h
      · cases h
      · split at h
        · cases h
        · rcases List.mem_cons.mp hc with e | e
          · rw [e]; exact hx
          · exact ih _ _ h c e
    · cases h

/-- A string without a leading sign that `ParseInt` reads is a string of
decimal digits that is not empty. -/
theorem ParseInt_ok_unsigned (s : List Byte) (n : Int)
    (hsign : ∀ c, s.head? = some c → c.val ≠ 43 ∧ c.val ≠ 45)
    (h : ParseInt s = .ok n) : s ≠ [] ∧ ∀ c ∈ s, 48 ≤ c.val ∧ c.val ≤ 57 := by
  cases s with
  | nil => cases h
  | cons c cs =>
    refine ⟨by simp, ?_⟩
    have hc := hsign c rfl
    unfold ParseInt at h
    simp only [hc.1, hc.2, or_self, if_false, ParseUint_cons] at h
    split at h
    · cases h
    · rename_i un hun
      exact parseUintLoop_ok _ _ _ hun

/-- C1, as stated, fails. With a digit count of 10 (SHA-1, the secret of
RFC 6238, clock 59, step 30 s, offsets `[0]`) the candidate `1094287082` has
length 10, is the decimal numeral of the truncated digest modulo `10^10`, and
`Authenticate` does not return true: it panics on `digit_power[10]`. The
candidate `+7081804` is accepted although it is not a decimal numeral. And the
call returns no boolean for a time step of zero, a digest of 16 bytes (MD5), a
nil clock, a nil hash constructor or one that returns a shared instance: it
panics. -/
theorem C1_counterexample :
    ¬ ((Authenticate (some NewOptions) 0 secret20 (bytes "1094287082")
          (some (fixedOptions 59 [0] 10 sha1.New))).result = .ok true ↔
        (bytes "1094287082").length = 10 ∧ bytes "1094287082" ≠ [] ∧
        isDigits (bytes "1094287082") ∧
          ∃ k ∈ [(0 : Int)], (decimalValue (bytes "1094287082") : Int)
            = ((truncated (keyedHash sha1.New secret20
              (bigEndian64 (Int.tdiv 59 (Int.tdiv (30 * Second) Second) + k)))
                % 10 ^ 10 : Nat) : Int)) ∧
    (¬ isDigits (bytes "+7081804") ∧
      (Authenticate (some NewOptions) 0 secret20 (bytes "+7081804")
        (some (fixedOptions 1111111109 [0] 8 sha1.New))).result = .ok true) ∧
    (Authenticate (some NewOptions) 0 secret20 (bytes "123456")
      (some { fixedOptions 59 [0] 6 sha1.New with TimeStep := 0 })).result
        = .error .divideByZero ∧
    (Authenticate (some NewOptions) 0 secret20 (bytes "123456")
      (some (fixedOptions 60 [0] 6 md5.New))).result = .error .indexOutOfRange ∧
    (Authenticate (some NewOptions) 0 secret20 (bytes "123456")
      (some { fixedOptions 59 [0] 6 sha1.New with Time := none })).result
        = .error .nilDereference ∧
    (Authenticate (some NewOptions) 0 secret20 (bytes "123456")
      (some { fixedOptions 59 [0] 6 sha1.New with Hash := .nil })).result
        = .error .nilDereference ∧
    (Authenticate (some NewOptions) 0 secret20 (bytes "123456")
      (some { fixedOptions 59 [0] 6 sha1.New with Hash := .shared })).result
        = .error .hashNotUnique := by
  refine ⟨?_, ⟨by decide!, by decide!⟩, by decide!, by decide!, by decide!, by decide!,
    by decide!⟩
  intro h
  have hl : (Authenticate (some NewOptions) 0 secret20 (bytes "1094287082")
      (some (fixedOptions 59 [0] 10 sha1.New))).result = .error .indexOutOfRange := by
    decide!
  have hr := h.mpr ⟨by decide!, by decide!, by decide!, 0, by simp, by decide!⟩
  rw [hl] at hr
  cases hr

/-- C1 (amended): for a clock that is set, a hash constructor that is set and
returns a new hash at every call, a digit count of at most 9, a time step
whose whole seconds are not zero and a keyed hash whose digests have at least
19 bytes, `Authenticate` returns a boolean; for a candidate without a leading
sign it returns true if and only if the candidate has length `d`, is a decimal
numeral (digits only, not empty) of a number `n`, and `n = V mod 10^d` for
some offset `k` of the list, `V` being the truncated keyed hash of the 8-byte
big-endian encoding of `clock seconds / step seconds + k` (the quotient
truncated). Every digest computed is over the eight bytes of one offset's
counter alone. -/
theorem C1_authenticate_iff (D : Option Options) (now : Int) (secretKey userCode : List Byte)
    (o : Options) (clock : Int → Int) (h : Hash)
    (hc : o.Time = some clock) (hh : o.Hash = .new h)
    (hd : o.Digits ≤ 9) (hs : Int.tdiv o.TimeStep Second ≠ 0)
    (hl : ∀ msg, 19 ≤ (keyedHash h secretKey msg).length) :
    (∃ b, (Authenticate D now secretKey userCode (some o)).result = .ok b) ∧
    ((∀ c, userCode.head? = some c → c.val ≠ 43 ∧ c.val ≠ 45) →
      ((Authenticate D now secretKey userCode (some o)).result = .ok true ↔
        userCode.length = o.Digits ∧ userCode ≠ [] ∧ isDigits userCode ∧
          ∃ k ∈ o.Tries, (decimalValue userCode : Int)
            = ((truncated (keyedHash h secretKey
              (bigEndian64 (Int.tdiv (clock now) (Int.tdiv o.TimeStep Second) + k)))
                % 10 ^ o.Digits : Nat) : Int))) ∧
    (∀ e ∈ (Authenticate D now secretKey userCode (some o)).events,
      e = .Time ∨ e = .Hash ∨ ∃ k ∈ o.Tries, e = .Sum (bigEndian64
        (Int.tdiv (clock now) (Int.tdiv o.TimeStep Second) + k))) := by
  refine ⟨?_, ?_, ?_⟩
  · rw [Authenticate_result D now secretKey userCode o clock h hc hh]
    split
    · exact ⟨_, rfl⟩
    · rename_i hlen
      split
      · exact ⟨_, rfl⟩
      · rw [baseCounter_of_ne _ _ hs]
        simp only [codes_wrap64]
        rw [codes_of_long _ _ _ _ _ hl (by omega), outcome_map_ok]
        exact ⟨_, rfl⟩
  · intro hsign
    rw [Authenticate_result D now secretKey userCode o clock h hc hh]
    split
    · rename_i hlen
      constructor
      · intro h; cases h
      · rintro ⟨h, _⟩; exact absurd h.symm hlen
    · rename_i hlen
      have hlen : o.Digits = userCode.length := by
        by_contra hne; exact hlen hne
      split
      · rename_i e he
        constructor
        · intro h; cases h
        · rintro ⟨_, hne, hdig, _⟩
          rw [(ParseInt_digits userCode hdig hne (by omega)).1] at he
          cases he
      · rename_i uc huc
        obtain ⟨hne, hdig⟩ := ParseInt_ok_unsigned userCode uc hsign huc
        have hv : uc = (decimalValue userCode : Int) := by
          rw [(ParseInt_digits userCode hdig hne (by omega)).1] at huc
          exact (Except.ok.inj huc).symm
        rw [baseCounter_of_ne _ _ hs]
        simp only [codes_wrap64]
        rw [codes_of_long _ _ _ _ _ hl (by omega), outcome_map_ok]
        simp only [Except.ok.injEq, decide_eq_true_eq, expectedCode]
        constructor
        · rintro ⟨k, hk, hkc⟩
          exact ⟨hlen.symm, hne, hdig, k, hk, by rw [hlen, ← hv]; exact hkc.symm⟩
        · rintro ⟨_, _, _, k, hk, hkc⟩
          exact ⟨k, hk, by rw [← hlen, hv]; exact hkc.symm⟩
  · intro e he
    unfold Authenticate orDefault at he
    simp only [hc, hh, hmac.New] at he
    split at he
    · simp at he
    · split at he
      · simp at he
      · simp only [Run.after_events, List.mem_cons] at he
        rcases he with he | he
        · exact Or.inl he
        · rw [baseCounter_of_ne _ _ hs] at he
          simp only [Run.after_events, List.mem_cons] at he
          rcases he with he | he
          · exact Or.inr (Or.inl he)
          · obtain ⟨k, hk, hke⟩ := loop_events _ _ _ _ _ _ e he
            exact Or.inr (Or.inr ⟨k, hk, by rw [hke, bigEndian64_wrap64_add]⟩)

/-- C1, witness: the first vector of RFC 6238 (SHA-1, clock 59, 8 digits):
the candidate `94287082` has length 8, is the decimal numeral of the truncated
digest modulo `10^8` at the offset 0, so `Authenticate` returns true. -/
theorem C1_authenticate_iff_witness :
    (∃ b, (Authenticate (some NewOptions) 0 secret20 (bytes "94287082")
      (some (fixedOptions 59 [0] 8 sha1.New))).result = .ok b) ∧
    (Authenticate (some NewOptions) 0 secret20 (bytes "94287082")
      (some (fixedOptions 59 [0] 8 sha1.New))).result = .ok true :=
  ⟨(C1_authenticate_iff (some NewOptions) 0 secret20 (bytes "94287082")
      (fixedOptions 59 [0] 8 sha1.New) (fun _ => 59) sha1.New rfl rfl
      (by decide) (by decide) (fun msg => by rw [keyedHash_sha1_length]; decide)).1,
   ((C1_authenticate_iff (some NewOptions) 0 secret20 (bytes "94287082")
      (fixedOptions 59 [0] 8 sha1.New) (fun _ => 59) sha1.New rfl rfl
      (by decide) (by decide) (fun msg => by rw [keyedHash_sha1_length]; decide)).2.1
      (by decide!)).mpr
      ⟨by decide!, by decide!, by decide!, 0, by simp [fixedOptions], by decide!⟩⟩

/-! ## C2: the vectors of RFC 6238 -/

/-- The test options do not look at the system time. -/
theorem testSimple_now (now unix : Int) (h : Hash) (secret : List Byte) (totp : String) :
    testSimple now unix h secret totp = testSimple 0 unix h secret totp := rfl

/-- C2: for each vector of RFC 6238, appendix B (Unix times 59, 1111111109,
1111111111, 1234567890, 2000000000, 20000000000; HMAC-SHA-1 with the 20-byte
secret, HMAC-SHA-256 with the 32-byte secret, HMAC-SHA-512 with the 64-byte
secret; 8 digits, step 30 s, offsets `[0]`), `Authenticate` returns true for
the documented code. -/
theorem C2_rfc6238_vectors (now : Int) :
    testSimple now 59 sha1.New secret20 "94287082" = .ok true ∧
    testSimple now 59 sha256.New secret32 "46119246" = .ok true ∧
    testSimple now 59 sha512.New secret64 "90693936" = .ok true ∧
    testSimple now 1111111109 sha1.New secret20 "07081804" = .ok true ∧
    testSimple now 1111111109 sha256.New secret32 "68084774" = .ok true ∧
    testSimple now 1111111109 sha512.New secret64 "25091201" = .ok true ∧
    testSimple now 1111111111 sha1.New secret20 "14050471" = .ok true ∧
    testSimple now 1111111111 sha256.New secret32 "67062674" = .ok true ∧
    testSimple now 1111111111 sha512.New secret64 "99943326" = .ok true ∧
    testSimple now 1234567890 sha1.New secret20 "89005924" = .ok true ∧
    testSimple now 1234567890 sha256.New secret32 "91819424" = .ok true ∧
    testSimple now 1234567890 sha512.New secret64 "93441116" = .ok true ∧
    testSimple now 2000000000 sha1.New secret20 "69279037" = .ok true ∧
    testSimple now 2000000000 sha256.New secret32 "90698825" = .ok true ∧
    testSimple now 2000000000 sha512.New secret64 "38618901" = .ok true ∧
    testSimple now 20000000000 sha1.New secret20 "65353130" = .ok true ∧
    testSimple now 20000000000 sha256.New secret32 "77737706" = .ok true ∧
    testSimple now 20000000000 sha512.New secret64 "47863826" = .ok true := by
  refine ⟨?_, ?_, ?_, ?_, ?_, ?_, ?_, ?_, ?_, ?_, ?_, ?_, ?_, ?_, ?_, ?_, ?_, ?_⟩ <;>
    (rw [testSimple_now]; decide!)

/-! ## C3: a candidate of the wrong length -/

/-- C3: for every secret, every configuration (the nil one included, which
stands for the options that the package variable `DefaultOptions` holds; a
nil clock or hash included) and every candidate whose length differs from the
configured digit count, `Authenticate` returns false, without a panic and
without an event: neither the clock nor the hash was consulted. -/
theorem C3_length_mismatch (D : Option Options) (now : Int) (secretKey userCode : List Byte)
    (opt : Option Options) (o : Options) (ho : orDefault D opt = some o)
    (h : userCode.length ≠ o.Digits) :
    (Authenticate D now secretKey userCode opt).result = .ok false ∧
    (Authenticate D now secretKey userCode opt).events = [] := by
  have h' : o.Digits ≠ userCode.length := fun e => h e.symm
  unfold Authenticate
  rw [ho]
  simp only [h', ne_eq, not_false_eq_true, if_true, and_self]

/-- C3, witness: a candidate of five bytes against six digits, with a nil
clock, a time step of zero and a nil hash; and a call with nil options under
the initial value of `DefaultOptions`. -/
theorem C3_length_mismatch_witness :
    ((Authenticate (some NewOptions) 0 secret20 (bytes "12345")
        (some { Time := none, Tries := [0, 1], TimeStep := 0, Digits := 6,
                Hash := .nil })).result = .ok false ∧
     (Authenticate (some NewOptions) 0 secret20 (bytes "12345")
        (some { Time := none, Tries := [0, 1], TimeStep := 0, Digits := 6,
                Hash := .nil })).events = []) ∧
    ((Authenticate (some NewOptions) 0 secret20 (bytes "12345") none).result = .ok false ∧
     (Authenticate (some NewOptions) 0 secret20 (bytes "12345") none).events = []) :=
  ⟨C3_length_mismatch (some NewOptions) 0 secret20 (bytes "12345") _ _ rfl (by decide!),
   C3_length_mismatch (some NewOptions) 0 secret20 (bytes "12345") none NewOptions rfl
    (by decide!)⟩

/-! ## C4: a candidate with a sign -/

/-- C4, at the failing input: the candidate `+7081804` has the configured
length 8 and is not a string of decimal digits, and `Authenticate` returns
true for it where the expected code is `07081804` (SHA-1, the secret of
RFC 6238, clock 1111111109, step 30 s, offsets `[0]`). -/
theorem C4_sign_accepted (now : Int) :
    ¬ isDigits (bytes "+7081804") ∧ (bytes "+7081804").length = 8 ∧
    ParseInt (bytes "+7081804") = .ok 7081804 ∧
    testSimple now 1111111109 sha1.New secret20 "07081804" = .ok true ∧
    testSimple now 1111111109 sha1.New secret20 "+7081804" = .ok true := by
  refine ⟨by decide!, by decide!, by decide!, ?_, ?_⟩ <;> (rw [testSimple_now]; decide!)

/-! ## C5: window tolerance -/

/-- One time step earlier the truncated quotient is one less, unless the
clock reading lies strictly between 0 and the step. -/
theorem tdiv_sub_step (T s : Int) (hs : 1 ≤ s) (hT : T ≤ 0 ∨ s ≤ T) :
    Int.tdiv (T - s) s = Int.tdiv T s - 1 := by
  rcases hT with h | h
  · have e1 : T - s = -(s - T) := by omega
    have e2 : T = -(-T) := by omega
    rw [e1, Int.neg_tdiv, Int.tdiv_eq_ediv (by omega) (by omega)]
    conv => rhs; rw [e2, Int.neg_tdiv, Int.tdiv_eq_ediv (by omega) (by omega)]
    have : s - T = -T + 1 * s := by omega
    rw [this, Int.add_mul_ediv_right _ _ (by omega)]
    omega
  · rw [Int.tdiv_eq_ediv (by omega) (by omega), Int.tdiv_eq_ediv (by omega) (by omega)]
    have : T - s = T + (-1) * s := by omega
    rw [this, Int.add_mul_ediv_right _ _ (by omega)]
    omega

theorem outcome_singleton_true (uc : Int) (x : Except Panic Int)
    (h : outcome uc [x] = .ok true) : x = .ok uc := by
  cases x with
  | error p => simp [outcome] at h
  | ok c =>
    simp only [outcome] at h
    split at h
    · rename_i hc; rw [hc]
    · cases h

/-- C5, as stated, fails, in two ways. First, for a clock time strictly
between 0 and the step: at `T = 10` with a step of 30 s the candidate `755224`
is accepted with offsets `[0]`, and rejected at `T - 30 = -20` with offsets
`[1]` (SHA-1, the secret of RFC 6238, 6 digits), because `-20 / 30` is `0` in
Go. Second, for a hash with short digests: with MD5 at `T = 90` the candidate
`848120` is accepted with offsets `[0]`, and at `T - 30 = 60` with offsets
`[0, 1]` the call panics on the digest of the offset tried before `+1`: its
last byte is `0x0e`, and a digest of 16 bytes has no byte 14 + 3. -/
theorem C5_counterexample :
    ((Authenticate (some NewOptions) 0 secret20 (bytes "755224")
        (some (fixedOptions 10 [0] 6 sha1.New))).result = .ok true ∧
     (Authenticate (some NewOptions) 0 secret20 (bytes "755224")
        (some (fixedOptions (10 - 30) [1] 6 sha1.New))).result = .ok false) ∧
    ((Authenticate (some NewOptions) 0 secret20 (bytes "848120")
        (some (fixedOptions 90 [0] 6 md5.New))).result = .ok true ∧
     (Authenticate (some NewOptions) 0 secret20 (bytes "848120")
        (some (fixedOptions (90 - 30) [0, 1] 6 md5.New))).result
          = .error .indexOutOfRange) := by
  refine ⟨⟨?_, ?_⟩, ?_, ?_⟩ <;> decide!

/-- C5 (amended): for every secret, hash whose keyed digests have at least 19
bytes, digit count, time step of `s ≥ 1` whole seconds, candidate and clock
time `T` with `T ≤ 0` or `s ≤ T`: if `Authenticate` accepts the candidate with
clock time `T` and offsets `[0]`, it accepts it with clock time `T - s` and
any offsets list that contains `+1`. The hash field of the options is
arbitrary: the condition on the digests bears on the hash it constructs. -/
theorem C5_window_tolerance (D : Option Options) (now : Int) (secretKey userCode : List Byte)
    (o : Options)
    (T s : Int) (tries : List Int) (hs : 1 ≤ s) (hstep : o.TimeStep = s * Second)
    (hT : T ≤ 0 ∨ s ≤ T)
    (hl : ∀ h, o.Hash = .new h → ∀ msg, 19 ≤ (keyedHash h secretKey msg).length)
    (h1 : 1 ∈ tries)
    (hacc : (Authenticate D now secretKey userCode
      (some { o with Time := some fun _ => T, Tries := [0] })).result = .ok true) :
    (Authenticate D now secretKey userCode
      (some { o with Time := some fun _ => T - s, Tries := tries })).result = .ok true := by
  have estep : Int.tdiv (s * Second) Second = s := Int.mul_tdiv_cancel s (by decide)
  have hsec : Second ≤ o.TimeStep := by
    rw [hstep]; unfold Second; nlinarith
  rw [Authenticate_steps] at hacc ⊢
  simp only [] at hacc ⊢
  split at hacc
  · cases hacc
  rename_i hlen
  rw [if_neg hlen]
  split at hacc
  · cases hacc
  rename_i uc huc
  simp only [baseCounter_of_step _ _ hsec, codes_wrap64] at hacc ⊢
  rw [hstep, estep] at hacc ⊢
  cases hh : o.Hash with
  | nil => rw [hh] at hacc; cases hacc
  | shared => rw [hh] at hacc; cases hacc
  | new h =>
    rw [hh] at hacc
    simp only [] at hacc ⊢
    have hc : code (keyedHash h secretKey (bigEndian64 (Int.tdiv T s + 0)))
        userCode.length = .ok uc := outcome_singleton_true _ _ hacc
    obtain ⟨hn, hv⟩ := code_inv _ _ _ hc
    rw [codes_of_long _ _ _ _ _ (hl h hh) hn, outcome_map_ok]
    simp only [Except.ok.injEq, decide_eq_true_eq]
    refine ⟨1, h1, ?_⟩
    rw [tdiv_sub_step T s hs hT]
    have e : Int.tdiv T s - 1 + 1 = Int.tdiv T s + 0 := by omega
    rw [e, hv]
    rfl

/-- C5, witness: the first vector of RFC 6238 at `T = 59`, then at `T - 30`
with offsets `[0, 1]`, as in `TestVarious`. -/
theorem C5_window_tolerance_witness :
    (Authenticate (some NewOptions) 0 secret20 (bytes "94287082")
      (some { fixedOptions 0 [] 8 sha1.New with
              Time := some fun _ => 59 - 30, Tries := [0, 1] })).result = .ok true :=
  C5_window_tolerance (some NewOptions) 0 secret20 (bytes "94287082")
    (fixedOptions 0 [] 8 sha1.New)
    59 30 [0, 1] (by decide) rfl (by decide)
    (fun h hh msg => by
      cases hh
      rw [keyedHash_sha1_length]; decide)
    (by decide) (by decide!)

/-! ## C6: tamper rejection -/

theorem outcome_true_mem (uc : Int) (cs : List (Except Panic Int))
    (h : outcome uc cs = .ok true) : .ok uc ∈ cs := by
  induction cs with
  | nil => simp [outcome] at h
  | cons x rest ih =>
    cases x with
    | error p => simp [outcome] at h
    | ok c =>
      simp only [outcome] at h
      split at h
      · rename_i hc; simp [hc]
      · simp [ih h]

theorem isDigits_set (c : List Byte) (i : Nat) (x : Byte) (hc : isDigits c)
    (hx : 48 ≤ x.val ∧ x.val ≤ 57) : isDigits (c.set i x) := by
  intro y hy
  rcases List.mem_or_eq_of_mem_set hy with h | h
  · exact hc y h
  · rw [h]; exact hx

theorem decimalValue_append_singleton (cs : List Byte) (c : Byte) :
    decimalValue (cs ++ [c]) = decimalValue cs * 10 + (c.val - 48) := by
  simp [decimalValue, List.foldl_append]

/-- The zero-padded rendering of a number below `10^d` denotes that number. -/
theorem decimalValue_zeroPadded (d : Nat) :
    ∀ c, c < 10 ^ d → decimalValue (zeroPadded d c) = c := by
  induction d with
  | zero =>
    intro c hc
    have : c = 0 := by simpa using hc
    subst this
    simp [zeroPadded, decimalValue]
  | succ d ih =>
    intro c hc
    rw [zeroPadded_succ, decimalValue_append_singleton, ih (c / 10) (by
      rw [Nat.pow_succ] at hc; omega)]
    have : (digitByte (c % 10)).val - 48 = c % 10 := by
      simp only [digitByte, Fin.ofNat]
      omega
    rw [this]
    omega

/-- A string that denotes another number than the expected code is not its
zero-padded rendering. -/
theorem ne_zeroPadded_expectedCode (s : List Byte) (h : Hash) (key : List Byte) (d : Nat)
    (counter : Int) (hv : decimalValue s ≠ expectedCode h key d counter) :
    s ≠ zeroPadded d (expectedCode h key d counter) := by
  intro e
  apply hv
  rw [e, decimalValue_zeroPadded]
  exact Nat.mod_lt _ (Nat.pos_pow_of_pos d (by decide))

/-- C6, as stated, fails for a hash with short digests: with HMAC-MD5 (the
secret of RFC 6238, clock 59, step 30 s, 6 digits, offsets `[0, 1]`) the
candidate `532013` is accepted; `532014`, which differs in the last digit, is
the zero-padded code of neither offset, and the call does not return false
but panics on the digest of the second offset. -/
theorem C6_counterexample :
    isDigits (bytes "532013") ∧
    (Authenticate (some NewOptions) 0 secret20 (bytes "532013")
      (some (fixedOptions 59 [0, 1] 6 md5.New))).result = .ok true ∧
    bytes "532014" = (bytes "532013").set 5 (digitByte 4) ∧
    (bytes "532013").get? 5 = some (digitByte 3) ∧
    (∀ k ∈ [(0 : Int), 1], bytes "532014" ≠ zeroPadded 6
      (expectedCode md5.New secret20 6 (Int.tdiv 59 (Int.tdiv (30 * Second) Second) + k))) ∧
    (Authenticate (some NewOptions) 0 secret20 (bytes "532014")
      (some (fixedOptions 59 [0, 1] 6 md5.New))).result = .error .indexOutOfRange := by
  refine ⟨by decide!, by decide!, by decide!, by decide!, ?_, by decide!⟩
  intro k hk
  apply ne_zeroPadded_expectedCode
  revert k
  decide!

/-- C6 (amended): for every secret, every configuration whose keyed digests
have at least 19 bytes, and every candidate `c` of decimal digits that
`Authenticate` accepts: if `c'` is `c` with one digit replaced by a different
decimal digit, and `c'` is not the zero-padded expected code of any offset of
the list, then `Authenticate` returns false for `c'`. A configuration under
which a candidate is accepted has a clock `clock` that is set and a hash
constructor that returns new instances of a hash `h`. -/
theorem C6_tamper_rejection (D : Option Options) (now : Int) (secretKey c c' : List Byte)
    (o : Options) (clock : Int → Int) (h : Hash)
    (hclock : o.Time = some clock) (hh : o.Hash = .new h)
    (i : Nat) (x : Byte)
    (hl : ∀ msg, 19 ≤ (keyedHash h secretKey msg).length)
    (hc : isDigits c)
    (hacc : (Authenticate D now secretKey c (some o)).result = .ok true)
    (hi : i < c.length) (hx : 48 ≤ x.val ∧ x.val ≤ 57) (_hne : c.get ⟨i, hi⟩ ≠ x)
    (hc' : c' = c.set i x)
    (hnot : ∀ k ∈ o.Tries, c' ≠ zeroPadded o.Digits (expectedCode h secretKey o.Digits
      (Int.tdiv (clock now) (Int.tdiv o.TimeStep Second) + k))) :
    (Authenticate D now secretKey c' (some o)).result = .ok false := by
  have hlen' : c'.length = c.length := by rw [hc', List.length_set]
  have hd' : isDigits c' := by rw [hc']; exact isDigits_set c i x hc hx
  rw [Authenticate_result D now secretKey _ o clock h hclock hh] at hacc ⊢
  split at hacc
  · cases hacc
  rename_i hlen
  have hlen : o.Digits = c.length := by
    by_contra h; exact hlen h
  rw [if_neg (by rw [hlen', hlen]; exact fun h => h rfl)]
  split at hacc
  · cases hacc
  rename_i uc huc
  split at hacc
  · cases hacc
  rename_i t ht
  -- the accepted candidate shows that the table covers the digit count
  have hmem := outcome_true_mem _ _ hacc
  unfold codes at hmem
  obtain ⟨k0, _, hk0⟩ := List.mem_map.mp hmem
  obtain ⟨hn, _⟩ := code_inv _ _ _ hk0
  -- the counter is the truncated quotient
  have ht' : t = wrap64 (Int.tdiv (clock now) (Int.tdiv o.TimeStep Second)) := by
    unfold baseCounter at ht
    simp only [] at ht
    split at ht
    · cases ht
    · exact (Except.ok.inj ht).symm
  have hp := ParseInt_digits c' hd' (by
      intro e; rw [e] at hlen'; simp at hlen'; omega) (by omega)
  rw [hp.1]
  simp only [ht]
  rw [ht', codes_wrap64, hlen', codes_of_long _ _ _ _ _ hl hn, outcome_map_ok]
  simp only [Except.ok.injEq, decide_eq_false_iff_not]
  rintro ⟨k, hk, hkc⟩
  apply hnot k hk
  have hz := zeroPadded_decimalValue c' hd'
  rw [hlen', ← hlen] at hz
  rw [hlen, ← hz]
  have : expectedCode h secretKey c.length
      (Int.tdiv (clock now) (Int.tdiv o.TimeStep Second) + k) = decimalValue c' := by
    exact_mod_cast hkc
  rw [this, hlen]

/-- C6, witness: the first vector of RFC 6238 with its first digit replaced,
as in `TestVarious`. -/
theorem C6_tamper_rejection_witness :
    (Authenticate (some NewOptions) 0 secret20 (bytes "04287082")
      (some (fixedOptions 59 [0, 1] 8 sha1.New))).result = .ok false :=
  C6_tamper_rejection (some NewOptions) 0 secret20 (bytes "94287082") (bytes "04287082")
    (fixedOptions 59 [0, 1] 8 sha1.New) (fun _ => 59) sha1.New rfl rfl 0 (digitByte 0)
    (fun msg => by rw [keyedHash_sha1_length]; decide)
    (by decide!) (by decide!) (by decide!) (by decide) (by decide!) (by decide!)
    (fun k hk => ne_zeroPadded_expectedCode _ _ _ _ _ (by revert k; decide!))

/-! ## C7: no panic inside the envelope -/

theorem keyedHash_sha256_length (key msg : List Byte) :
    (keyedHash sha256.New key msg).length = 32 :=
  keyedHash_length _ _ _ 32 sha256_sum_length

theorem keyedHash_sha512_length (key msg : List Byte) :
    (keyedHash sha512.New key msg).length = 64 :=
  keyedHash_length _ _ _ 64 sha512_sum_length

/-- The keyed digests of the three standard hashes have at least 20 bytes. -/
theorem keyedHash_standard_length (h : Hash) (key msg : List Byte)
    (hh : h = sha1.New ∨ h = sha256.New ∨ h = sha512.New) :
    20 ≤ (keyedHash h key msg).length := by
  rcases hh with e | e | e <;> subst e
  · rw [keyedHash_sha1_length]
  · rw [keyedHash_sha256_length]; decide
  · rw [keyedHash_sha512_length]; decide

/-- Inside the envelope (a clock that is set, a hash constructor that returns
new instances, at most 9 digits, a step whose whole seconds are not zero,
digests of at least 19 bytes) the result of `Authenticate` is a boolean: true
when the candidate has the configured length, parses, and equals the expected
code of an offset of the list. -/
theorem Authenticate_result_safe (D : Option Options) (now : Int)
    (secretKey userCode : List Byte) (o : Options) (clock : Int → Int) (h : Hash)
    (hc : o.Time = some clock) (hh : o.Hash = .new h)
    (hd : o.Digits ≤ 9) (hs : Int.tdiv o.TimeStep Second ≠ 0)
    (hl : ∀ msg, 19 ≤ (keyedHash h secretKey msg).length) :
    (Authenticate D now secretKey userCode (some o)).result =
      if o.Digits ≠ userCode.length then .ok false
      else match ParseInt userCode with
        | .error _ => .ok false
        | .ok uc => .ok (decide (∃ k ∈ o.Tries,
            ((expectedCode h secretKey userCode.length
              (Int.tdiv (clock now) (Int.tdiv o.TimeStep Second) + k) : Nat) : Int) = uc)) := by
  rw [Authenticate_result D now secretKey userCode o clock h hc hh]
  split
  · rfl
  · rename_i hlen
    split
    · rfl
    · rw [baseCounter_of_ne _ _ hs]
      simp only [codes_wrap64]
      rw [codes_of_long _ _ _ _ _ hl (by omega), outcome_map_ok]

/-- C7, as stated, fails. With a digit count of 10 (SHA-1, the secret of
RFC 6238, clock 59, step 30 s, offsets `[0]`) the candidate `0000000000` makes
`Authenticate` panic: `digit_power` has the entries 0 to 9 and the index is
10. With a nil clock (6 digits, step 30 s, SHA-1) the candidate `123456` makes
it panic at the call of `o.Time`. -/
theorem C7_counterexample :
    (Authenticate (some NewOptions) 0 secret20 (bytes "0000000000")
      (some (fixedOptions 59 [0] 10 sha1.New))).result = .error .indexOutOfRange ∧
    digit_power.length = 10 ∧
    (Authenticate (some NewOptions) 0 secret20 (bytes "123456")
      (some { NewOptions with Time := none })).result = .error .nilDereference := by
  refine ⟨?_, ?_, ?_⟩ <;> decide!

/-- C7 (amended): for every configuration with a clock that is set, a digit
count of at most 9, a time step of at least one second, any offsets list and
the constructor of a standard hash (`sha1.New`, `sha256.New` or `sha512.New`),
and for every secret and every candidate, `Authenticate` returns a boolean,
without a panic; a candidate of the wrong length or one that does not parse
yields false. -/
theorem C7_no_panic (D : Option Options) (now : Int) (secretKey userCode : List Byte)
    (o : Options) (clock : Int → Int) (hc : o.Time = some clock)
    (hd : o.Digits ≤ 9) (hs : Second ≤ o.TimeStep)
    (hh : o.Hash = .new sha1.New ∨ o.Hash = .new sha256.New ∨ o.Hash = .new sha512.New) :
    (∃ b, (Authenticate D now secretKey userCode (some o)).result = .ok b) ∧
    ((userCode.length ≠ o.Digits ∨ ∃ e, ParseInt userCode = .error e) →
      (Authenticate D now secretKey userCode (some o)).result = .ok false) := by
  have hex : ∃ h, o.Hash = .new h ∧ (h = sha1.New ∨ h = sha256.New ∨ h = sha512.New) := by
    rcases hh with e | e | e
    · exact ⟨_, e, Or.inl rfl⟩
    · exact ⟨_, e, Or.inr (Or.inl rfl)⟩
    · exact ⟨_, e, Or.inr (Or.inr rfl)⟩
  obtain ⟨h, hnew, hstd⟩ := hex
  have hl : ∀ msg, 19 ≤ (keyedHash h secretKey msg).length := fun msg => by
    have := keyedHash_standard_length h secretKey msg hstd
    omega
  rw [Authenticate_result_safe D now secretKey userCode o clock h hc hnew hd
    (tdiv_Second_ne _ hs) hl]
  refine ⟨?_, ?_⟩
  · split
    · exact ⟨_, rfl⟩
    · split <;> exact ⟨_, rfl⟩
  · rintro (hne | ⟨e, he⟩)
    · rw [if_pos (fun e => hne e.symm)]
    · split
      · rfl
      · rw [he]

/-- C7, witness: a candidate with a letter, 9 digits, SHA-512. -/
theorem C7_no_panic_witness :
    (∃ b, (Authenticate (some NewOptions) 0 secret64 (bytes "12345678x")
      (some (fixedOptions 59 [0, -1, 1] 9 sha512.New))).result = .ok b) ∧
    (Authenticate (some NewOptions) 0 secret64 (bytes "12345678x")
      (some (fixedOptions 59 [0, -1, 1] 9 sha512.New))).result = .ok false :=
  ⟨(C7_no_panic (some NewOptions) 0 secret64 (bytes "12345678x")
      (fixedOptions 59 [0, -1, 1] 9 sha512.New) (fun _ => 59) rfl
      (by decide) (by decide) (Or.inr (Or.inr rfl))).1,
   (C7_no_panic (some NewOptions) 0 secret64 (bytes "12345678x")
      (fixedOptions 59 [0, -1, 1] 9 sha512.New) (fun _ => 59) rfl
      (by decide) (by decide) (Or.inr (Or.inr rfl))).2
      (Or.inr ⟨.ErrSyntax, by decide!⟩)⟩

/-! ## C8: the range of the expected code -/

/-- C8: for every secret, counter, hash and digit count `d`, the code that
lines 126-135 read from the keyed hash of the counter, whenever there is one,
is at least 0, less than `10^d`, and equal to the truncated digest modulo
`10^d`; and there is one whenever `d ≤ 9` and the digest has at least 19
bytes. -/
theorem C8_code_range (h : Hash) (secretKey : List Byte) (counter : Int) (d : Nat) :
    (∀ c, code (keyedHash h secretKey (tbuf counter)) d = .ok c →
      0 ≤ c ∧ c < 10 ^ d ∧
      c = ((truncated (keyedHash h secretKey (tbuf counter)) % 10 ^ d : Nat) : Int)) ∧
    (d ≤ 9 → 19 ≤ (keyedHash h secretKey (tbuf counter)).length →
      ∃ c, code (keyedHash h secretKey (tbuf counter)) d = .ok c) := by
  constructor
  · intro c hc
    obtain ⟨_, hv⟩ := code_inv _ _ _ hc
    refine ⟨?_, ?_, hv⟩
    · rw [hv]; exact Int.ofNat_nonneg _
    · rw [hv]
      have : truncated (keyedHash h secretKey (tbuf counter)) % 10 ^ d < 10 ^ d :=
        Nat.mod_lt _ (Nat.pos_pow_of_pos d (by decide))
      exact_mod_cast this
  · intro hd hl
    exact ⟨_, code_of_long _ _ hl hd⟩

/-- C8, witness: the first vector of RFC 6238 (SHA-1, counter 1, 8 digits)
has the code 94287082. -/
theorem C8_code_range_witness :
    (0 ≤ (94287082 : Int) ∧ (94287082 : Int) < 10 ^ 8 ∧
      (94287082 : Int)
        = ((truncated (keyedHash sha1.New secret20 (tbuf 1)) % 10 ^ 8 : Nat) : Int)) ∧
    ∃ c, code (keyedHash sha1.New secret20 (tbuf 1)) 8 = .ok c :=
  ⟨(C8_code_range sha1.New secret20 1 8).1 94287082 (by decide!),
   (C8_code_range sha1.New secret20 1 8).2 (by decide)
     (by rw [keyedHash_sha1_length]; decide)⟩

/-! ## C9: the base counter -/

/-- The quotient of Go, truncated toward zero, is within the dividend's
range. -/
theorem isInt64_tdiv (t s : Int) (ht : isInt64 t) (hs : 1 ≤ s) : isInt64 (Int.tdiv t s) := by
  unfold isInt64 at *
  rcases Int.le_total 0 t with h | h
  · rw [Int.tdiv_eq_ediv h (by omega)]
    have h1 := Int.ediv_le_self s h
    have h2 := Int.ediv_nonneg h (by omega : (0 : Int) ≤ s)
    omega
  · have e : t = -(-t) := by omega
    rw [e, Int.neg_tdiv, Int.tdiv_eq_ediv (by omega) (by omega)]
    have h1 := Int.ediv_le_self s (by omega : (0 : Int) ≤ -t)
    have h2 := Int.ediv_nonneg (by omega : (0 : Int) ≤ -t) (by omega : (0 : Int) ≤ s)
    omega

theorem wrap64_of_isInt64 (x : Int) (h : isInt64 x) : wrap64 x = x := by
  unfold isInt64 at h
  unfold wrap64
  omega

/-- C9, as stated, fails: one second before the epoch, with a step of 30
seconds, the base counter is 0 and the floor of the quotient is -1. -/
theorem C9_counterexample :
    baseCounter (-1) (30 * Second) = .ok 0 ∧ Int.fdiv (-1) 30 = -1 ∧
    baseCounter (-1) (30 * Second) ≠ .ok (Int.fdiv (-1) 30) := by
  decide

/-- C9 (amended): for every clock reading `t` and every time step of `s ≥ 1`
whole seconds, the base counter is the quotient of `t` by `s` truncated toward
zero: the floor of the quotient when `t ≥ 0`, and minus the floor of `-t / s`
when `t < 0`. -/
theorem C9_baseCounter (t s : Int) (ht : isInt64 t) (hs : 1 ≤ s) :
    baseCounter t (s * Second) = .ok (Int.tdiv t s) ∧
    Int.tdiv t s = if 0 ≤ t then Int.fdiv t s else - Int.fdiv (-t) s := by
  refine ⟨?_, ?_⟩
  · have e : Int.tdiv (s * Second) Second = s :=
      Int.mul_tdiv_cancel s (by decide)
    unfold baseCounter
    simp only [e]
    rw [if_neg (by omega), wrap64_of_isInt64 _ (isInt64_tdiv t s ht hs)]
  · split
    · rename_i h
      exact (Int.fdiv_eq_tdiv h (by omega)).symm
    · rename_i h
      have e : t = -(-t) := by omega
      rw [Int.fdiv_eq_tdiv (by omega) (by omega)]
      conv => lhs; rw [e, Int.neg_tdiv]

/-- C9, witness: 61 seconds before the epoch with a step of 30 seconds; the
base counter is -2, the floor of the quotient is -3. -/
theorem C9_baseCounter_witness :
    baseCounter (-61) (30 * Second) = .ok (Int.tdiv (-61) 30) ∧
    Int.tdiv (-61) 30
      = if (0 : Int) ≤ -61 then Int.fdiv (-61) 30 else - Int.fdiv (- -61) 30 :=
  C9_baseCounter (-61) 30 (by decide) (by decide)

/-! ## C10: the order of the offsets -/

theorem index_digit_power_big (n : Nat) (h : 9 < n) :
    index digit_power n = .error .indexOutOfRange := by
  unfold index
  have : digit_power.get? n = none := by
    rw [List.get?_eq_none]; simp [digit_power]; omega
  rw [this]

/-- The code lines 126-135 read from a digest of at least 19 bytes for a
candidate of more than 9 bytes: the index into `digit_power` panics. -/
theorem code_of_long_big (hashbuf : List Byte) (n : Nat) (hl : 19 ≤ hashbuf.length)
    (hn : 9 < n) : code hashbuf n = .error .indexOutOfRange := by
  have hlast : index hashbuf (hashbuf.length - 1) = .ok hashbuf[hashbuf.length - 1] :=
    index_of_lt _ _ (by omega)
  generalize hashbuf[hashbuf.length - 1] = last at hlast
  have ho : last.val &&& 0xf < 16 := by rw [and_0xf]; omega
  have hdl : (hashbuf.drop (last.val &&& 0xf)).length ≥ 4 := by
    rw [List.length_drop]; omega
  unfold code
  simp only [bind, Except.bind, pure, Except.pure, hlast, sliceFrom,
    (by omega : last.val &&& 0xf ≤ hashbuf.length), if_true,
    index_of_lt _ 0 (by omega : 0 < (hashbuf.drop (last.val &&& 0xf)).length),
    index_of_lt _ 1 (by omega : 1 < (hashbuf.drop (last.val &&& 0xf)).length),
    index_of_lt _ 2 (by omega : 2 < (hashbuf.drop (last.val &&& 0xf)).length),
    index_of_lt _ 3 (by omega : 3 < (hashbuf.drop (last.val &&& 0xf)).length),
    index_digit_power_big n hn]

theorem codes_of_long_big (h : Hash) (key : List Byte) (n : Nat) (t : Int) (tries : List Int)
    (hl : ∀ msg, 19 ≤ (keyedHash h key msg).length) (hn : 9 < n) :
    codes h key n t tries = tries.map fun _ => .error .indexOutOfRange := by
  unfold codes
  apply List.map_congr_left
  intro k _
  exact code_of_long_big _ _ (hl _) hn

theorem outcome_map_error (uc : Int) (p : Panic) (tries : List Int) :
    outcome uc (tries.map fun _ => .error p) = if tries = [] then .ok false else .error p := by
  cases tries <;> simp [outcome]

/-- With digests of at least 19 bytes the outcome of the comparisons does not
depend on the order of the offsets. -/
theorem outcome_codes_perm (h : Hash) (key : List Byte) (n : Nat) (uc t : Int)
    (tries tries' : List Int) (hl : ∀ msg, 19 ≤ (keyedHash h key msg).length)
    (hp : tries.Perm tries') :
    outcome uc (codes h key n t tries) = outcome uc (codes h key n t tries') := by
  by_cases hn : n ≤ 9
  · rw [codes_of_long _ _ _ _ _ hl hn, codes_of_long _ _ _ _ _ hl hn,
      outcome_map_ok, outcome_map_ok]
    congr 1
    apply decide_eq_decide.mpr
    constructor
    · rintro ⟨k, hk, e⟩; exact ⟨k, hp.mem_iff.mp hk, e⟩
    · rintro ⟨k, hk, e⟩; exact ⟨k, hp.mem_iff.mpr hk, e⟩
  · rw [codes_of_long_big _ _ _ _ _ hl (by omega), codes_of_long_big _ _ _ _ _ hl (by omega),
      outcome_map_error, outcome_map_error]
    have : tries = [] ↔ tries' = [] := by
      constructor
      · intro e; subst e; exact hp.nil_eq.symm
      · intro e; subst e; exact hp.eq_nil
    simp only [this]

/-- A code that equals the candidate anywhere in a list of codes without a
panic makes the outcome true. -/
theorem outcome_of_mem (uc : Int) (f : Int → Int) (tries : List Int) (k : Int)
    (hk : k ∈ tries) (hm : f k = uc) :
    outcome uc (tries.map fun k => .ok (f k)) = .ok true := by
  rw [outcome_map_ok]
  simp only [Except.ok.injEq, decide_eq_true_eq]
  exact ⟨k, hk, hm⟩

/-- C10, as stated, fails for a hash with short digests: with HMAC-MD5 (the
secret of RFC 6238, clock 59, step 30 s, 6 digits) the candidate `532013` is
accepted with offsets `[0, 1]`, and with offsets `[1, 0]` the call panics: the
digest of counter 2 ends in `0x0e`, and a digest of 16 bytes has no byte
14 + 3. -/
theorem C10_counterexample :
    List.Perm [(0 : Int), 1] [1, 0] ∧
    (Authenticate (some NewOptions) 0 secret20 (bytes "532013")
      (some (fixedOptions 59 [0, 1] 6 md5.New))).result = .ok true ∧
    (Authenticate (some NewOptions) 0 secret20 (bytes "532013")
      (some (fixedOptions 59 [1, 0] 6 md5.New))).result = .error .indexOutOfRange := by
  refine ⟨List.Perm.swap 1 0 [], ?_, ?_⟩ <;> decide!

/-- C10 (amended): for every secret, candidate and configuration whose keyed
digests have at least 19 bytes, and every two offsets lists that are
permutations of each other, `Authenticate` has the same result; and if the
candidate matches the code of an offset anywhere in the list, the result is
true. The clock and the hash field of the options are arbitrary: the condition
on the digests bears on the hash that the field constructs. -/
theorem C10_order_independence (D : Option Options) (now : Int)
    (secretKey userCode : List Byte) (o : Options)
    (tries tries' : List Int)
    (hl : ∀ h, o.Hash = .new h → ∀ msg, 19 ≤ (keyedHash h secretKey msg).length)
    (hp : tries.Perm tries') :
    (Authenticate D now secretKey userCode (some { o with Tries := tries })).result
      = (Authenticate D now secretKey userCode (some { o with Tries := tries' })).result ∧
    ((∃ k ∈ tries, ∃ uc t clock h, o.Time = some clock ∧ o.Hash = .new h ∧
        userCode.length = o.Digits ∧ ParseInt userCode = .ok uc ∧
        baseCounter (clock now) o.TimeStep = .ok t ∧
        code (keyedHash h secretKey (bigEndian64 (t + k))) userCode.length = .ok uc) →
      (Authenticate D now secretKey userCode (some { o with Tries := tries })).result
        = .ok true) := by
  constructor
  · rw [Authenticate_steps, Authenticate_steps]
    simp only []
    split
    · rfl
    · split
      · rfl
      · split
        · rfl
        · split
          · rfl
          · cases hh : o.Hash with
            | nil => rfl
            | shared => rfl
            | new h => exact outcome_codes_perm _ _ _ _ _ _ _ (hl h hh) hp
  · rintro ⟨k, hk, uc, t, clock, h, hc, hh, hlen, huc, ht, hcode⟩
    rw [Authenticate_steps]
    simp only [hlen.symm, ne_eq, not_true_eq_false, if_false, huc, hc, ht, hh]
    obtain ⟨hn, hv⟩ := code_inv _ _ _ hcode
    rw [codes_of_long _ _ _ _ _ (hl h hh) hn]
    exact outcome_of_mem uc _ tries k hk hv.symm

/-- C10, witness: the first vector of RFC 6238 with the offsets `[-1, 1, 0]`
and `[0, -1, 1]`. -/
theorem C10_order_independence_witness :
    (Authenticate (some NewOptions) 0 secret20 (bytes "94287082")
        (some { fixedOptions 59 [] 8 sha1.New with Tries := [-1, 1, 0] })).result
      = (Authenticate (some NewOptions) 0 secret20 (bytes "94287082")
        (some { fixedOptions 59 [] 8 sha1.New with Tries := [0, -1, 1] })).result ∧
    (Authenticate (some NewOptions) 0 secret20 (bytes "94287082")
        (some { fixedOptions 59 [] 8 sha1.New with Tries := [-1, 1, 0] })).result
      = .ok true :=
  ⟨(C10_order_independence (some NewOptions) 0 secret20 (bytes "94287082")
      (fixedOptions 59 [] 8 sha1.New) [-1, 1, 0] [0, -1, 1]
      (fun h hh msg => by
        cases hh
        rw [keyedHash_sha1_length]; decide)
      (by decide)).1,
   (C10_order_independence (some NewOptions) 0 secret20 (bytes "94287082")
      (fixedOptions 59 [] 8 sha1.New) [-1, 1, 0] [0, -1, 1]
      (fun h hh msg => by
        cases hh
        rw [keyedHash_sha1_length]; decide)
      (by decide)).2
      ⟨0, by decide, 94287082, 1, fun _ => 59, sha1.New, rfl, rfl, by decide!, by decide!,
        by decide, by decide!⟩⟩

/-! ## C11: an empty offsets list -/

/-- C11, as stated, fails: with an empty offsets list (6 digits, SHA-1) the
candidate `123456` does not make `Authenticate` return false when the time
step is zero (the division of line 104 panics before the loop is reached),
when the clock is nil (the call of line 104 panics), or when the hash
constructor is nil or returns a shared instance (`hmac.New` panics at line
107). -/
theorem C11_counterexample :
    (Authenticate (some NewOptions) 0 secret20 (bytes "123456")
      (some { Time := some fun t => t, Tries := [], TimeStep := 0, Digits := 6,
              Hash := .new sha1.New })).result = .error .divideByZero ∧
    (Authenticate (some NewOptions) 0 secret20 (bytes "123456")
      (some { Time := none, Tries := [], TimeStep := 30 * Second, Digits := 6,
              Hash := .new sha1.New })).result = .error .nilDereference ∧
    (Authenticate (some NewOptions) 0 secret20 (bytes "123456")
      (some { Time := some fun t => t, Tries := [], TimeStep := 30 * Second, Digits := 6,
              Hash := .nil })).result = .error .nilDereference ∧
    (Authenticate (some NewOptions) 0 secret20 (bytes "123456")
      (some { Time := some fun t => t, Tries := [], TimeStep := 30 * Second, Digits := 6,
              Hash := .shared })).result = .error .hashNotUnique := by
  refine ⟨?_, ?_, ?_, ?_⟩ <;> decide!

/-- C11 (amended): for every secret, every candidate and every configuration
whose offsets list is empty, `Authenticate` never returns true; and it returns
false when the clock is set, the whole seconds of the time step are not zero
(a step of at least one second, or of at most minus one second), and the hash
constructor is set and returns a new hash at every call. -/
theorem C11_empty_offsets (D : Option Options) (now : Int) (secretKey userCode : List Byte)
    (o : Options) (he : o.Tries = []) :
    (Authenticate D now secretKey userCode (some o)).result ≠ .ok true ∧
    (o.Time ≠ none → Int.tdiv o.TimeStep Second ≠ 0 → (∃ h, o.Hash = .new h) →
      (Authenticate D now secretKey userCode (some o)).result = .ok false) := by
  rw [Authenticate_steps, he]
  constructor
  · split
    · intro h; cases h
    · split
      · intro h; cases h
      · split
        · intro h; cases h
        · split
          · intro h; cases h
          · split
            · intro h; cases h
            · intro h; cases h
            · intro h; simp [codes, outcome] at h
  · rintro hc hs ⟨h, hh⟩
    split
    · rfl
    · split
      · rfl
      · split
        · rename_i hn; exact absurd hn hc
        · rw [baseCounter_of_ne _ _ hs, hh]
          rfl

/-- C11, witness: the first vector of RFC 6238 with an empty offsets list and
a time step of minus 30 seconds. -/
theorem C11_empty_offsets_witness :
    (Authenticate (some NewOptions) 0 secret20 (bytes "94287082")
      (some { fixedOptions 59 [] 8 sha1.New with TimeStep := -30 * Second })).result
        ≠ .ok true ∧
    (Authenticate (some NewOptions) 0 secret20 (bytes "94287082")
      (some { fixedOptions 59 [] 8 sha1.New with TimeStep := -30 * Second })).result
        = .ok false :=
  ⟨(C11_empty_offsets (some NewOptions) 0 secret20 (bytes "94287082")
      { fixedOptions 59 [] 8 sha1.New with TimeStep := -30 * Second } rfl).1,
   (C11_empty_offsets (some NewOptions) 0 secret20 (bytes "94287082")
      { fixedOptions 59 [] 8 sha1.New with TimeStep := -30 * Second } rfl).2
     (by simp [fixedOptions]) (by decide) ⟨sha1.New, rfl⟩⟩

/-- The keyed hash is as long as the digests of its hash. -/
theorem keyedHash_length_ge (h : Hash) (key msg : List Byte) (L : Nat)
    (hL : ∀ m, L ≤ (h.sum m).length) : L ≤ (keyedHash h key msg).length := by
  unfold keyedHash HMAC.Sum
  rw [List.nil_append]
  exact hL _

theorem sha1_Sum_length_ge (m : List Byte) : 19 ≤ (sha1.New.sum m).length := by
  have h := sha1_Sum_length m
  change 19 ≤ (sha1.Sum m).length
  omega

/-! ## C12: numeric comparison and padded-string comparison -/

/-- C12, as stated, fails. For a digit count of 10 (first vector of RFC 6238,
offsets `[0]`) the candidate `1094287082` is the padded rendering of the
expected code, and `Authenticate` panics instead of returning true. For a
digit count of 0 the empty candidate is the rendering in 0 characters of the
expected code, which is 0, and `Authenticate` returns false, since the empty
string does not parse. And for a candidate of 6 digits the call returns no
boolean when the time step is zero, the digest has 16 bytes (MD5), the clock
is nil, or the hash constructor is nil or returns a shared instance: it
panics. -/
theorem C12_counterexample :
    (Authenticate (some NewOptions) 0 secret20 (bytes "1094287082")
      (some (fixedOptions 59 [0] 10 sha1.New))).result = .error .indexOutOfRange ∧
    ¬ ((Authenticate (some NewOptions) 0 secret20 (bytes "1094287082")
          (some (fixedOptions 59 [0] 10 sha1.New))).result = .ok true ↔
        ∃ k ∈ [(0 : Int)], bytes "1094287082" = zeroPadded 10
          (expectedCode sha1.New secret20 10
            (Int.tdiv 59 (Int.tdiv (30 * Second) Second) + k))) ∧
    ((Authenticate (some NewOptions) 0 secret20 []
        (some (fixedOptions 59 [0] 0 sha1.New))).result = .ok false ∧
      ∃ k ∈ [(0 : Int)], ([] : List Byte) = zeroPadded 0
        (expectedCode sha1.New secret20 0
          (Int.tdiv 59 (Int.tdiv (30 * Second) Second) + k))) ∧
    (Authenticate (some NewOptions) 0 secret20 (bytes "000000")
      (some { fixedOptions 59 [0] 6 sha1.New with TimeStep := 0 })).result
        = .error .divideByZero ∧
    (Authenticate (some NewOptions) 0 secret20 (bytes "000000")
      (some (fixedOptions 60 [0] 6 md5.New))).result = .error .indexOutOfRange ∧
    (Authenticate (some NewOptions) 0 secret20 (bytes "000000")
      (some { fixedOptions 59 [0] 6 sha1.New with Time := none })).result
        = .error .nilDereference ∧
    (Authenticate (some NewOptions) 0 secret20 (bytes "000000")
      (some { fixedOptions 59 [0] 6 sha1.New with Hash := .nil })).result
        = .error .nilDereference ∧
    (Authenticate (some NewOptions) 0 secret20 (bytes "000000")
      (some { fixedOptions 59 [0] 6 sha1.New with Hash := .shared })).result
        = .error .hashNotUnique := by
  have hl : (Authenticate (some NewOptions) 0 secret20 (bytes "1094287082")
      (some (fixedOptions 59 [0] 10 sha1.New))).result = .error .indexOutOfRange := by
    decide!
  refine ⟨hl, ?_, ⟨by decide!, 0, by simp, by simp [zeroPadded, expectedCode, Nat.mod_one]⟩,
    by decide!, by decide!, by decide!, by decide!, by decide!⟩
  intro h
  rw [hl] at h
  have hr : ∃ k ∈ [(0 : Int)], bytes "1094287082" = zeroPadded 10
      (expectedCode sha1.New secret20 10
        (Int.tdiv 59 (Int.tdiv (30 * Second) Second) + k)) := by
    refine ⟨0, by simp, ?_⟩
    have hv : expectedCode sha1.New secret20 10
        (Int.tdiv 59 (Int.tdiv (30 * Second) Second) + 0)
          = decimalValue (bytes "1094287082") := by decide!
    have hdig : isDigits (bytes "1094287082") := by decide!
    have hlen : (bytes "1094287082").length = 10 := by decide!
    have hz := zeroPadded_decimalValue _ hdig
    rw [hlen] at hz
    rw [hv, hz]
  cases h.2 hr

/-- C12 (amended): for every secret, every configuration with a clock that is
set, a hash constructor that is set and returns at every call a new hash with
digests of at least 19 bytes, a digit count `d` from 1 to 9 and a time step
whose whole seconds are not zero, and every candidate of exactly `d` decimal
digits, `Authenticate` returns a boolean, and it returns true if and only if
the candidate equals the decimal rendering, left-padded with zeros to `d`
characters, of the expected code for at least one tried offset. -/
theorem C12_padded_comparison (D : Option Options) (now : Int)
    (secretKey userCode : List Byte) (o : Options) (clock : Int → Int) (h : Hash)
    (hc : o.Time = some clock) (hh : o.Hash = .new h)
    (hd1 : 1 ≤ o.Digits) (hd : o.Digits ≤ 9) (hs : Int.tdiv o.TimeStep Second ≠ 0)
    (hl : ∀ m, 19 ≤ (h.sum m).length)
    (hlen : userCode.length = o.Digits) (hdig : isDigits userCode) :
    (∃ b, (Authenticate D now secretKey userCode (some o)).result = .ok b) ∧
    ((Authenticate D now secretKey userCode (some o)).result = .ok true ↔
      ∃ k ∈ o.Tries, userCode = zeroPadded o.Digits
        (expectedCode h secretKey o.Digits
          (Int.tdiv (clock now) (Int.tdiv o.TimeStep Second) + k))) := by
  have hne : userCode ≠ [] := by
    intro e; rw [e] at hlen; simp at hlen; omega
  obtain ⟨hp, _⟩ := ParseInt_digits userCode hdig hne (by omega)
  rw [Authenticate_result_safe D now secretKey userCode o clock h hc hh hd hs
    (fun msg => keyedHash_length_ge _ _ _ 19 hl)]
  rw [if_neg (by simp [hlen]), hp]
  simp only [hlen]
  refine ⟨⟨_, rfl⟩, ?_⟩
  simp only [Except.ok.injEq, decide_eq_true_eq]
  constructor
  · rintro ⟨k, hk, e⟩
    refine ⟨k, hk, ?_⟩
    have e2 := Int.ofNat_inj.mp e
    rw [e2, ← hlen]
    exact (zeroPadded_decimalValue userCode hdig).symm
  · rintro ⟨k, hk, e⟩
    refine ⟨k, hk, ?_⟩
    congr 1
    have hlt : expectedCode h secretKey o.Digits
        (Int.tdiv (clock now) (Int.tdiv o.TimeStep Second) + k) < 10 ^ o.Digits :=
      Nat.mod_lt _ (Nat.pos_pow_of_pos _ (by decide))
    have := decimalValue_zeroPadded o.Digits _ hlt
    rw [← e] at this
    exact this.symm

/-- C12, witness: the second SHA-1 vector of RFC 6238, whose code `07081804`
has a leading zero. -/
theorem C12_padded_comparison_witness :
    (∃ b, (Authenticate (some NewOptions) 0 secret20 (bytes "07081804")
      (some (fixedOptions 1111111109 [0] 8 sha1.New))).result = .ok b) ∧
    ((Authenticate (some NewOptions) 0 secret20 (bytes "07081804")
        (some (fixedOptions 1111111109 [0] 8 sha1.New))).result = .ok true ↔
      ∃ k ∈ [(0 : Int)], bytes "07081804" = zeroPadded 8
        (expectedCode sha1.New secret20 8
          (Int.tdiv 1111111109 (Int.tdiv (30 * Second) Second) + k))) :=
  C12_padded_comparison (some NewOptions) 0 secret20 (bytes "07081804")
    (fixedOptions 1111111109 [0] 8 sha1.New) (fun _ => 1111111109) sha1.New rfl rfl
    (by decide) (by decide) (by decide)
    sha1_Sum_length_ge (by decide!) (by decide!)

/-! ## C13: determinism within a window -/

/-- C13: for every secret, candidate, offsets list, time step, digit count and
hash, two calls of `Authenticate` whose clock readings give the same derived
counter (line 104, a panic on a zero divisor included) run alike: the same
events and the same result. The result depends on the clock only through the
derived counter. -/
theorem C13_determinism (D : Option Options) (now1 now2 : Int) (time1 time2 : Int → Int)
    (secretKey userCode : List Byte) (o : Options)
    (h : baseCounter (time1 now1) o.TimeStep = baseCounter (time2 now2) o.TimeStep) :
    Authenticate D now1 secretKey userCode (some { o with Time := some time1 })
      = Authenticate D now2 secretKey userCode (some { o with Time := some time2 }) := by
  unfold Authenticate orDefault
  simp only [h]

/-- C13, witness: the system clock at 31 and at 59 seconds, both in the window
of counter 1. -/
theorem C13_determinism_witness :
    baseCounter ((fun now => now) 31) (30 * Second)
      = baseCounter ((fun now => now) 59) (30 * Second) ∧
    Authenticate (some NewOptions) 31 secret20 (bytes "94287082")
        (some { fixedOptions 0 [0] 8 sha1.New with Time := some fun now => now })
      = Authenticate (some NewOptions) 59 secret20 (bytes "94287082")
        (some { fixedOptions 0 [0] 8 sha1.New with Time := some fun now => now }) :=
  ⟨by decide, C13_determinism (some NewOptions) 31 59 (fun now => now) (fun now => now)
    secret20 (bytes "94287082") (fixedOptions 0 [0] 8 sha1.New) (by decide)⟩

/-! ## C14: the default configuration -/

/-- C14, as stated, fails once a program has assigned to the package variable
`DefaultOptions`: while it holds options with 8 digits, `Authenticate` called
with nil accepts the 8-digit code of the first vector of RFC 6238 (system
clock at 59), and `Authenticate` called with the configuration of `NewOptions`
returns false for it; while it holds nil, `Authenticate` called with nil
panics. -/
theorem C14_counterexample :
    (Authenticate (some { NewOptions with Digits := 8 }) 59 secret20 (bytes "94287082")
      none).result = .ok true ∧
    (Authenticate (some { NewOptions with Digits := 8 }) 59 secret20 (bytes "94287082")
      (some NewOptions)).result = .ok false ∧
    (Authenticate none 59 secret20 (bytes "94287082") none).result
      = .error .nilDereference := by
  refine ⟨?_, ?_, ?_⟩ <;> decide!

/-- C14 (amended): the configuration that `NewOptions` returns has offsets
`[0, -1]`, a time step of 30 seconds, 6 digits, the hash constructor
`sha1.New` and the system time as its clock, and the package variable
`DefaultOptions` is initialised with it. `Authenticate` called with nil runs
exactly as `Authenticate` called with the configuration that the variable
holds at the call: the one of `NewOptions` as long as the variable has its
initial value; if the variable holds nil, the call panics. -/
theorem C14_default_options :
    NewOptions.Tries = [0, -1] ∧
    NewOptions.TimeStep = 30 * Second ∧ Int.tdiv NewOptions.TimeStep Second = 30 ∧
    NewOptions.Digits = 6 ∧
    NewOptions.Hash = .new sha1.New ∧
    (∃ clock, NewOptions.Time = some clock ∧ ∀ now, clock now = now) ∧
    initialDefaultOptions = some NewOptions ∧
    (∀ (D : Option Options) (d : Options) (now : Int) (secretKey userCode : List Byte),
      D = some d →
      Authenticate D now secretKey userCode none
        = Authenticate D now secretKey userCode (some d)) ∧
    (∀ (now : Int) (secretKey userCode : List Byte),
      Authenticate initialDefaultOptions now secretKey userCode none
        = Authenticate initialDefaultOptions now secretKey userCode (some NewOptions)) ∧
    (∀ (now : Int) (secretKey userCode : List Byte),
      (Authenticate none now secretKey userCode none).result = .error .nilDereference) :=
  ⟨rfl, rfl, by decide, rfl, rfl, ⟨_, rfl, fun _ => rfl⟩, rfl,
    fun D d _ _ _ e => by subst e; rfl, fun _ _ _ => rfl, fun _ _ _ => rfl⟩

/-- C14, witness: the package variable holds options with 8 digits. -/
theorem C14_default_options_witness :
    Authenticate (some { NewOptions with Digits := 8 }) 59 secret20 (bytes "94287082") none
      = Authenticate (some { NewOptions with Digits := 8 }) 59 secret20 (bytes "94287082")
          (some { NewOptions with Digits := 8 }) :=
  C14_default_options.2.2.2.2.2.2.2.1 (some { NewOptions with Digits := 8 })
    { NewOptions with Digits := 8 } 59 secret20 (bytes "94287082") rfl

/-! ## C19: the bytes of the counter -/

theorem weightedSum_eq (b0 b1 b2 b3 b4 b5 b6 b7 : Byte) :
    weightedSum [b0, b1, b2, b3, b4, b5, b6, b7]
      = b0.val * 256 ^ 7 + b1.val * 256 ^ 6 + b2.val * 256 ^ 5 + b3.val * 256 ^ 4
        + b4.val * 256 ^ 3 + b5.val * 256 ^ 2 + b6.val * 256 + b7.val := by
  simp [weightedSum, List.range, List.range.loop]
  ring

theorem tbuf_eq_bigEndian64 (x : Int) : tbuf x = bigEndian64 x := by
  simp only [tbuf, bigEndian64, byte, Int.shiftRight_eq_div_pow]
  simp only [List.range, List.range.loop, List.map]
  simp only [Fin.ofNat]
  simp only [List.cons.injEq, Fin.mk.injEq, and_true]
  refine ⟨?_, ?_, ?_, ?_, ?_, ?_, ?_, ?_⟩ <;> norm_num <;> omega

theorem digits256 (n : Nat) (h : n < 2 ^ 64) :
    n / 256 ^ 7 % 256 * 256 ^ 7 + n / 256 ^ 6 % 256 * 256 ^ 6 + n / 256 ^ 5 % 256 * 256 ^ 5
      + n / 256 ^ 4 % 256 * 256 ^ 4 + n / 256 ^ 3 % 256 * 256 ^ 3
      + n / 256 ^ 2 % 256 * 256 ^ 2 + n / 256 % 256 * 256 + n % 256 = n := by
  have e (k : Nat) : n / 256 ^ (k + 1) = n / 256 ^ k / 256 := by
    rw [Nat.pow_succ, Nat.div_div_eq_div_mul]
  rw [e 6, e 5, e 4, e 3, e 2, e 1, e 0, Nat.pow_zero, Nat.div_one]
  have h8 : n / 256 / 256 / 256 / 256 / 256 / 256 / 256 / 256 = 0 := by
    simp only [Nat.div_div_eq_div_mul]
    exact Nat.div_eq_of_lt h
  have d0 := Nat.div_add_mod n 256
  have d1 := Nat.div_add_mod (n / 256) 256
  have d2 := Nat.div_add_mod (n / 256 / 256) 256
  have d3 := Nat.div_add_mod (n / 256 / 256 / 256) 256
  have d4 := Nat.div_add_mod (n / 256 / 256 / 256 / 256) 256
  have d5 := Nat.div_add_mod (n / 256 / 256 / 256 / 256 / 256) 256
  have d6 := Nat.div_add_mod (n / 256 / 256 / 256 / 256 / 256 / 256) 256
  have d7 := Nat.div_add_mod (n / 256 / 256 / 256 / 256 / 256 / 256 / 256) 256
  rw [h8] at d7
  generalize n / 256 / 256 / 256 / 256 / 256 / 256 / 256 % 256 = r7 at *
  generalize n / 256 / 256 / 256 / 256 / 256 / 256 / 256 = q7 at *
  generalize n / 256 / 256 / 256 / 256 / 256 / 256 % 256 = r6 at *
  generalize n / 256 / 256 / 256 / 256 / 256 / 256 = q6 at *
  generalize n / 256 / 256 / 256 / 256 / 256 % 256 = r5 at *
  generalize n / 256 / 256 / 256 / 256 / 256 = q5 at *
  generalize n / 256 / 256 / 256 / 256 % 256 = r4 at *
  generalize n / 256 / 256 / 256 / 256 = q4 at *
  generalize n / 256 / 256 / 256 % 256 = r3 at *
  generalize n / 256 / 256 / 256 = q3 at *
  generalize n / 256 / 256 % 256 = r2 at *
  generalize n / 256 / 256 = q2 at *
  generalize n / 256 % 256 = r1 at *
  generalize n / 256 = q1 at *
  generalize n % 256 = r0 at *
  omega

theorem weightedSum_tbuf (b : Int) : (weightedSum (tbuf b) : Int) = b % 2 ^ 64 := by
  rw [tbuf_eq_bigEndian64]
  simp only [bigEndian64, List.range, List.range.loop, List.map]
  rw [weightedSum_eq]
  have hn : (b % 2 ^ 64).toNat < 2 ^ 64 := by omega
  have hb : ((b % 2 ^ 64).toNat : Int) = b % 2 ^ 64 := by omega
  generalize (b % 2 ^ 64).toNat = n at *
  rw [← hb]
  congr 1
  simp only [Fin.ofNat, Nat.sub_self, Nat.pow_zero, Nat.div_one]
  exact digits256 n hn

/-- The events of a run of `Authenticate`: the clock, the hash, and one
digest for each offset tried, over the eight bytes of the counter. -/
theorem Authenticate_events (D : Option Options) (now : Int) (secretKey userCode : List Byte)
    (o : Options) (written : List Byte)
    (h : Event.Sum written ∈ (Authenticate D now secretKey userCode (some o)).events) :
    ∃ clock t, o.Time = some clock ∧ baseCounter (clock now) o.TimeStep = .ok t ∧
      ∃ k ∈ o.Tries, written = tbuf (wrap64 (t + k)) := by
  unfold Authenticate orDefault at h
  simp only [] at h
  split at h
  · simp at h
  · split at h
    · simp at h
    · split at h
      · simp at h
      · rename_i clock hclock
        simp only [Run.after_events, List.mem_cons] at h
        rcases h with h | h
        · cases h
        · split at h
          · simp at h
          · rename_i t ht
            simp only [Run.after_events, List.mem_cons] at h
            rcases h with h | h
            · cases h
            · split at h
              · simp at h
              · obtain ⟨k, hk, e⟩ := loop_events _ _ _ _ _ _ _ h
                refine ⟨clock, t, hclock, ht, k, hk, ?_⟩
                rw [tbuf_wrap64]
                exact Event.Sum.inj e

/-- C19: the 8 bytes that `Authenticate` feeds to the keyed hash for an offset
`k` are the bytes `tbuf b` of the 64-bit counter `b = t + k` (wrapped to
`int64`), and for every integer `b` the sum over `i` in `0..7` of
`byte[i] * 256^(7-i)` of these bytes is `b mod 2^64`: the big-endian
two's-complement encoding, most significant byte first. -/
theorem C19_counter_bytes :
    (∀ b : Int, (tbuf b).length = 8 ∧ (weightedSum (tbuf b) : Int) = b % 2 ^ 64) ∧
    ∀ (D : Option Options) (now : Int) (secretKey userCode : List Byte) (o : Options)
      (written : List Byte),
      Event.Sum written ∈ (Authenticate D now secretKey userCode (some o)).events →
      ∃ clock t, o.Time = some clock ∧ baseCounter (clock now) o.TimeStep = .ok t ∧
        ∃ k ∈ o.Tries, written = tbuf (wrap64 (t + k)) ∧ isInt64 (wrap64 (t + k)) ∧
          (weightedSum written : Int) = (t + k) % 2 ^ 64 := by
  refine ⟨fun b => ⟨rfl, weightedSum_tbuf b⟩, ?_⟩
  intro D now secretKey userCode o written h
  obtain ⟨clock, t, hclock, ht, k, hk, e⟩ :=
    Authenticate_events D now secretKey userCode o written h
  refine ⟨clock, t, hclock, ht, k, hk, e, ?_, ?_⟩
  · unfold isInt64 wrap64; omega
  · rw [e, weightedSum_tbuf]
    unfold wrap64; omega

/-- C19, witness: 30 seconds before the epoch the counter is -1, and the
bytes written are eight times `0xff`. -/
theorem C19_counter_bytes_witness :
    Event.Sum [255, 255, 255, 255, 255, 255, 255, 255] ∈
      (Authenticate (some NewOptions) 0 secret20 (bytes "94287082")
        (some (fixedOptions (-30) [0] 8 sha1.New))).events ∧
    ∃ clock t, (fixedOptions (-30) [0] 8 sha1.New).Time = some clock ∧
      baseCounter (clock 0) (fixedOptions (-30) [0] 8 sha1.New).TimeStep = .ok t ∧
      ∃ k ∈ (fixedOptions (-30) [0] 8 sha1.New).Tries,
        [255, 255, 255, 255, 255, 255, 255, 255] = tbuf (wrap64 (t + k)) ∧
        isInt64 (wrap64 (t + k)) ∧
        (weightedSum [255, 255, 255, 255, 255, 255, 255, 255] : Int) = (t + k) % 2 ^ 64 :=
  ⟨by decide!, C19_counter_bytes.2 (some NewOptions) 0 secret20 (bytes "94287082")
    (fixedOptions (-30) [0] 8 sha1.New) _ (by decide!)⟩

/-! ## C20: the safe envelope of `Authenticate` -/

/-- C20, as stated, fails: with 8 digits, a time step of 30 seconds and SHA-1,
whose digests have 20 bytes, the call returns no boolean when the hash
constructor returns a shared instance or is nil (`hmac.New` panics at line
107) or when the clock is nil (the call of line 104 panics). -/
theorem C20_counterexample :
    (Authenticate (some NewOptions) 0 secret20 (bytes "94287082")
      (some { fixedOptions 59 [0, -1] 8 sha1.New with Hash := .shared })).result
        = .error .hashNotUnique ∧
    (Authenticate (some NewOptions) 0 secret20 (bytes "94287082")
      (some { fixedOptions 59 [0, -1] 8 sha1.New with Hash := .nil })).result
        = .error .nilDereference ∧
    (Authenticate (some NewOptions) 0 secret20 (bytes "94287082")
      (some { fixedOptions 59 [0, -1] 8 sha1.New with Time := none })).result
        = .error .nilDereference := by
  refine ⟨?_, ?_, ?_⟩ <;> decide!

/-- C20 (amended): for every configuration with a clock that is set, a digit
count of at most 9, a time step of at least one second and a hash constructor
that is set and returns at every call a new hash whose digests are at least 19
bytes long, and for every secret, candidate, clock reading and offsets list:
the divisor of line 104 is not zero; in every digest the last byte and the
four bytes at `o..o+3`, for `o` the low 4 bits of the last byte, are in range;
the entry of `digit_power` at the candidate's length is in range and not zero
once the length check has passed; the code of every counter is computed
without a panic; and the call returns a boolean. -/
theorem C20_safe_envelope (D : Option Options) (now : Int) (secretKey userCode : List Byte)
    (o : Options) (clock : Int → Int) (h : Hash)
    (hc : o.Time = some clock) (hh : o.Hash = .new h)
    (hd : o.Digits ≤ 9) (hs : Second ≤ o.TimeStep)
    (hl : ∀ m, 19 ≤ (h.sum m).length) :
    Int.tdiv o.TimeStep Second ≠ 0 ∧
    (∃ t, baseCounter (clock now) o.TimeStep = .ok t) ∧
    (∃ hm, hmac.New o.Hash secretKey = .ok hm) ∧
    (∀ msg, ∃ last, index (keyedHash h secretKey msg)
        ((keyedHash h secretKey msg).length - 1) = .ok last ∧
      (last.val &&& 0xf) + 3 < (keyedHash h secretKey msg).length ∧
      ∀ j < 4, ∃ x, index ((keyedHash h secretKey msg).drop (last.val &&& 0xf)) j
        = .ok x) ∧
    (o.Digits = userCode.length →
      (∃ p, index digit_power userCode.length = .ok p ∧ p ≠ 0) ∧
      ∀ msg, ∃ c, code (keyedHash h secretKey msg) userCode.length = .ok c) ∧
    ∃ b, (Authenticate D now secretKey userCode (some o)).result = .ok b := by
  have hk : ∀ msg, 19 ≤ (keyedHash h secretKey msg).length :=
    fun msg => keyedHash_length_ge _ _ _ 19 hl
  refine ⟨tdiv_Second_ne _ hs, ⟨_, baseCounter_of_step _ _ hs⟩, ⟨_, by rw [hh]; rfl⟩,
    ?_, ?_, ?_⟩
  · intro msg
    have h19 := hk msg
    generalize keyedHash h secretKey msg = hashbuf at h19
    refine ⟨hashbuf[hashbuf.length - 1], index_of_lt _ _ (by omega), ?_, ?_⟩
    · rw [and_0xf]; omega
    · intro j hj
      have hlen : j < (hashbuf.drop (hashbuf[hashbuf.length - 1].val &&& 0xf)).length := by
        rw [List.length_drop, and_0xf]; omega
      exact ⟨_, index_of_lt _ _ hlen⟩
  · intro hlen
    have hn : userCode.length ≤ 9 := by omega
    refine ⟨⟨_, index_digit_power _ hn, ?_⟩, fun msg => ⟨_, code_of_long _ _ (hk msg) hn⟩⟩
    exact_mod_cast (Nat.pos_pow_of_pos _ (by decide)).ne'
  · rw [Authenticate_result_safe D now secretKey userCode o clock h hc hh hd
      (tdiv_Second_ne _ hs) hk]
    split
    · exact ⟨_, rfl⟩
    · split
      · exact ⟨_, rfl⟩
      · exact ⟨_, rfl⟩

/-- C20, witness: the first SHA-1 vector of RFC 6238 under the default
offsets. -/
theorem C20_safe_envelope_witness :
    Int.tdiv (fixedOptions 59 [0, -1] 8 sha1.New).TimeStep Second ≠ 0 ∧
    ∃ b, (Authenticate (some NewOptions) 0 secret20 (bytes "94287082")
      (some (fixedOptions 59 [0, -1] 8 sha1.New))).result = .ok b :=
  ⟨(C20_safe_envelope (some NewOptions) 0 secret20 (bytes "94287082")
      (fixedOptions 59 [0, -1] 8 sha1.New) (fun _ => 59) sha1.New rfl rfl
      (by decide) (by decide) sha1_Sum_length_ge).1,
   (C20_safe_envelope (some NewOptions) 0 secret20 (bytes "94287082")
      (fixedOptions 59 [0, -1] 8 sha1.New) (fun _ => 59) sha1.New rfl rfl
      (by decide) (by decide) sha1_Sum_length_ge).2.2.2.2.2⟩

/-! ## C17: the result of the image encoder -/

/-- The options in force make `BarcodeImage` hand the string of their URL to
the encoder and return what the encoder gives. -/
theorem BarcodeImage_eq {ε κ : Type} (D : Option Options) (qr : QR ε κ)
    (label secretkey : List Byte) (opt : Option Options) (o : Options)
    (ho : orDefault D opt = some o) :
    BarcodeImage D qr label secretkey opt
      = .ok (match qr.Encode (provisioningURL label secretkey o).String with
        | .error err => .error err
        | .ok c => .ok (qr.PNG c)) := by
  unfold BarcodeImage
  rw [ho]
  simp only []
  split <;> rfl

/-- C17: for every label, secret and configuration (the one given, or the one
that the package variable `DefaultOptions` holds when nil is given), and every
image encoder: if the encoder fails with the error `e` on the URI that
`BarcodeImage` built, then `BarcodeImage` returns no image and exactly `e`; if
the encoder succeeds with a code `c`, then `BarcodeImage` returns the PNG
bytes of `c` and no error. -/
theorem C17_encoder_result {ε κ : Type} (D : Option Options) (qr : QR ε κ)
    (label secretkey : List Byte) (opt : Option Options) (o : Options)
    (ho : orDefault D opt = some o) :
    (∀ e, qr.Encode (provisioningURL label secretkey o).String = .error e →
      BarcodeImage D qr label secretkey opt = .ok (.error e)) ∧
    (∀ c, qr.Encode (provisioningURL label secretkey o).String = .ok c →
      BarcodeImage D qr label secretkey opt = .ok (.ok (qr.PNG c))) := by
  rw [BarcodeImage_eq D qr label secretkey opt o ho]
  constructor
  · intro e h
    rw [h]
  · intro c h
    rw [h]

/-- C17, witness: the call of `TestPrint` with an encoder that fails with the
error 7, and with an encoder that succeeds and whose PNG is 1, 2, 3. -/
theorem C17_encoder_result_witness :
    BarcodeImage (ε := Nat) (κ := Unit) (some NewOptions)
      { Encode := fun _ => .error 7, PNG := fun _ => [] }
      (bytes "foo@bar.com") (bytes "hello") none = .ok (.error 7) ∧
    BarcodeImage (ε := Nat) (κ := Unit) (some NewOptions)
      { Encode := fun _ => .ok (), PNG := fun _ => [1, 2, 3] }
      (bytes "foo@bar.com") (bytes "hello") none = .ok (.ok [1, 2, 3]) :=
  ⟨(C17_encoder_result (some NewOptions) _ (bytes "foo@bar.com") (bytes "hello") none
      NewOptions rfl).1 7 rfl,
   (C17_encoder_result (some NewOptions) _ (bytes "foo@bar.com") (bytes "hello") none
      NewOptions rfl).2 () rfl⟩

/-! ## Lemmas on escaping -/

theorem upperhex_mod (n : Nat) : url.upperhex n = url.upperhex (n % 16) := by
  unfold url.upperhex
  rw [Nat.mod_mod]

/-- A property of the sixteen hexadecimal digits holds of every `upperhex n`. -/
theorem upperhex_all (P : Byte → Prop) (h : ∀ k : Fin 16, P (url.upperhex k.val)) (n : Nat) :
    P (url.upperhex n) := by
  rw [upperhex_mod]
  exact h ⟨n % 16, Nat.mod_lt _ (by decide)⟩

/-- A property of `%`, of `+` in a query component, of the hexadecimal digits
and of the bytes that are not escaped holds of every byte of an escaped
string. -/
theorem escape_all (P : Byte → Prop) (mode : url.encoding) (h37 : P 37)
    (h43 : mode = .encodeQueryComponent → P 43)
    (hhex : ∀ k : Fin 16, P (url.upperhex k.val))
    (hsafe : ∀ c, url.shouldEscape c mode = false → P c) (s : List Byte) :
    ∀ c ∈ url.escape s mode, P c := by
  induction s with
  | nil => intro c hc; simp [url.escape] at hc
  | cons x xs ih =>
    intro c hc
    unfold url.escape at hc
    split at hc
    · rename_i hx
      rcases List.mem_cons.mp hc with e | e
      · rw [e]; exact h43 hx.2
      · exact ih c e
    · split at hc
      · simp only [List.mem_cons] at hc
        rcases hc with e | e | e | e
        · rw [e]; exact h37
        · rw [e]; exact upperhex_all P hhex _
        · rw [e]; exact upperhex_all P hhex _
        · exact ih c e
      · rename_i hx
        rcases List.mem_cons.mp hc with e | e
        · rw [e]; exact hsafe x (by simpa using hx)
        · exact ih c e

theorem escape_append (a b : List Byte) (mode : url.encoding) :
    url.escape (a ++ b) mode = url.escape a mode ++ url.escape b mode := by
  induction a with
  | nil => rfl
  | cons x xs ih =>
    rw [List.cons_append, url.escape, url.escape, ih]
    split
    · rfl
    · split <;> rfl

/-- A space is escaped in every part of a URL. -/
theorem shouldEscape_space (mode : url.encoding) (c : Byte) (h : c.val = 32) :
    url.shouldEscape c mode = true := by
  cases mode <;> revert c <;> decide!

/-- A string of bytes that are not escaped is its own escaped form. -/
theorem escape_of_safe (s : List Byte) (mode : url.encoding)
    (h : ∀ c ∈ s, url.shouldEscape c mode = false) : url.escape s mode = s := by
  induction s with
  | nil => rfl
  | cons x xs ih =>
    have hx := h x (by simp)
    have hxs := ih fun c hc => h c (by simp [hc])
    unfold url.escape
    rw [if_neg, if_neg, hxs]
    · simp [hx]
    · intro ⟨e, _⟩
      rw [shouldEscape_space mode x e] at hx
      cases hx

theorem unhex_upperhex (n : Nat) : url.unhex (url.upperhex n) = some (n % 16) := by
  have h : ∀ k : Fin 16, url.unhex (url.upperhex k.val) = some k.val := by decide!
  rw [upperhex_mod]
  exact h ⟨n % 16, Nat.mod_lt _ (by decide)⟩

/-- The bytes that are kept as they are: in a path and in a query component
none of them is `%`, and in a query component none is `+`. -/
theorem shouldEscape_kept (mode : url.encoding) (c : Byte)
    (h : url.shouldEscape c mode = false) :
    c.val ≠ 37 ∧ (mode = .encodeQueryComponent → c.val ≠ 43) := by
  have h37 : url.shouldEscape 37 mode = true := by cases mode <;> decide!
  have h43 : url.shouldEscape 43 .encodeQueryComponent = true := by decide!
  constructor
  · intro e
    rw [show c = 37 from Fin.ext e, h37] at h
    cases h
  · intro m e
    rw [show c = 43 from Fin.ext e, m, h43] at h
    cases h

/-- Unescaping undoes escaping, in every part of a URL. -/
theorem unescape_escape (s : List Byte) (mode : url.encoding) :
    url.unescape (url.escape s mode) mode = some s := by
  induction s with
  | nil => rfl
  | cons x xs ih =>
    unfold url.escape
    split
    · rename_i hx
      unfold url.unescape
      rw [if_neg (by decide), ih]
      simp only [hx.2, and_self, if_true]
      congr 2
      exact Fin.ext hx.1.symm
    · split
      · unfold url.unescape
        rw [if_pos (by decide)]
        simp only [unhex_upperhex, ih]
        congr 2
        apply Fin.ext
        simp only [Fin.ofNat, Nat.mod_mod]
        have := x.isLt
        omega
      · rename_i hx1 hx
        have hk := shouldEscape_kept mode x (by simpa using hx)
        unfold url.unescape
        rw [if_neg hk.1, ih]
        simp only []
        congr 2
        rw [if_neg]
        intro ⟨e, m⟩
        exact hk.2 m e

/-! ## Lemmas on `strings.Cut`, `strings.Split` and `strconv.Itoa` -/

theorem cut_append (sep : Byte) (a b : List Byte) (h : sep ∉ a) :
    url.cut sep (a ++ sep :: b) = (a, some b) := by
  induction a with
  | nil => simp [url.cut]
  | cons x xs ih =>
    have hx : x ≠ sep := fun e => h (by simp [e])
    have hxs : sep ∉ xs := fun e => h (by simp [e])
    rw [List.cons_append, url.cut, if_neg hx, ih hxs]

theorem cut_of_not_mem (sep : Byte) (a : List Byte) (h : sep ∉ a) :
    url.cut sep a = (a, none) := by
  induction a with
  | nil => rfl
  | cons x xs ih =>
    have hx : x ≠ sep := fun e => h (by simp [e])
    have hxs : sep ∉ xs := fun e => h (by simp [e])
    rw [url.cut, if_neg hx, ih hxs]

theorem split_of_not_mem (sep : Byte) (a : List Byte) (h : sep ∉ a) :
    url.split sep a = [a] := by
  induction a with
  | nil => rfl
  | cons x xs ih =>
    have hx : x ≠ sep := fun e => h (by simp [e])
    have hxs : sep ∉ xs := fun e => h (by simp [e])
    rw [url.split, if_neg hx, ih hxs]

theorem split_append (sep : Byte) (a b : List Byte) (h : sep ∉ a) :
    url.split sep (a ++ sep :: b) = a :: url.split sep b := by
  induction a with
  | nil => simp [url.split]
  | cons x xs ih =>
    have hx : x ≠ sep := fun e => h (by simp [e])
    have hxs : sep ∉ xs := fun e => h (by simp [e])
    rw [List.cons_append, url.split, if_neg hx, ih hxs]

theorem digitByte_val (n : Nat) (h : n < 10) : (digitByte n).val = 48 + n := by
  simp only [digitByte, Fin.ofNat]
  omega

/-- The loop of `strconv.FormatInt` writes, in front of what it was given, a
string of digits that is not empty, denotes the number, and has at most `k`
digits for a number below `10^k`. -/
theorem formatDecimal_spec (fuel : Nat) :
    ∀ (n : Nat) (acc : List Byte), n < fuel →
      ∃ ds, formatDecimal fuel n acc = ds ++ acc ∧ isDigits ds ∧ ds ≠ [] ∧
        decimalValue ds = n ∧ ∀ k, 1 ≤ k → n < 10 ^ k → ds.length ≤ k := by
  induction fuel with
  | zero => intro n acc h; omega
  | succ fuel ih =>
    intro n acc hn
    unfold formatDecimal
    split
    · rename_i h10
      refine ⟨[digitByte n], rfl, ?_, by simp, ?_, ?_⟩
      · intro c hc
        rw [List.mem_singleton.mp hc, digitByte_val n h10]
        omega
      · simp [decimalValue, digitByte_val n h10]
      · intro k hk _
        simpa using hk
    · rename_i h10
      obtain ⟨ds, e, hd, _, hv, hlen⟩ :=
        ih (n / 10) (digitByte (n % 10) :: acc) (by omega)
      have hm : n % 10 < 10 := Nat.mod_lt _ (by decide)
      refine ⟨ds ++ [digitByte (n % 10)], by rw [e]; simp, ?_, by simp, ?_, ?_⟩
      · intro c hc
        rcases List.mem_append.mp hc with hc | hc
        · exact hd c hc
        · rw [List.mem_singleton.mp hc, digitByte_val _ hm]
          omega
      · rw [decimalValue_append_singleton, hv, digitByte_val _ hm]
        omega
      · intro k hk hlt
        have hk2 : 2 ≤ k := by
          rcases Nat.lt_or_ge k 2 with h | h
          · have : k = 1 := by omega
            subst this
            omega
          · exact h
        have hlt2 : n / 10 < 10 ^ (k - 1) := by
          have e10 : 10 ^ k = 10 ^ (k - 1) * 10 := by
            rw [← Nat.pow_succ]
            congr 1
            omega
          rw [e10] at hlt
          exact Nat.div_lt_of_lt_mul (by rw [Nat.mul_comm]; exact hlt)
        have := hlen (k - 1) (by omega) hlt2
        rw [List.length_append, List.length_singleton]
        omega

/-- A string of 1 to 18 decimal digits after a minus sign parses as the
negative of the number it denotes. -/
theorem ParseInt_neg_digits (s : List Byte) (hd : isDigits s) (hne : s ≠ [])
    (hl : s.length ≤ 18) : ParseInt (45 :: s) = .ok (-(decimalValue s : Int)) := by
  obtain ⟨h1, h2⟩ := parseUintLoop_digits s 0 0 hd (by decide) (by omega)
  rw [Nat.zero_add] at h2
  have hpow : 10 ^ s.length ≤ 10 ^ 18 := Nat.pow_le_pow_right (by decide) hl
  have hlt : decimalValue s < 2 ^ 63 :=
    Nat.lt_of_lt_of_le (Nat.lt_of_lt_of_le h2 hpow) (by norm_num)
  change parseUintLoop s 0 = .ok (decimalValue s) at h1
  generalize decimalValue s = v at h1 hlt
  cases s with
  | nil => exact absurd rfl hne
  | cons c cs =>
    unfold ParseInt
    have hv : ¬ v > 2 ^ 63 := by omega
    have e45 : ((45 : Byte).val = 45) = True := eq_true rfl
    simp only [e45, or_true, if_true, ParseUint_cons, h1, not_true_eq_false, false_and,
      if_false, true_and, hv]

/-- Go's `strconv.ParseInt` reads back what `strconv.Itoa` wrote, for a
number of at most 18 digits. -/
theorem ParseInt_Itoa (i : Int) (h : i.natAbs < 10 ^ 18) : ParseInt (Itoa i) = .ok i := by
  obtain ⟨ds, e, hd, hne, hv, hlen⟩ :=
    formatDecimal_spec (i.natAbs + 1) i.natAbs [] (by omega)
  rw [List.append_nil] at e
  have hl : ds.length ≤ 18 := hlen 18 (by decide) h
  unfold Itoa
  split
  · rw [e, ParseInt_neg_digits ds hd hne hl, hv]
    congr 1
    omega
  · rw [e, (ParseInt_digits ds hd hne hl).1, hv]
    congr 1
    omega

/-- The bytes of `strconv.Itoa` are digits and the minus sign. -/
theorem Itoa_bytes (i : Int) : ∀ c ∈ Itoa i, c.val = 45 ∨ (48 ≤ c.val ∧ c.val ≤ 57) := by
  obtain ⟨ds, e, hd, _, _, _⟩ := formatDecimal_spec (i.natAbs + 1) i.natAbs [] (by omega)
  rw [List.append_nil] at e
  unfold Itoa
  rw [e]
  intro c hc
  split at hc
  · rcases List.mem_cons.mp hc with h | h
    · left; rw [h]; rfl
    · right; exact hd c h
  · right; exact hd c hc

/-! ## Lemmas on base32 -/

theorem base32_char_mod (v : Nat) : base32.char v = base32.char (v % 32) := by
  unfold base32.char
  rw [Nat.mod_mod]

theorem base32_char_ne_pad (v : Nat) : base32.char v ≠ base32.StdPadding := by
  have h : ∀ k : Fin 32, base32.char k.val ≠ base32.StdPadding := by decide!
  rw [base32_char_mod]
  exact h ⟨v % 32, Nat.mod_lt _ (by decide)⟩

theorem base32_value_char (v : Nat) (hv : v < 32) : base32.value (base32.char v) = some v := by
  have h : ∀ k : Fin 32, base32.value (base32.char k.val) = some k.val := by decide!
  exact h ⟨v, hv⟩

theorem base32_mapM_value (vs : List Nat) (h : ∀ v ∈ vs, v < 32) :
    (vs.map base32.char).mapM base32.value = some vs := by
  induction vs with
  | nil => rfl
  | cons v vs ih =>
    have hv := h v (by simp)
    have hvs := ih fun x hx => h x (by simp [hx])
    simp only [List.map_cons, List.mapM_cons, base32_value_char v hv, hvs]
    rfl

theorem base32_takeWhile (vs : List Nat) (n : Nat) :
    (vs.map base32.char ++ List.replicate n base32.StdPadding).takeWhile
      (fun c => c ≠ base32.StdPadding) = vs.map base32.char := by
  induction vs with
  | nil => cases n <;> simp [List.replicate, List.takeWhile]
  | cons v vs ih =>
    rw [List.map_cons, List.cons_append, List.takeWhile_cons,
      decide_eq_true (base32_char_ne_pad v), ih]
    rfl

/-- One group read back: `k` characters of the alphabet, then padding. -/
theorem base32_decodeGroup (vs : List Nat) (n : Nat) (last : Bool)
    (h : ∀ v ∈ vs, v < 32)
    (hn : base32.groupBytes vs.length = some n) (hlast : n = 5 ∨ last = true) :
    base32.decodeGroup
        (vs.map base32.char ++ List.replicate (8 - vs.length) base32.StdPadding) last
      = some ((base32.octets (vs ++ List.replicate (8 - vs.length) 0)).take n) := by
  unfold base32.decodeGroup
  simp only [base32_takeWhile, List.length_map]
  rw [if_neg]
  · simp only [hn]
    rw [if_neg, base32_mapM_value vs h]
    · rfl
    · rintro ⟨h1, h2⟩
      rcases hlast with e | e
      · omega
      · rw [e] at h2; cases h2
  · intro hne
    apply hne
    have : (vs.map base32.char).length = vs.length := List.length_map _ _
    rw [← this, List.drop_left]

theorem base32_DecodeString_group (g rest : List Byte) (hg : g.length = 8) :
    base32.DecodeString (g ++ rest) =
      match base32.decodeGroup g rest.isEmpty, base32.DecodeString rest with
      | some x, some r => some (x ++ r)
      | _, _ => none := by
  match g, hg with
  | [c0, c1, c2, c3, c4, c5, c6, c7], _ => rfl

theorem base32_quintets_lt (b0 b1 b2 b3 b4 : Byte) :
    ∀ v ∈ base32.quintets b0 b1 b2 b3 b4, v < 32 := by
  intro v hv
  have h0 := b0.isLt
  have h1 := b1.isLt
  have h2 := b2.isLt
  have h3 := b3.isLt
  have h4 := b4.isLt
  simp only [base32.quintets, List.mem_cons, List.mem_singleton, List.not_mem_nil, or_false]
    at hv
  rcases hv with e | e | e | e | e | e | e | e <;> omega

theorem base32_octets_quintets (b0 b1 b2 b3 b4 : Byte) :
    base32.octets (base32.quintets b0 b1 b2 b3 b4) = [b0, b1, b2, b3, b4] := by
  have h0 := b0.isLt
  have h1 := b1.isLt
  have h2 := b2.isLt
  have h3 := b3.isLt
  have h4 := b4.isLt
  simp only [base32.quintets, base32.octets, List.cons.injEq, and_true]
  refine ⟨?_, ?_, ?_, ?_, ?_⟩ <;> apply Fin.ext <;> simp only [Fin.ofNat] <;> omega

/-- The bytes of a last group of `k` values that came from `n` bytes. -/
theorem base32_last_group (b0 b1 b2 b3 : Byte) :
    (base32.octets ((base32.quintets b0 0 0 0 0).take 2 ++ List.replicate 6 0)).take 1
      = [b0] ∧
    (base32.octets ((base32.quintets b0 b1 0 0 0).take 4 ++ List.replicate 4 0)).take 2
      = [b0, b1] ∧
    (base32.octets ((base32.quintets b0 b1 b2 0 0).take 5 ++ List.replicate 3 0)).take 3
      = [b0, b1, b2] ∧
    (base32.octets ((base32.quintets b0 b1 b2 b3 0).take 7 ++ List.replicate 1 0)).take 4
      = [b0, b1, b2, b3] := by
  have h0 := b0.isLt
  have h1 := b1.isLt
  have h2 := b2.isLt
  have h3 := b3.isLt
  simp only [base32.quintets, base32.octets, List.take, List.replicate, List.cons_append,
    List.nil_append, List.cons.injEq, and_true, Fin.ofNat, Fin.val_zero]
  refine ⟨?_, ⟨?_, ?_⟩, ⟨?_, ?_, ?_⟩, ⟨?_, ?_, ?_, ?_⟩⟩ <;> apply Fin.ext <;>
    simp only [] <;> omega

theorem base32_take_lt (b0 b1 b2 b3 b4 : Byte) (k : Nat) :
    ∀ v ∈ (base32.quintets b0 b1 b2 b3 b4).take k, v < 32 :=
  fun v hv => base32_quintets_lt b0 b1 b2 b3 b4 v (List.mem_of_mem_take hv)

/-- Decoding undoes encoding: `DecodeString (EncodeToString s)` is `s`. -/
theorem base32_DecodeString_EncodeToString (s : List Byte) :
    base32.DecodeString (base32.EncodeToString s) = some s := by
  induction s using base32.EncodeToString.induct with
  | case1 => rfl
  | case2 b0 =>
    have hg : base32.decodeGroup (base32.EncodeToString [b0]) true = some [b0] := by
      exact Eq.trans (base32_decodeGroup ((base32.quintets b0 0 0 0 0).take 2) 1 true
        (base32_take_lt _ _ _ _ _ _) rfl (Or.inr rfl)) (congrArg some (base32_last_group b0 0 0 0).1)
    have h := base32_DecodeString_group (base32.EncodeToString [b0]) [] rfl
    rw [List.append_nil, show ([] : List Byte).isEmpty = true from rfl] at h
    rw [h, hg]
    rfl
  | case3 b0 b1 =>
    have hg : base32.decodeGroup (base32.EncodeToString [b0, b1]) true = some [b0, b1] := by
      exact Eq.trans (base32_decodeGroup ((base32.quintets b0 b1 0 0 0).take 4) 2 true
        (base32_take_lt _ _ _ _ _ _) rfl (Or.inr rfl)) (congrArg some (base32_last_group b0 b1 0 0).2.1)
    have h := base32_DecodeString_group (base32.EncodeToString [b0, b1]) [] rfl
    rw [List.append_nil, show ([] : List Byte).isEmpty = true from rfl] at h
    rw [h, hg]
    rfl
  | case4 b0 b1 b2 =>
    have hg : base32.decodeGroup (base32.EncodeToString [b0, b1, b2]) true = some [b0, b1, b2] := by
      exact Eq.trans (base32_decodeGroup ((base32.quintets b0 b1 b2 0 0).take 5) 3 true
        (base32_take_lt _ _ _ _ _ _) rfl (Or.inr rfl)) (congrArg some (base32_last_group b0 b1 b2 0).2.2.1)
    have h := base32_DecodeString_group (base32.EncodeToString [b0, b1, b2]) [] rfl
    rw [List.append_nil, show ([] : List Byte).isEmpty = true from rfl] at h
    rw [h, hg]
    rfl
  | case5 b0 b1 b2 b3 =>
    have hg : base32.decodeGroup (base32.EncodeToString [b0, b1, b2, b3]) true = some [b0, b1, b2, b3] := by
      exact Eq.trans (base32_decodeGroup ((base32.quintets b0 b1 b2 b3 0).take 7) 4 true
        (base32_take_lt _ _ _ _ _ _) rfl (Or.inr rfl)) (congrArg some (base32_last_group b0 b1 b2 b3).2.2.2)
    have h := base32_DecodeString_group (base32.EncodeToString [b0, b1, b2, b3]) [] rfl
    rw [List.append_nil, show ([] : List Byte).isEmpty = true from rfl] at h
    rw [h, hg]
    rfl
  | case6 b0 b1 b2 b3 b4 rest ih =>
    have hg : base32.decodeGroup ((base32.quintets b0 b1 b2 b3 b4).map base32.char)
        (base32.EncodeToString rest).isEmpty = some [b0, b1, b2, b3, b4] := by
      have e : [b0, b1, b2, b3, b4]
          = (base32.octets (base32.quintets b0 b1 b2 b3 b4 ++ List.replicate 0 0)).take 5 := by
        rw [List.replicate_zero, List.append_nil, base32_octets_quintets]
        rfl
      exact Eq.trans (base32_decodeGroup (base32.quintets b0 b1 b2 b3 b4) 5 _
        (base32_quintets_lt _ _ _ _ _) rfl (Or.inl rfl)) (congrArg some e.symm)
    unfold base32.EncodeToString
    rw [base32_DecodeString_group _ _ (by rfl), ih, hg]
    rfl

/-! ## Lemmas on the URL of `BarcodeImage` -/

theorem bytes_otpauth : bytes "otpauth" = [111, 116, 112, 97, 117, 116, 104] := by decide!

theorem bytes_totp : bytes "totp" = [116, 111, 116, 112] := by decide!

theorem bytes_slash : bytes "/" = [47] := by decide!

theorem bytes_secret : bytes "secret" = [115, 101, 99, 114, 101, 116] := by decide!

theorem bytes_digits : bytes "digits" = [100, 105, 103, 105, 116, 115] := by decide!

theorem bytes_period : bytes "period" = [112, 101, 114, 105, 111, 100] := by decide!

theorem bytes_origin : bytes "otpauth://totp/" = [111, 116, 112, 97, 117, 116, 104, 58, 47, 47, 116, 111, 116, 112, 47] := by decide!

theorem bytes_qdigits : bytes "?digits=" = [63, 100, 105, 103, 105, 116, 115, 61] := by decide!

theorem bytes_aperiod : bytes "&period=" = [38, 112, 101, 114, 105, 111, 100, 61] := by decide!

theorem bytes_asecret : bytes "&secret=" = [38, 115, 101, 99, 114, 101, 116, 61] := by decide!

/-- Digits and the minus sign are not escaped in a query component. -/
theorem shouldEscape_decimal (c : Byte) (h : c.val = 45 ∨ (48 ≤ c.val ∧ c.val ≤ 57)) :
    url.shouldEscape c .encodeQueryComponent = false := by
  revert c; decide!

theorem QueryEscape_Itoa (i : Int) : url.QueryEscape (Itoa i) = Itoa i :=
  escape_of_safe _ _ fun c hc => shouldEscape_decimal c (Itoa_bytes i c hc)

/-- The query that `BarcodeImage` encodes: the three parameters sorted by
key. -/
theorem Encode_params (s d p : List Byte) :
    url.Values.Encode [(bytes "secret", [s]), (bytes "digits", [d]), (bytes "period", [p])]
      = bytes "digits" ++ 61 :: url.QueryEscape d ++ 38 :: (bytes "period"
        ++ 61 :: url.QueryEscape p ++ 38 :: (bytes "secret" ++ 61 :: url.QueryEscape s)) := by
  have h1 : url.stringLess (bytes "period") (bytes "digits") = false := by decide!
  have h2 : url.stringLess (bytes "digits") (bytes "secret") = true := by decide!
  have h3 : url.stringLess (bytes "period") (bytes "secret") = true := by decide!
  have e1 : url.QueryEscape (bytes "digits") = bytes "digits" := by decide!
  have e2 : url.QueryEscape (bytes "period") = bytes "period" := by decide!
  have e3 : url.QueryEscape (bytes "secret") = bytes "secret" := by decide!
  simp only [url.Values.Encode, List.foldr, url.insertKey, h1, h2, h3, if_true, if_false,
    List.flatMap_cons, List.flatMap_nil, List.map_cons, List.map_nil, e1, e2, e3,
    List.intersperse, List.flatten, List.append_nil, List.singleton_append, List.cons_append,
    List.nil_append, List.append_assoc]

/-- The string `u.String()` of lines 24-38: the scheme and the host, the
escaped path, and the query with its parameters sorted by key. -/
theorem provisioningURL_String (label secretkey : List Byte) (opt : Options) :
    (provisioningURL label secretkey opt).String
      = bytes "otpauth://totp/" ++ url.escape label .encodePath
        ++ bytes "?digits=" ++ Itoa opt.Digits
        ++ bytes "&period=" ++ Itoa (Int.tdiv opt.TimeStep Second)
        ++ bytes "&secret=" ++ url.QueryEscape (base32.EncodeToString secretkey) := by
  have hhost : url.escape (bytes "totp") .encodeHost = bytes "totp" := by decide!
  have hslash : url.shouldEscape 47 .encodePath = false := by decide!
  have hpath : url.escape (bytes "/" ++ label) .encodePath
      = 47 :: url.escape label .encodePath := by
    rw [bytes_slash, List.singleton_append, url.escape, if_neg (by decide), hslash]
    rfl
  have hne : bytes "/" ++ label ≠ [42] := by
    rw [bytes_slash, List.singleton_append]
    intro e
    cases e
  unfold provisioningURL URL.String URL.EscapedPath
  simp only [Encode_params, QueryEscape_Itoa, hpath, hhost, if_neg hne]
  simp only [bytes_otpauth, bytes_totp, bytes_origin, bytes_qdigits, bytes_aperiod,
    bytes_asecret, bytes_digits, bytes_period, bytes_secret]
  simp

/-- A byte that is kept differs from every byte that is escaped. -/
theorem ne_of_shouldEscape (c x : Byte) (mode : url.encoding)
    (hx : url.shouldEscape x mode = true) (hc : url.shouldEscape c mode = false) : c ≠ x := by
  intro e
  rw [e, hx] at hc
  cases hc

/-- An escaped path has no `#` and no `?`. -/
theorem escape_path_bytes (s : List Byte) :
    (35 : Byte) ∉ url.escape s .encodePath ∧ (63 : Byte) ∉ url.escape s .encodePath := by
  have h35 : url.shouldEscape 35 .encodePath = true := by decide!
  have h63 : url.shouldEscape 63 .encodePath = true := by decide!
  have h := escape_all (fun c => c ≠ 35 ∧ c ≠ 63) .encodePath (by decide)
    (fun e => by cases e) (by decide!)
    (fun c hc => ⟨ne_of_shouldEscape c 35 _ h35 hc, ne_of_shouldEscape c 63 _ h63 hc⟩) s
  exact ⟨fun m => (h _ m).1 rfl, fun m => (h _ m).2 rfl⟩

/-- An escaped query component has no `#`, no `&` and no `=`. -/
theorem QueryEscape_bytes (s : List Byte) :
    (35 : Byte) ∉ url.QueryEscape s ∧ (38 : Byte) ∉ url.QueryEscape s ∧
      (61 : Byte) ∉ url.QueryEscape s := by
  have h35 : url.shouldEscape 35 .encodeQueryComponent = true := by decide!
  have h38 : url.shouldEscape 38 .encodeQueryComponent = true := by decide!
  have h61 : url.shouldEscape 61 .encodeQueryComponent = true := by decide!
  have h := escape_all (fun c => c ≠ 35 ∧ c ≠ 38 ∧ c ≠ 61) .encodeQueryComponent (by decide)
    (fun _ => by decide) (by decide!)
    (fun c hc => ⟨ne_of_shouldEscape c 35 _ h35 hc, ne_of_shouldEscape c 38 _ h38 hc,
      ne_of_shouldEscape c 61 _ h61 hc⟩) s
  exact ⟨fun m => (h _ m).1 rfl, fun m => (h _ m).2.1 rfl, fun m => (h _ m).2.2 rfl⟩

theorem unescape_QueryEscape (s : List Byte) :
    url.unescape (url.QueryEscape s) .encodeQueryComponent = some s :=
  unescape_escape s _

/-- One parameter `key=value` of a query read back, for a key without `=`. -/
theorem cut_param (k v : List Byte) (hk : (61 : Byte) ∉ k) :
    url.cut 61 (k ++ 61 :: url.QueryEscape v) = (k, some (url.QueryEscape v)) :=
  cut_append 61 k _ hk

/-- The query of `BarcodeImage` read back by `url.ParseQuery`. -/
theorem ParseQuery_params (s d p : List Byte) :
    url.ParseQuery (url.Values.Encode
        [(bytes "secret", [s]), (bytes "digits", [d]), (bytes "period", [p])])
      = some [(bytes "digits", d), (bytes "period", p), (bytes "secret", s)] := by
  have hd := QueryEscape_bytes d
  have hp := QueryEscape_bytes p
  have hs := QueryEscape_bytes s
  have k1 : (38 : Byte) ∉ bytes "digits" ∧ (61 : Byte) ∉ bytes "digits" := by decide!
  have k2 : (38 : Byte) ∉ bytes "period" ∧ (61 : Byte) ∉ bytes "period" := by decide!
  have k3 : (38 : Byte) ∉ bytes "secret" ∧ (61 : Byte) ∉ bytes "secret" := by decide!
  have u1 : url.unescape (bytes "digits") .encodeQueryComponent = some (bytes "digits") := by
    decide!
  have u2 : url.unescape (bytes "period") .encodeQueryComponent = some (bytes "period") := by
    decide!
  have u3 : url.unescape (bytes "secret") .encodeQueryComponent = some (bytes "secret") := by
    decide!
  have n1 : bytes "digits" ≠ [] := by decide!
  have n2 : bytes "period" ≠ [] := by decide!
  have n3 : bytes "secret" ≠ [] := by decide!
  have m1 : (38 : Byte) ∉ bytes "digits" ++ 61 :: url.QueryEscape d := by
    simp [k1.1, hd.2.1]
  have m2 : (38 : Byte) ∉ bytes "period" ++ 61 :: url.QueryEscape p := by
    simp [k2.1, hp.2.1]
  have m3 : (38 : Byte) ∉ bytes "secret" ++ 61 :: url.QueryEscape s := by
    simp [k3.1, hs.2.1]
  rw [Encode_params]
  unfold url.ParseQuery
  rw [split_append 38 _ _ m1, split_append 38 _ _ m2, split_of_not_mem 38 _ m3]
  simp only [List.filter, List.append_eq_nil, n1, n2, n3, false_and, ne_eq, not_false_eq_true,
    decide_True, List.mapM_cons, List.mapM_nil, cut_param _ _ k1.2, cut_param _ _ k2.2,
    cut_param _ _ k3.2, u1, u2, u3, Option.getD_some, unescape_QueryEscape]
  rfl

/-- The query of the URL of `BarcodeImage` has no `#`. -/
theorem provisioningURL_RawQuery (label secretkey : List Byte) (opt : Options) :
    (provisioningURL label secretkey opt).RawQuery ≠ [] ∧
    (35 : Byte) ∉ (provisioningURL label secretkey opt).RawQuery := by
  have k1 : (35 : Byte) ∉ bytes "digits" ∧ bytes "digits" ≠ [] := by decide!
  have k2 : (35 : Byte) ∉ bytes "period" := by decide!
  have k3 : (35 : Byte) ∉ bytes "secret" := by decide!
  unfold provisioningURL
  simp only [Encode_params]
  constructor
  · simp [k1.2]
  · simp [k1.1, k2, k3, (QueryEscape_bytes _).1]

/-- The string of a URL with the scheme and the host of `BarcodeImage`, part
by part. -/
theorem URL_String_parts (u : URL) (label : List Byte) (hS : u.Scheme = bytes "otpauth")
    (hH : u.Host = bytes "totp") (hP : u.Path = 47 :: label) (hq : u.RawQuery ≠ []) :
    u.String = bytes "otpauth" ++ 58 :: ((47 :: 47 :: (bytes "totp"
      ++ url.escape (47 :: label) .encodePath)) ++ 63 :: u.RawQuery) := by
  have hhost : url.escape (bytes "totp") .encodeHost = bytes "totp" := by decide!
  have hslash : url.shouldEscape 47 .encodePath = false := by decide!
  have hpath : url.escape (47 :: label) .encodePath
      = 47 :: url.escape label .encodePath := by
    rw [url.escape, if_neg (by decide), hslash]
    rfl
  unfold URL.String URL.EscapedPath
  rw [hS, hH, hP, hhost, hpath]
  simp only [bytes_otpauth, bytes_totp]
  simp [hq]

theorem provisioningURL_Path (label secretkey : List Byte) (opt : Options) :
    (provisioningURL label secretkey opt).Path = 47 :: label := by
  unfold provisioningURL
  simp only [bytes_slash, List.singleton_append]

theorem provisioningURL_parts (label secretkey : List Byte) (opt : Options) :
    (provisioningURL label secretkey opt).String
      = bytes "otpauth" ++ 58 :: ((47 :: 47 :: (bytes "totp"
          ++ url.escape (47 :: label) .encodePath))
          ++ 63 :: (provisioningURL label secretkey opt).RawQuery) :=
  URL_String_parts _ label rfl rfl (provisioningURL_Path label secretkey opt)
    (provisioningURL_RawQuery label secretkey opt).1

/-- Go's `url.Parse` reads the URL of `BarcodeImage` back from its string:
the scheme, the host, the path with the label and the query. -/
theorem Parse_provisioningURL (label secretkey : List Byte) (opt : Options) :
    url.Parse (provisioningURL label secretkey opt).String
      = some (provisioningURL label secretkey opt) := by
  have hq := (provisioningURL_RawQuery label secretkey opt).2
  have hl := escape_path_bytes (47 :: label)
  have s1 : (35 : Byte) ∉ bytes "otpauth" ∧ (58 : Byte) ∉ bytes "otpauth" ∧
      bytes "otpauth" ≠ [] ∧ (bytes "otpauth").all url.schemeByte = true := by decide!
  have s2 : (35 : Byte) ∉ bytes "totp" ∧ (63 : Byte) ∉ bytes "totp" := by decide!
  have hslash : url.shouldEscape 47 .encodePath = false := by decide!
  have hpath : url.escape (47 :: label) .encodePath
      = 47 :: url.escape label .encodePath := by
    rw [url.escape, if_neg (by decide), hslash]
    rfl
  have hP := provisioningURL_Path label secretkey opt
  have hS : (provisioningURL label secretkey opt).Scheme = bytes "otpauth" := rfl
  have hH : (provisioningURL label secretkey opt).Host = bytes "totp" := rfl
  have hun := unescape_escape (47 :: label) .encodePath
  rw [provisioningURL_parts]
  generalize hQ : (provisioningURL label secretkey opt).RawQuery = Q at hq ⊢
  have c1 : url.cut 35 (bytes "otpauth" ++ 58 :: ((47 :: 47 :: (bytes "totp"
      ++ url.escape (47 :: label) .encodePath)) ++ 63 :: Q))
      = (bytes "otpauth" ++ 58 :: ((47 :: 47 :: (bytes "totp"
      ++ url.escape (47 :: label) .encodePath)) ++ 63 :: Q), none) := by
    apply cut_of_not_mem
    simp [s1.1, s2.1, hl.1, hq]
  have c2 : url.cut 63 ((47 :: 47 :: (bytes "totp"
      ++ url.escape (47 :: label) .encodePath)) ++ 63 :: Q)
      = (47 :: 47 :: (bytes "totp" ++ url.escape (47 :: label) .encodePath), some Q) := by
    apply cut_append
    simp [s2.2, hl.2]
  unfold url.Parse
  simp only [c1, cut_append 58 _ _ s1.2.1, c2]
  rw [if_neg (by simp [s1.2.2.1, s1.2.2.2])]
  rw [if_neg (by simp)]
  simp only [List.drop_succ_cons, List.drop_zero, Option.getD_some]
  rw [hpath] at hun ⊢
  have hd : (bytes "totp" ++ 47 :: url.escape label .encodePath).dropWhile
      (fun c => c.val ≠ 47) = 47 :: url.escape label .encodePath := by
    rw [bytes_totp]; rfl
  have ht : (bytes "totp" ++ 47 :: url.escape label .encodePath).takeWhile
      (fun c => c.val ≠ 47) = bytes "totp" := by
    rw [bytes_totp]; rfl
  rw [hd, ht, hun]
  rw [← hP, ← hS, ← hH, ← hQ]

/-! ## C15: the provisioning URI -/

/-- The bytes of a base32 text are characters of the alphabet and padding. -/
theorem base32_bytes (s : List Byte) :
    ∀ c ∈ base32.EncodeToString s, c = base32.StdPadding ∨ ∃ v, c = base32.char v := by
  induction s using base32.EncodeToString.induct with
  | case1 => intro c hc; simp [base32.EncodeToString] at hc
  | case2 b0 =>
    intro c hc
    simp only [base32.EncodeToString, List.mem_append, List.mem_map, List.mem_replicate] at hc
    rcases hc with ⟨v, _, e⟩ | ⟨_, e⟩
    · exact Or.inr ⟨v, e.symm⟩
    · exact Or.inl e
  | case3 b0 b1 =>
    intro c hc
    simp only [base32.EncodeToString, List.mem_append, List.mem_map, List.mem_replicate] at hc
    rcases hc with ⟨v, _, e⟩ | ⟨_, e⟩
    · exact Or.inr ⟨v, e.symm⟩
    · exact Or.inl e
  | case4 b0 b1 b2 =>
    intro c hc
    simp only [base32.EncodeToString, List.mem_append, List.mem_map, List.mem_replicate] at hc
    rcases hc with ⟨v, _, e⟩ | ⟨_, e⟩
    · exact Or.inr ⟨v, e.symm⟩
    · exact Or.inl e
  | case5 b0 b1 b2 b3 =>
    intro c hc
    simp only [base32.EncodeToString, List.mem_append, List.mem_map, List.mem_replicate] at hc
    rcases hc with ⟨v, _, e⟩ | ⟨_, e⟩
    · exact Or.inr ⟨v, e.symm⟩
    · exact Or.inl e
  | case6 b0 b1 b2 b3 b4 rest ih =>
    intro c hc
    simp only [base32.EncodeToString, List.mem_append, List.mem_map] at hc
    rcases hc with ⟨v, _, e⟩ | h
    · exact Or.inr ⟨v, e.symm⟩
    · exact ih c h

theorem shouldEscape_base32_char (v : Nat) :
    url.shouldEscape (base32.char v) .encodeQueryComponent = false := by
  have h : ∀ k : Fin 32, url.shouldEscape (base32.char k.val) .encodeQueryComponent = false := by
    decide!
  rw [base32_char_mod]
  exact h ⟨v % 32, Nat.mod_lt _ (by decide)⟩

/-- In a query component a base32 text keeps its characters, except that
each `=` of the padding is written `%3D`. -/
theorem QueryEscape_base32 (s : List Byte) :
    url.QueryEscape (base32.EncodeToString s)
      = (base32.EncodeToString s).flatMap fun c =>
          if c = base32.StdPadding then bytes "%3D" else [c] := by
  have h := base32_bytes s
  generalize base32.EncodeToString s = t at h
  have e3D : url.escape [base32.StdPadding] .encodeQueryComponent = bytes "%3D" := by decide!
  unfold url.QueryEscape
  induction t with
  | nil => rfl
  | cons c cs ih =>
    have hcs := ih fun x hx => h x (by simp [hx])
    rw [List.flatMap_cons, ← hcs, ← List.singleton_append, escape_append]
    congr 1
    rcases h c (by simp) with e | ⟨v, e⟩
    · rw [e, if_pos rfl, e3D]
    · rw [e, if_neg (base32_char_ne_pad v)]
      exact escape_of_safe _ _ fun x hx => by
        rw [List.mem_singleton.mp hx]
        exact shouldEscape_base32_char v

/-- C15, as stated, fails. For the call of `TestPrint` the URI handed to the
encoder has its parameters in the order digits, period, secret, and is not
the string of the specification; the padding of the base32 text of a 1-byte
secret appears as `%3D`, not as `=`; and a space in the label appears as
`%20`. -/
theorem C15_counterexample :
    BarcodeImage (ε := List Byte) (κ := Unit) (some NewOptions)
        { Encode := fun text => .error text, PNG := fun _ => [] }
        (bytes "foo@bar.com") (bytes "hello") none
      = .ok (.error
          (bytes "otpauth://totp/foo@bar.com?digits=6&period=30&secret=NBSWY3DP")) ∧
    specURI (bytes "foo@bar.com") (bytes "hello") NewOptions
      = bytes "otpauth://totp/foo@bar.com?secret=NBSWY3DP&digits=6&period=30" ∧
    (provisioningURL (bytes "foo@bar.com") (bytes "hello") NewOptions).String
      ≠ specURI (bytes "foo@bar.com") (bytes "hello") NewOptions ∧
    base32.EncodeToString (bytes "a") = bytes "ME======" ∧
    (provisioningURL (bytes "a b") (bytes "a") NewOptions).String
      = bytes "otpauth://totp/a%20b?digits=6&period=30&secret=ME%3D%3D%3D%3D%3D%3D" := by
  refine ⟨?_, ?_, ?_, ?_, ?_⟩ <;> decide!

/-- C15 (amended): for every label, secret key and configuration (the one
given, or the one that the package variable `DefaultOptions` holds when nil is
given), the string that `BarcodeImage` hands to the image encoder is
`otpauth://totp/`, the label escaped as a URL path, `?digits=` and the digit
count in decimal, `&period=` and the whole seconds of the time step in
decimal, `&secret=` and the base32 text of the secret escaped as a query
component: the parameters are sorted by key. A label whose bytes a path does
not escape appears as such, and the base32 text appears with each `=` of its
padding written `%3D`. -/
theorem C15_provisioning_uri {ε κ : Type} (D : Option Options) (qr : QR ε κ)
    (label secretkey : List Byte) (opt : Option Options) (o : Options)
    (ho : orDefault D opt = some o) :
    BarcodeImage D qr label secretkey opt
      = .ok (match qr.Encode (bytes "otpauth://totp/" ++ url.escape label .encodePath
          ++ bytes "?digits=" ++ Itoa o.Digits
          ++ bytes "&period=" ++ Itoa (Int.tdiv o.TimeStep Second)
          ++ bytes "&secret=" ++ url.QueryEscape (base32.EncodeToString secretkey)) with
        | .error err => .error err
        | .ok c => .ok (qr.PNG c)) ∧
    ((∀ c ∈ label, url.shouldEscape c .encodePath = false) →
      url.escape label .encodePath = label) ∧
    url.QueryEscape (base32.EncodeToString secretkey)
      = (base32.EncodeToString secretkey).flatMap fun c =>
          if c = base32.StdPadding then bytes "%3D" else [c] := by
  refine ⟨?_, escape_of_safe label _, QueryEscape_base32 secretkey⟩
  rw [← provisioningURL_String]
  exact BarcodeImage_eq D qr label secretkey opt o ho

/-- C15, witness: the label and the secret of `TestPrint` under the default
options, with an encoder that fails with the text it was given. -/
theorem C15_provisioning_uri_witness :
    (∀ c ∈ bytes "foo@bar.com", url.shouldEscape c .encodePath = false) ∧
    url.escape (bytes "foo@bar.com") .encodePath = bytes "foo@bar.com" :=
  ⟨by decide!, (C15_provisioning_uri (ε := List Byte) (κ := Unit) (some NewOptions)
    { Encode := fun text => .error text, PNG := fun _ => [] }
    (bytes "foo@bar.com") (bytes "hello") none NewOptions rfl).2.1 (by decide!)⟩

/-! ## C16: the provisioning URI read back -/

/-- The parameters of the query of `BarcodeImage`, looked up by key. -/
theorem lookup_params (s d p : List Byte) :
    List.lookup (bytes "secret")
        [(bytes "digits", d), (bytes "period", p), (bytes "secret", s)] = some s ∧
    List.lookup (bytes "digits")
        [(bytes "digits", d), (bytes "period", p), (bytes "secret", s)] = some d ∧
    List.lookup (bytes "period")
        [(bytes "digits", d), (bytes "period", p), (bytes "secret", s)] = some p := by
  have h1 : (bytes "secret" == bytes "digits") = false := by decide!
  have h2 : (bytes "secret" == bytes "period") = false := by decide!
  have h3 : (bytes "period" == bytes "digits") = false := by decide!
  have h4 : (bytes "secret" == bytes "secret") = true := by decide!
  have h5 : (bytes "digits" == bytes "digits") = true := by decide!
  have h6 : (bytes "period" == bytes "period") = true := by decide!
  simp only [List.lookup, h1, h2, h3, h4, h5, h6, and_self]

/-- C16, as stated, fails for a time step that is not a whole number of
seconds: with a time step of 1.5 seconds the URI of `BarcodeImage`, read
back, has the period 1, and 1 second is not the time step. -/
theorem C16_counterexample :
    url.Parse (provisioningURL (bytes "foo@bar.com") (bytes "hello")
        { NewOptions with TimeStep := 1500000000 }).String
      = some { Scheme := bytes "otpauth", Host := bytes "totp", Path := bytes "/foo@bar.com",
               RawQuery := bytes "digits=6&period=1&secret=NBSWY3DP" } ∧
    url.ParseQuery (bytes "digits=6&period=1&secret=NBSWY3DP")
      = some [(bytes "digits", bytes "6"), (bytes "period", bytes "1"),
              (bytes "secret", bytes "NBSWY3DP")] ∧
    ParseInt (bytes "1") = .ok 1 ∧
    (1 : Int) * Second ≠ 1500000000 := by
  refine ⟨?_, ?_, ?_, ?_⟩ <;> decide!

/-- C16 (amended): for every label, secret key, digit count below 256 and
time step in `int64`, parsing the URI that `BarcodeImage` builds as a URL
gives the scheme `otpauth`, the host `totp` and a path that is `/` followed by
the label; its query has a parameter `secret` whose base32 decoding is the
secret, a parameter `digits` that reads as the digit count, and a parameter
`period` that reads as the time step divided by one second, truncated: in
seconds it equals the time step if that is a whole number of seconds. -/
theorem C16_round_trip (label secretkey : List Byte) (opt : Options)
    (hd : opt.Digits < 256) (ht : isInt64 opt.TimeStep) :
    ∃ u q, url.Parse (provisioningURL label secretkey opt).String = some u ∧
      u.Scheme = bytes "otpauth" ∧ u.Host = bytes "totp" ∧
      u.Path.head? = some 47 ∧ u.Path.drop 1 = label ∧
      url.ParseQuery u.RawQuery = some q ∧
      (q.lookup (bytes "secret")).bind base32.DecodeString = some secretkey ∧
      (q.lookup (bytes "digits")).map ParseInt = some (.ok opt.Digits) ∧
      (q.lookup (bytes "period")).map ParseInt
        = some (.ok (Int.tdiv opt.TimeStep Second)) ∧
      (opt.TimeStep % Second = 0 → Int.tdiv opt.TimeStep Second * Second = opt.TimeStep) := by
  have hq : url.ParseQuery (provisioningURL label secretkey opt).RawQuery
      = some [(bytes "digits", Itoa opt.Digits),
              (bytes "period", Itoa (Int.tdiv opt.TimeStep Second)),
              (bytes "secret", base32.EncodeToString secretkey)] :=
    ParseQuery_params _ _ _
  have hl := lookup_params (base32.EncodeToString secretkey) (Itoa opt.Digits)
    (Itoa (Int.tdiv opt.TimeStep Second))
  have hp : (Int.tdiv opt.TimeStep Second).natAbs < 10 ^ 18 := by
    unfold isInt64 at ht
    unfold Second
    rcases Int.le_total 0 opt.TimeStep with h | h
    · rw [Int.tdiv_eq_ediv h (by decide)]
      omega
    · have e : opt.TimeStep = -(-opt.TimeStep) := by omega
      rw [e, Int.neg_tdiv, Int.tdiv_eq_ediv (by omega) (by decide)]
      omega
  refine ⟨_, _, Parse_provisioningURL label secretkey opt, rfl, rfl, ?_, ?_, hq, ?_, ?_, ?_, ?_⟩
  · rw [provisioningURL_Path]; rfl
  · rw [provisioningURL_Path]; rfl
  · rw [hl.1]
    exact base32_DecodeString_EncodeToString secretkey
  · rw [hl.2.1, Option.map_some', ParseInt_Itoa _ (by omega)]
  · rw [hl.2.2, Option.map_some', ParseInt_Itoa _ hp]
  · intro hw
    unfold Second at *
    rcases Int.le_total 0 opt.TimeStep with h | h
    · rw [Int.tdiv_eq_ediv h (by decide)]
      omega
    · have e : opt.TimeStep = -(-opt.TimeStep) := by omega
      rw [e, Int.neg_tdiv, Int.tdiv_eq_ediv (by omega) (by decide)]
      omega

/-- C16, witness: the label and the secret of `TestPrint` under the default
options. -/
theorem C16_round_trip_witness :
    ∃ u q, url.Parse (provisioningURL (bytes "foo@bar.com") (bytes "hello")
        NewOptions).String = some u ∧
      u.Scheme = bytes "otpauth" ∧ u.Host = bytes "totp" ∧
      u.Path.head? = some 47 ∧ u.Path.drop 1 = bytes "foo@bar.com" ∧
      url.ParseQuery u.RawQuery = some q ∧
      (q.lookup (bytes "secret")).bind base32.DecodeString = some (bytes "hello") ∧
      (q.lookup (bytes "digits")).map ParseInt = some (.ok NewOptions.Digits) ∧
      (q.lookup (bytes "period")).map ParseInt
        = some (.ok (Int.tdiv NewOptions.TimeStep Second)) ∧
      (NewOptions.TimeStep % Second = 0 →
        Int.tdiv NewOptions.TimeStep Second * Second = NewOptions.TimeStep) :=
  C16_round_trip (bytes "foo@bar.com") (bytes "hello") NewOptions (by decide) (by decide)

/-! ## C18: an empty label -/

/-- C18, as stated, fails: for the empty label `BarcodeImage` signals no
error; it hands the URI `otpauth://totp/?...` to the encoder and returns the
image of an encoder that succeeds. -/
theorem C18_counterexample :
    BarcodeImage (ε := Unit) (κ := List Byte) (some NewOptions)
        { Encode := fun text => .ok text, PNG := fun c => c }
        [] (bytes "hello") none
      = .ok (.ok (bytes "otpauth://totp/?digits=6&period=30&secret=NBSWY3DP")) := by
  decide!

/-- C18 (amended): for every label, the empty label included, and every
secret and configuration (the one given, or the one that the package variable
`DefaultOptions` holds when nil is given), `BarcodeImage` has no error of its
own: an error that it returns is the error of the encoder on the URI, and it
returns an image whenever the encoder succeeds. For the empty label the URI is
`otpauth://totp/` followed by the query. -/
theorem C18_no_format_error {ε κ : Type} (D : Option Options) (qr : QR ε κ)
    (label secretkey : List Byte) (opt : Option Options) (o : Options)
    (ho : orDefault D opt = some o) :
    (∀ e, BarcodeImage D qr label secretkey opt = .ok (.error e) →
      qr.Encode (provisioningURL label secretkey o).String = .error e) ∧
    ((∃ c, qr.Encode (provisioningURL label secretkey o).String = .ok c) →
      ∃ png, BarcodeImage D qr label secretkey opt = .ok (.ok png)) ∧
    (provisioningURL [] secretkey o).String
      = bytes "otpauth://totp/"
        ++ bytes "?digits=" ++ Itoa o.Digits
        ++ bytes "&period=" ++ Itoa (Int.tdiv o.TimeStep Second)
        ++ bytes "&secret=" ++ url.QueryEscape (base32.EncodeToString secretkey) := by
  rw [BarcodeImage_eq D qr label secretkey opt o ho]
  refine ⟨?_, ?_, ?_⟩
  · intro e h
    split at h
    · rename_i err he
      rw [he]
      cases h
      rfl
    · cases h
  · rintro ⟨c, hc⟩
    exact ⟨qr.PNG c, by rw [hc]⟩
  · rw [provisioningURL_String]
    simp [url.escape]

/-- C18, witness: the empty label with an encoder that fails with the error
7, and with an encoder that succeeds. -/
theorem C18_no_format_error_witness :
    (BarcodeImage (ε := Nat) (κ := Unit) (some NewOptions)
        { Encode := fun _ => .error 7, PNG := fun _ => [] }
        [] (bytes "hello") none = .ok (.error 7) ∧
      (fun _ => (.error 7 : Except Nat Unit))
        (provisioningURL [] (bytes "hello") NewOptions).String = .error 7) ∧
    ∃ png, BarcodeImage (ε := Nat) (κ := Unit) (some NewOptions)
      { Encode := fun _ => .ok (), PNG := fun _ => [1, 2, 3] } [] (bytes "hello") none
        = .ok (.ok png) :=
  ⟨⟨rfl, (C18_no_format_error (ε := Nat) (κ := Unit) (some NewOptions)
      { Encode := fun _ => .error 7, PNG := fun _ => [] } [] (bytes "hello") none
      NewOptions rfl).1 7 rfl⟩,
   (C18_no_format_error (ε := Nat) (κ := Unit) (some NewOptions)
      { Encode := fun _ => .ok (), PNG := fun _ => [1, 2, 3] } [] (bytes "hello") none
      NewOptions rfl).2.1 ⟨(), rfl⟩⟩

end totp
